import Mathlib

/-
Verification development for the mom-missing-charters tracker.

The Python sources (src/utils.py, src/backup_parser.py, src/charter_tracker.py,
src/database.py, main.py) are shallowly embedded as executable Lean functions.
Strings are modelled as List Char (one entry per Unicode scalar value, matching
the Python str model); machine-independent Nat arithmetic is used throughout.
Library calls from the Python standard library (urllib.parse.unquote,
html.unescape, unicodedata.normalize, codec tables) are modelled explicitly;
each model carries a doc comment stating exactly what is modelled and which
behaviours the development relies on.
-/

namespace Mom

/-! ## Character helpers -/

/-- Whitespace characters removed by the Python str.strip() method with no
arguments (ASCII whitespace, C1 separators and the Unicode space characters). -/
def isPySpace (c : Char) : Bool :=
  c ∈ [' ', '\t', '\n', '\r', '\x0B', '\x0C',
       '\x1C', '\x1D', '\x1E', '\x1F', '\x85', '\xA0',
       Char.ofNat 0x1680, Char.ofNat 0x2000, Char.ofNat 0x2001, Char.ofNat 0x2002,
       Char.ofNat 0x2003, Char.ofNat 0x2004, Char.ofNat 0x2005, Char.ofNat 0x2006,
       Char.ofNat 0x2007, Char.ofNat 0x2008, Char.ofNat 0x2009, Char.ofNat 0x200A,
       Char.ofNat 0x2028, Char.ofNat 0x2029, Char.ofNat 0x202F, Char.ofNat 0x205F,
       Char.ofNat 0x3000]

/-- ASCII decimal digit characters: the class [0-9] written out explicitly in
the numeric character reference regex of html.unescape. -/
def isDigitPy (c : Char) : Bool :=
  c ∈ ['0', '1', '2', '3', '4', '5', '6', '7', '8', '9']

/-- Hexadecimal digit characters, both cases (regex class [0-9A-Fa-f]). -/
def isHexDigitPy (c : Char) : Bool :=
  c ∈ ['a', 'b', 'c', 'd', 'e', 'f', 'A', 'B', 'C', 'D', 'E', 'F',
       '0', '1', '2', '3', '4', '5', '6', '7', '8', '9']

/-- Numeric value of a hexadecimal digit character (0 for other characters). -/
def hexVal : Char → Nat
  | '0' => 0 | '1' => 1 | '2' => 2 | '3' => 3 | '4' => 4
  | '5' => 5 | '6' => 6 | '7' => 7 | '8' => 8 | '9' => 9
  | 'a' => 10 | 'A' => 10 | 'b' => 11 | 'B' => 11 | 'c' => 12 | 'C' => 12
  | 'd' => 13 | 'D' => 13 | 'e' => 14 | 'E' => 14 | 'f' => 15 | 'F' => 15
  | _ => 0

/-- Numeric value of a decimal digit character (0 for other characters). -/
def digitVal (c : Char) : Nat := hexVal c

/-- Decimal digit character for a value below ten. -/
def digitChar : Nat → Char
  | 0 => '0' | 1 => '1' | 2 => '2' | 3 => '3' | 4 => '4'
  | 5 => '5' | 6 => '6' | 7 => '7' | 8 => '8' | _ => '9'

/-- First code points of the runs of ten consecutive Unicode decimal digits
(general category Nd). Every Nd character sits in exactly one such run, at the
offset equal to its decimal value. Table taken from the Unicode character
database used by CPython 3.11 (Unicode 14.0.0). -/
def ndDecadeFirsts : List Nat :=
  [48, 1632, 1776, 1984, 2406, 2534, 2662, 2790, 2918, 3046, 3174, 3302,
   3430, 3558, 3664, 3792, 3872, 4160, 4240, 6112, 6160, 6470, 6608, 6784,
   6800, 6992, 7088, 7232, 7248, 42528, 43216, 43264, 43472, 43504, 43600,
   44016, 65296, 66720, 68912, 69734, 69872, 69942, 70096, 70384, 70736,
   70864, 71248, 71360, 71472, 71904, 72016, 72784, 73040, 73120, 92768,
   92864, 93008, 120782, 120792, 120802, 120812, 120822, 123200, 123632,
   125264, 130032]

/-- The regex class \d on a str pattern: any Unicode decimal digit, general
category Nd (so for example the Arabic-Indic digits, but not superscripts,
which are category No). -/
def isDigitUni (c : Char) : Bool :=
  ndDecadeFirsts.any (fun b => b ≤ c.toNat && c.toNat < b + 10)

/-- Decimal value of a Unicode decimal digit: its offset inside its run of
ten. int() maps a string of Nd characters to the number with these values as
digits (0 for characters outside Nd, a case parse_backup_filename never
reaches because the regex has already required Nd). -/
def digitValUni (c : Char) : Nat :=
  match ndDecadeFirsts.find? (fun b => b ≤ c.toNat && c.toNat < b + 10) with
  | some b => c.toNat - b
  | none => 0

/-! ## UTF-8 encoding and strict decoding

Modelled from the behaviour of the CPython utf-8 codec: encoding of Unicode
scalar values into bytes, and strict decoding (rejecting continuation errors,
overlong forms, surrogate code points and values above 0x10FFFF). -/

/-- UTF-8 bytes of one Unicode scalar value. -/
def utf8EncodeChar (c : Char) : List Nat :=
  let n := c.toNat
  if n < 0x80 then [n]
  else if n < 0x800 then [0xC0 + n / 64, 0x80 + n % 64]
  else if n < 0x10000 then [0xE0 + n / 4096, 0x80 + n / 64 % 64, 0x80 + n % 64]
  else [0xF0 + n / 262144, 0x80 + n / 4096 % 64, 0x80 + n / 64 % 64, 0x80 + n % 64]

/-- UTF-8 bytes of a string. -/
def utf8Encode (l : List Char) : List Nat := l.flatMap utf8EncodeChar

/-- Checks a UTF-8 continuation byte. -/
def contB (b : Nat) : Bool := 0x80 ≤ b && b ≤ 0xBF

/-- Prepends a decoded character to the result of decoding the remaining
bytes, propagating a decode error. -/
def consOk (c : Char) : Except Unit (List Char) → Except Unit (List Char)
  | .ok r => .ok (c :: r)
  | .error e => .error e

/-- Decodes one UTF-8 scalar value from the front of a byte list, returning
the character and the remaining bytes; none on a malformed head sequence
(continuation error, overlong form, surrogate, out of range) or empty input. -/
def utf8Step : List Nat → Option (Char × List Nat)
  | [] => none
  | b :: bs =>
    if b ≤ 0x7F then some (Char.ofNat b, bs)
    else if 0xC2 ≤ b && b ≤ 0xDF then
      match bs with
      | b2 :: bs2 =>
        if contB b2 then some (Char.ofNat ((b - 0xC0) * 64 + (b2 - 0x80)), bs2) else none
      | [] => none
    else if 0xE0 ≤ b && b ≤ 0xEF then
      match bs with
      | b2 :: b3 :: bs3 =>
        if (if b = 0xE0 then 0xA0 else 0x80) ≤ b2 && b2 ≤ (if b = 0xED then 0x9F else 0xBF)
            && contB b3 then
          some (Char.ofNat ((b - 0xE0) * 4096 + (b2 - 0x80) * 64 + (b3 - 0x80)), bs3)
        else none
      | _ => none
    else if 0xF0 ≤ b && b ≤ 0xF4 then
      match bs with
      | b2 :: b3 :: b4 :: bs4 =>
        if (if b = 0xF0 then 0x90 else 0x80) ≤ b2 && b2 ≤ (if b = 0xF4 then 0x8F else 0xBF)
            && contB b3 && contB b4 then
          some (Char.ofNat ((b - 0xF0) * 262144 + (b2 - 0x80) * 4096 + (b3 - 0x80) * 64 + (b4 - 0x80)),
                bs4)
        else none
      | _ => none
    else none

/-- Fuel-driven decode loop; each step consumes at least one byte, so fuel
equal to the byte count is always sufficient. -/
def utf8Go : Nat → List Nat → Except Unit (List Char)
  | _, [] => .ok []
  | 0, _ :: _ => .error ()
  | fuel + 1, b :: bs =>
    match utf8Step (b :: bs) with
    | some (c, rest) => consOk c (utf8Go fuel rest)
    | none => .error ()

/-- Strict UTF-8 decoding of a byte list; .error () models UnicodeDecodeError. -/
def utf8DecodeE (bs : List Nat) : Except Unit (List Char) := utf8Go bs.length bs

/-! ## normalize_path (src/utils.py lines 10-64)

The pipeline: strip, decode the eXist &XX; hex escapes, decode HTML entities,
percent-decode iteratively to a fixed point (falling back to the last
successful value on a strict decode error), turn + into a space, Unicode NFC,
backslash to slash, collapse double slashes and double spaces, strip trailing
slashes. -/

/-- Python str.strip() with no arguments. -/
def pyStrip (l : List Char) : List Char :=
  ((l.dropWhile isPySpace).reverse.dropWhile isPySpace).reverse

/-- Translation of decode_exist_encoding (utils.py lines 24-32): replace each
occurrence of the pattern &HH; (two hex digits between an ampersand and a
semicolon) by the character with that code. The try/except around chr in the
source is dead for two-digit hex values (they are at most 0xFF). -/
def decode_exist_encoding : List Char → List Char
  | [] => []
  | '&' :: h1 :: h2 :: ';' :: rest =>
    if isHexDigitPy h1 && isHexDigitPy h2 then
      Char.ofNat (16 * hexVal h1 + hexVal h2) :: decode_exist_encoding rest
    else '&' :: decode_exist_encoding (h1 :: h2 :: ';' :: rest)
  | c :: rest => c :: decode_exist_encoding rest

/-- Characters allowed inside a named character reference, from the scanning
regex of the html module (everything except tab, newline, form feed, space,
the angle bracket, ampersand, hash and semicolon). -/
def entNameChar (c : Char) : Bool :=
  !(['\t', '\n', '\x0C', ' ', '<', '&', '#', ';'].contains c)

/-- Named HTML entities recognised by this model of html.unescape. Modelled:
the html module resolves about two thousand names via the html5 table; this
model carries the core XML entities (each in its form with and, where the
standard allows it, without a trailing semicolon). No theorem in this
development evaluates the entity decoder on any other name. -/
def entityTable : List (List Char × List Char) :=
  [("amp;".data, "&".data), ("amp".data, "&".data),
   ("lt;".data, "<".data), ("lt".data, "<".data),
   ("gt;".data, ">".data), ("gt".data, ">".data),
   ("quot;".data, "\"".data), ("quot".data, "\"".data),
   ("apos;".data, "\x27".data)]

/-- Looks up a candidate entity name in the table. -/
def entLookup (s : List Char) : Option (List Char) :=
  (entityTable.find? (fun p => p.1 == s)).map (·.2)

/-- Longest-matching-name resolution of html.unescape: try the whole matched
candidate, then successively shorter leading parts down to length two; the
unmatched tail of the candidate is kept as literal text. -/
def tryEntity (s : List Char) : Nat → Option (List Char × List Char)
  | 0 => none
  | k + 1 =>
    if k + 1 < 2 then none
    else
      match entLookup (s.take (k + 1)) with
      | some repl => some (repl, s.drop (k + 1))
      | none => tryEntity s k

/-- Fuel-driven scan of html.unescape over the input: at each ampersand try a
numeric character reference (decimal or hex, optional semicolon; zero,
surrogate and out-of-range values give U+FFFD) or a named reference; on no
match the ampersand is kept and scanning continues. The fuel bound length + 1
is always sufficient because every step consumes at least one character. -/
def huAux : Nat → List Char → List Char
  | 0, l => l
  | fuel + 1, l =>
    match l with
    | [] => []
    | '&' :: '#' :: rest2 =>
      let hexMode := match rest2 with
        | 'x' :: _ => true | 'X' :: _ => true | _ => false
      let body := if hexMode then rest2.drop 1 else rest2
      let digits := if hexMode then body.takeWhile isHexDigitPy else body.takeWhile isDigitPy
      let rest3 := if hexMode then body.dropWhile isHexDigitPy else body.dropWhile isDigitPy
      if digits = [] then '&' :: huAux fuel ('#' :: rest2)
      else
        let rest4 := match rest3 with | ';' :: r => r | r => r
        let num := if hexMode then digits.foldl (fun a c => 16 * a + hexVal c) 0
                   else digits.foldl (fun a c => 10 * a + digitVal c) 0
        let repl := if num = 0 || (0xD800 ≤ num && num ≤ 0xDFFF) || num > 0x10FFFF
                    then [Char.ofNat 0xFFFD] else [Char.ofNat num]
        repl ++ huAux fuel rest4
    | '&' :: rest =>
      let run := (rest.takeWhile entNameChar).take 32
      if run = [] then '&' :: huAux fuel rest
      else
        let restAfter := rest.drop run.length
        let cand := match restAfter with | ';' :: _ => run ++ [';'] | _ => run
        let restAfterCand := match restAfter with | ';' :: r => r | _ => restAfter
        match tryEntity cand cand.length with
        | some (repl, remCand) => repl ++ remCand ++ huAux fuel restAfterCand
        | none => '&' :: cand ++ huAux fuel restAfterCand
    | c :: rest => c :: huAux fuel rest

/-- Modelled from html.unescape: returns the input unchanged when it contains
no ampersand, otherwise substitutes character references as scanned by huAux.
The try/except around the call in normalize_path is dead (unescape is total on
str input); the model is accordingly total. -/
def htmlUnescape (l : List Char) : List Char :=
  if l.contains '&' then huAux (l.length + 1) l else l

/-- Byte expansion of an ASCII segment by urllib.parse.unquote: each percent
sign followed by two hex digits becomes one byte, every other character
contributes its own code. -/
def runToBytes : List Char → List Nat
  | [] => []
  | '%' :: h1 :: h2 :: rest =>
    if isHexDigitPy h1 && isHexDigitPy h2 then
      (16 * hexVal h1 + hexVal h2) :: runToBytes rest
    else 0x25 :: runToBytes (h1 :: h2 :: rest)
  | c :: rest => c.toNat :: runToBytes rest

/-- Checks an ASCII scalar value. -/
def isAsciiC (c : Char) : Bool := c.toNat ≤ 0x7F

/-- Splits a string into maximal runs of ASCII and non-ASCII characters,
keeping the flag of each run. -/
def splitRuns : List Char → List (Bool × List Char)
  | [] => []
  | c :: cs =>
    match splitRuns cs with
    | (b, run) :: rest =>
      if isAsciiC c = b then (b, c :: run) :: rest
      else (isAsciiC c, [c]) :: (b, run) :: rest
    | [] => [(isAsciiC c, [c])]

/-- Decodes one run: ASCII runs are expanded to bytes and decoded as strict
UTF-8 (this is where a decode error can arise); non-ASCII runs pass through. -/
def decodeRun (p : Bool × List Char) : Except Unit (List Char) :=
  if p.1 then utf8DecodeE (runToBytes p.2) else .ok p.2

/-- Decodes every run and concatenates the results, propagating the first
decode error. -/
def decodeRuns : List (Bool × List Char) → Except Unit (List Char)
  | [] => .ok []
  | p :: ps =>
    match decodeRun p with
    | .error e => .error e
    | .ok out => (decodeRuns ps).map (fun r => out ++ r)

/-- Modelled from urllib.parse.unquote with errors equal to strict: a string
without a percent sign is returned unchanged; otherwise the string is split
into maximal ASCII runs, each run is expanded (percent escapes to bytes) and
decoded as strict UTF-8, and a decode failure raises (modelled as .error). -/
def unquoteE (l : List Char) : Except Unit (List Char) :=
  if l.contains '%' = false then .ok l
  else decodeRuns (splitRuns l)

/-- Fuel-driven translation of the percent-decode loop of normalize_path
(utils.py lines 41-49): repeat unquote until it stabilises; on a decode error
keep the value produced by the last successful iteration. -/
def percentLoopAux : Nat → List Char → List Char
  | 0, s => s
  | fuel + 1, s =>
    match unquoteE s with
    | .error _ => s
    | .ok t => if t = s then s else percentLoopAux fuel t

/-- The percent-decode loop with its (always sufficient) fuel bound. -/
def percentDecodeLoop (s : List Char) : List Char := percentLoopAux (s.length + 1) s

/-- Iterates unquote from a start value, stopping early on a decode error
(keeping the last successful value); used to state what the percent-decode
loop computes. -/
def okIterate : Nat → List Char → List Char
  | 0, s => s
  | n + 1, s =>
    match unquoteE s with
    | .ok t => okIterate n t
    | .error _ => s

/-- Turn every plus sign into a space (utils.py line 51). -/
def replacePlus (l : List Char) : List Char :=
  l.map (fun c => if c = '+' then ' ' else c)

/-- Modelled from unicodedata.normalize with the NFC form. NFC is the identity
on strings of ASCII characters; every theorem of this development either
quantifies over ASCII path data or evaluates the pipeline on ASCII input, where
the identity model is exact. -/
def nfcNormalize (l : List Char) : List Char := l

/-- Turn every backslash into a forward slash (utils.py line 53). -/
def replaceBackslash (l : List Char) : List Char :=
  l.map (fun c => if c = '\\' then '/' else c)

/-- One pass of the Python replace of a doubled character by a single one
(left to right, non-overlapping). -/
def replacePairOnce (c : Char) : List Char → List Char
  | [] => []
  | [a] => [a]
  | a :: b :: rest =>
    if a = c && b = c then c :: replacePairOnce c rest
    else a :: replacePairOnce c (b :: rest)

/-- Whether the string contains the character doubled. -/
def containsPair (c : Char) : List Char → Bool
  | [] => false
  | [_] => false
  | a :: b :: rest => (a = c && b = c) || containsPair c (b :: rest)

/-- Fuel-driven translation of the while loops of utils.py lines 55-59:
replace the doubled character until no occurrence is left. -/
def collapseAux (c : Char) : Nat → List Char → List Char
  | 0, l => l
  | fuel + 1, l =>
    if containsPair c l then collapseAux c fuel (replacePairOnce c l) else l

/-- The collapse loop with its (always sufficient) fuel bound. -/
def collapsePair (c : Char) (l : List Char) : List Char := collapseAux c (l.length + 1) l

/-- Python rstrip with one character: removes every trailing occurrence. -/
def rstripChar (c : Char) (l : List Char) : List Char :=
  (l.reverse.dropWhile (fun a => a = c)).reverse

/-- Decoding stages of normalize_path before the percent loop: strip, eXist
hex escapes, HTML entities (utils.py lines 22-39). -/
def decodeStages (l : List Char) : List Char :=
  htmlUnescape (decode_exist_encoding (pyStrip l))

/-- Normalisation stages of normalize_path after the percent loop: plus to
space, NFC, separators, duplicate collapse, trailing slash (lines 51-63). -/
def postStages (l : List Char) : List Char :=
  let d := replacePlus l
  let n := nfcNormalize d
  let n := replaceBackslash n
  let n := collapsePair '/' n
  let n := collapsePair ' ' n
  if n.length > 1 && (n.getLast? == some '/') then rstripChar '/' n else n

/-- Translation of normalize_path (utils.py lines 10-64) on character lists. -/
def normalizePathL (l : List Char) : List Char :=
  postStages (percentDecodeLoop (decodeStages l))

/-- Translation of normalize_path (utils.py lines 10-64). -/
def normalize_path (s : String) : String := String.mk (normalizePathL s.data)

/-! ## parse_backup_filename (src/utils.py lines 67-89) -/

/-- Result of a successful datetime construction (year, month, day, hour,
minute; the tracker never passes seconds). -/
structure PyDateTime where
  year : Nat
  month : Nat
  day : Nat
  hour : Nat
  minute : Nat
deriving DecidableEq

/-- Gregorian leap year rule used by the datetime module. -/
def isLeapYear (y : Nat) : Bool := y % 4 = 0 && (y % 100 ≠ 0 || y % 400 = 0)

/-- Number of days of a month, as validated by the datetime constructor. -/
def daysInMonth (y m : Nat) : Nat :=
  if m = 2 then (if isLeapYear y then 29 else 28)
  else if m ∈ [4, 6, 9, 11] then 30 else 31

/-- Validation performed by the datetime constructor (MINYEAR 1, MAXYEAR 9999,
month 1-12, day within the month, hour below 24, minute below 60). -/
def datetimeValid (y mo d h mi : Nat) : Bool :=
  1 ≤ y && y ≤ 9999 && 1 ≤ mo && mo ≤ 12 && 1 ≤ d && d ≤ daysInMonth y mo
    && h ≤ 23 && mi ≤ 59

/-- Modelled from the datetime constructor inside its try/except: some value on
valid fields, none on ValueError. -/
def mkDatetime (y mo d h mi : Nat) : Option PyDateTime :=
  if datetimeValid y mo d h mi then some ⟨y, mo, d, h, mi⟩ else none

/-- int() on two decimal digit characters. -/
def dval2 (a b : Char) : Nat := 10 * digitValUni a + digitValUni b

/-- int() on four decimal digit characters. -/
def dval4 (a b c d : Char) : Nat := 100 * dval2 a b + dval2 c d

/-- Translation of parse_backup_filename (utils.py lines 67-89). The source
applies re.match with the pattern full(four digits)(two)(two)-(two)(two)\.zip;
re.match anchors only at the start of the string, so any trailing characters
after .zip are accepted. \d on a str pattern matches any Unicode decimal
digit, and int() converts a string of them by their decimal values. -/
def parse_backup_filename (filename : String) : Option PyDateTime :=
  match filename.data with
  | 'f' :: 'u' :: 'l' :: 'l' ::
    y1 :: y2 :: y3 :: y4 :: m1 :: m2 :: d1 :: d2 :: '-' ::
    h1 :: h2 :: n1 :: n2 :: '.' :: 'z' :: 'i' :: 'p' :: _ =>
    if [y1, y2, y3, y4, m1, m2, d1, d2, h1, h2, n1, n2].all isDigitUni then
      mkDatetime (dval4 y1 y2 y3 y4) (dval2 m1 m2) (dval2 d1 d2)
        (dval2 h1 h2) (dval2 n1 n2)
    else none
  | _ => none

/-- Two-digit zero-padded decimal rendering. -/
def pad2 (n : Nat) : List Char := [digitChar (n / 10 % 10), digitChar (n % 10)]

/-- Four-digit zero-padded decimal rendering. -/
def pad4 (n : Nat) : List Char :=
  [digitChar (n / 1000 % 10), digitChar (n / 100 % 10), digitChar (n / 10 % 10), digitChar (n % 10)]

/-- Translation of format_datetime (utils.py lines 107-116): the isoformat
rendering of a datetime with zero seconds and no microseconds. -/
def format_datetime (d : PyDateTime) : String :=
  String.mk (pad4 d.year ++ '-' :: pad2 d.month ++ '-' :: pad2 d.day ++
             'T' :: pad2 d.hour ++ ':' :: pad2 d.minute ++ ':' :: pad2 0)

/-! ## extract_parent_path (src/utils.py lines 119-143) -/

/-- Translation of extract_parent_path (utils.py lines 119-143): normalize the
file path and the base, strip a trailing slash from the base, and return the
collection part of the path relative to the base (empty at root level or when
the path is not under the base). -/
def extract_parent_path (file_path base_path : String) : String :=
  let norm_path := normalizePathL file_path.data
  let norm_base := normalizePathL base_path.data
  let norm_base := if norm_base.getLast? == some '/' then rstripChar '/' norm_base else norm_base
  if norm_base.isPrefixOf norm_path then
    let relative := (norm_path.drop norm_base.length).dropWhile (fun c => c = '/')
    if relative.contains '/' then
      String.mk (((relative.reverse.dropWhile (fun c => ¬ c = '/')).tail).reverse)
    else ""
  else ""

/-! ## Re-encoding helpers (src/utils.py lines 146-238) -/

/-- Translation of encode_exist_path (utils.py lines 146-160): the special
character table holds only the pipe, replaced by &7C;. -/
def encode_exist_path (l : List Char) : List Char :=
  l.flatMap (fun c => if c = '|' then "&7C;".data else [c])

/-- Modelled from the latin-1 codec: every byte decodes to the code point of
the same value, so decoding is total and errors equal to replace is unused. -/
def latin1Decode (bs : List Nat) : List Char := bs.map Char.ofNat

/-- Translation of encode_path_latin1_corruption (utils.py lines 163-175):
UTF-8 bytes reinterpreted as latin-1 text. -/
def encode_path_latin1_corruption (l : List Char) : List Char :=
  latin1Decode (utf8Encode l)

/-- Code points of the CP437 bytes 0x80 to 0xFF, from the Python cp437 codec
table; bytes up to 0x7F decode to themselves. -/
def cp437HiTable : List Nat :=
  [0x00C7, 0x00FC, 0x00E9, 0x00E2, 0x00E4, 0x00E0, 0x00E5, 0x00E7,
   0x00EA, 0x00EB, 0x00E8, 0x00EF, 0x00EE, 0x00EC, 0x00C4, 0x00C5,
   0x00C9, 0x00E6, 0x00C6, 0x00F4, 0x00F6, 0x00F2, 0x00FB, 0x00F9,
   0x00FF, 0x00D6, 0x00DC, 0x00A2, 0x00A3, 0x00A5, 0x20A7, 0x0192,
   0x00E1, 0x00ED, 0x00F3, 0x00FA, 0x00F1, 0x00D1, 0x00AA, 0x00BA,
   0x00BF, 0x2310, 0x00AC, 0x00BD, 0x00BC, 0x00A1, 0x00AB, 0x00BB,
   0x2591, 0x2592, 0x2593, 0x2502, 0x2524, 0x2561, 0x2562, 0x2556,
   0x2555, 0x2563, 0x2551, 0x2557, 0x255D, 0x255C, 0x255B, 0x2510,
   0x2514, 0x2534, 0x252C, 0x251C, 0x2500, 0x253C, 0x255E, 0x255F,
   0x255A, 0x2554, 0x2569, 0x2566, 0x2560, 0x2550, 0x256C, 0x2567,
   0x2568, 0x2564, 0x2565, 0x2559, 0x2558, 0x2552, 0x2553, 0x256B,
   0x256A, 0x2518, 0x250C, 0x2588, 0x2584, 0x258C, 0x2590, 0x2580,
   0x03B1, 0x00DF, 0x0393, 0x03C0, 0x03A3, 0x03C3, 0x00B5, 0x03C4,
   0x03A6, 0x0398, 0x03A9, 0x03B4, 0x221E, 0x03C6, 0x03B5, 0x2229,
   0x2261, 0x00B1, 0x2265, 0x2264, 0x2320, 0x2321, 0x00F7, 0x2248,
   0x00B0, 0x2219, 0x00B7, 0x221A, 0x207F, 0x00B2, 0x25A0, 0x00A0]

/-- Modelled from the cp437 codec: decoding one byte (total, every byte is
assigned, so errors equal to replace is unused). -/
def cp437Byte (b : Nat) : Char :=
  if b ≤ 0x7F then Char.ofNat b else Char.ofNat (cp437HiTable.getD (b - 0x80) 0xFFFD)

/-- Translation of encode_path_cp437_corruption (utils.py lines 178-191):
UTF-8 bytes reinterpreted as CP437 text. -/
def encode_path_cp437_corruption (l : List Char) : List Char :=
  (utf8Encode l).map cp437Byte

/-- Characters that urllib.parse.quote leaves unescaped with safe equal to the
slash: ASCII letters, digits, underscore, dot, hyphen, tilde and the slash. -/
def quoteSafeChar (c : Char) : Bool :=
  ('A' ≤ c && c ≤ 'Z') || ('a' ≤ c && c ≤ 'z') || ('0' ≤ c && c ≤ '9')
    || ['_', '.', '-', '~', '/'].contains c

/-- Uppercase hex digit of a value below sixteen. -/
def hexDigitUpper (n : Nat) : Char := "0123456789ABCDEF".data.getD n '0'

/-- Modelled from urllib.parse.quote with safe equal to the slash: unsafe
characters are expanded to percent escapes of their UTF-8 bytes. -/
def pyQuote (l : List Char) : List Char :=
  l.flatMap (fun c =>
    if quoteSafeChar c then [c]
    else (utf8EncodeChar c).flatMap (fun b => ['%', hexDigitUpper (b / 16), hexDigitUpper (b % 16)]))

/-- Translation of generate_path_variants (utils.py lines 194-238). The raw
path argument is optional in the source (str or None) and is tested by Python
truthiness, so None and the empty string are both skipped. Every later
candidate is appended only if not already present (and the corruption variants
additionally only if they differ from their uncorrupted input). -/
def generate_path_variants (normalized_path : String) (raw_path : Option String) : List String :=
  let np := normalized_path.data
  let variants : List (List Char) :=
    match raw_path with
    | some r => if r.data ≠ [] then [r.data] else []
    | none => []
  let variants := if np ∈ variants then variants else variants ++ [np]
  let exist_encoded := encode_exist_path np
  let variants := if exist_encoded ∈ variants then variants else variants ++ [exist_encoded]
  let url_encoded := pyQuote np
  let variants := if url_encoded ∈ variants then variants else variants ++ [url_encoded]
  let cp437_corrupted := encode_path_cp437_corruption np
  let variants := if cp437_corrupted ∉ variants ∧ cp437_corrupted ≠ np then variants ++ [cp437_corrupted] else variants
  let exist_then_cp437 := encode_path_cp437_corruption exist_encoded
  let variants := if exist_then_cp437 ∉ variants ∧ exist_then_cp437 ≠ exist_encoded then variants ++ [exist_then_cp437] else variants
  let latin1_corrupted := encode_path_latin1_corruption np
  let variants := if latin1_corrupted ∉ variants ∧ latin1_corrupted ≠ np then variants ++ [latin1_corrupted] else variants
  let exist_then_latin1 := encode_path_latin1_corruption exist_encoded
  let variants := if exist_then_latin1 ∉ variants ∧ exist_then_latin1 ≠ exist_encoded then variants ++ [exist_then_latin1] else variants
  variants.map String.mk

/-! ## Dual-source reconciliation (src/backup_parser.py lines 27-57, 151-202)

The ZIP input/output and XML scanning of the parser are collaborator
behaviour; the two raw path listings they produce are taken as input here, and
the pure reconciliation and discrepancy logic is embedded. The Python sources
iterate over set objects; the iteration order is arbitrary but fixed per run,
modelled by the order of the input lists. -/

/-- Union of the two raw path listings (set union, enumerated with the first
listing first). -/
def unionList (a b : List String) : List String :=
  a ++ b.filter (fun x => x ∉ a)

/-- Accumulator pass of extract_charters (backup_parser.py lines 41-56): pair
each unseen normalized path with the raw path that produced it. -/
def extractMapGo : List String → List String → List (String × String)
  | [], _ => []
  | raw :: rest, seen =>
    let n := normalize_path raw
    if n ∈ seen then extractMapGo rest seen
    else (n, raw) :: extractMapGo rest (n :: seen)

/-- Translation of the reconciliation part of extract_charters (backup_parser
lines 40-57): normalize every raw path of the union and de-duplicate by
normalized identity, first occurrence winning. -/
def extract_path_mapping (all_raw_paths : List String) : List (String × String) :=
  extractMapGo all_raw_paths []

/-- One discrepancy record (backup_parser.py lines 184-200): the normalized
path and the presence flag of each source. -/
structure DiscOut where
  file_path : String
  in_contents_xml : Bool
  in_zip_entries : Bool
deriving DecidableEq

/-- First-occurrence de-duplication (the key order of a Python dict built by
insertion). -/
def dedupGo : List String → List String → List String
  | [], _ => []
  | a :: l, seen => if a ∈ seen then dedupGo l seen else a :: dedupGo l (a :: seen)

/-- First-occurrence de-duplication of a list. -/
def firstDedup (l : List String) : List String := dedupGo l []

/-- Translation of get_discrepancies (backup_parser.py lines 151-202): group
each source by normalized path; a normalized path present in exactly one group
yields one record flagged with the source that contained it. The raw
representative drawn from the contents group in the source is unused by the
record and is not modelled. -/
def get_discrepancies (contents_xml_paths zip_entry_paths : List String) : List DiscOut :=
  let contentsN := firstDedup (contents_xml_paths.map normalize_path)
  let zipN := firstDedup (zip_entry_paths.map normalize_path)
  let only_in_contents := contentsN.filter (fun n => n ∉ zipN)
  let only_in_zip := zipN.filter (fun n => n ∉ contentsN)
  only_in_contents.map (fun n => ⟨n, true, false⟩) ++ only_in_zip.map (fun n => ⟨n, false, true⟩)


/-! ## Persistent Store (src/database.py)

The SQLite tables are modelled as lists of records, with the autoincrement
counters carried explicitly. Timestamps that the source takes from the wall
clock (processed_at, processing_time_sec) are modelled by the processed flag
alone; nothing in the claims depends on their values. -/

/-- Charter status (the current_status column, present or missing). -/
inductive Status
  | present
  | missing
deriving DecidableEq

/-- One row of the charters table. The parent path column is part of the
tracker insert tuple (charter_tracker.py line 152). -/
structure Charter where
  id : Nat
  file_path : String
  file_path_raw : String
  parent_path : String
  first_seen_backup_id : Nat
  last_seen_backup_id : Nat
  current_status : Status
deriving DecidableEq

/-- One row of the backups table; processed models processed_at NOT NULL. -/
structure BackupRec where
  id : Nat
  filename : String
  backup_date : String
  processed : Bool
  charter_count : Nat
deriving DecidableEq

/-- One row of the charter_events table. -/
structure EventRec where
  charter_id : Nat
  backup_id : Nat
  event_type : String
  event_date : String
deriving DecidableEq

/-- One row of the discrepancies table. -/
structure DiscRec where
  backup_id : Nat
  file_path : String
  in_contents_xml : Bool
  in_zip_entries : Bool
deriving DecidableEq

/-- The database state. -/
structure Store where
  backups : List BackupRec
  charters : List Charter
  events : List EventRec
  discrepancies : List DiscRec
  nextBackupId : Nat
  nextCharterId : Nat
deriving DecidableEq

/-- The empty database. -/
def Store.empty : Store := ⟨[], [], [], [], 1, 1⟩

/-- Translation of Database.add_backup (database.py lines 148-169): INSERT OR
IGNORE followed by a SELECT of the id; committed outside the per-backup
transaction. -/
def add_backup (db : Store) (filename backup_date : String) : Store × Nat :=
  match db.backups.find? (fun b => b.filename == filename) with
  | some b => (db, b.id)
  | none =>
    ({ db with
        backups := db.backups ++ [⟨db.nextBackupId, filename, backup_date, false, 0⟩],
        nextBackupId := db.nextBackupId + 1 },
     db.nextBackupId)

/-- Translation of Database.mark_backup_processed (database.py lines 171-190):
set processed_at (modelled by the flag) and the charter count; the elapsed
seconds column is not modelled. -/
def mark_backup_processed (db : Store) (backup_id charter_count : Nat) : Store :=
  { db with backups := db.backups.map (fun b =>
      if b.id = backup_id then { b with processed := true, charter_count := charter_count } else b) }

/-- Translation of Database.is_backup_processed (database.py lines 192-208). -/
def is_backup_processed (db : Store) (filename : String) : Bool :=
  db.backups.any (fun b => b.filename == filename && b.processed)

/-- Lookup of a charter row by its unique normalized path; the pointwise form
of Database.get_charters_by_paths_batch (database.py lines 471-501), which
selects by file_path in chunks and keys the result map by file_path. -/
def get_charter_by_path (db : Store) (p : String) : Option Charter :=
  db.charters.find? (fun c => c.file_path == p)

/-- Modelled from the spec: Store.insertCharters — batch insert of brand-new
charters, returning the assigned ids in input order. The tracker passes
(normalized path, raw path, parent path, backup id) tuples (charter_tracker.py
lines 151-153); the database.py file of this snapshot is a stale revision
whose add_charters_batch unpacks three-element tuples (and main.py references
several Database and utils members that the snapshot lacks), so the insert is
modelled from the spec contract insertCharters(batch) with assigned ids,
each row created with first and last seen at the given backup and status
present (matching the add_charters_batch INSERT of the snapshot). -/
def add_charters_batch (db : Store) (rows : List (String × String × String × Nat)) :
    Store × List Nat :=
  let newRows := rows.enum.map (fun pr =>
    match pr with
    | (i, (fp, fpr, pp, bid)) =>
      (⟨db.nextCharterId + i, fp, fpr, pp, bid, bid, Status.present⟩ : Charter))
  ({ db with
      charters := db.charters ++ newRows,
      nextCharterId := db.nextCharterId + rows.length },
   rows.enum.map (fun pr => db.nextCharterId + pr.1))

/-- Translation of Database.update_charters_last_seen_batch (database.py lines
307-326): set last seen and force status present for every listed id. -/
def update_charters_last_seen_batch (db : Store) (ids : List Nat) (backup_id : Nat) : Store :=
  { db with charters := db.charters.map (fun c =>
      if c.id ∈ ids then { c with last_seen_backup_id := backup_id, current_status := .present } else c) }

/-- Translation of Database.mark_charters_missing_batch (database.py lines
344-366). -/
def mark_charters_missing_batch (db : Store) (ids : List Nat) : Store :=
  { db with charters := db.charters.map (fun c =>
      if c.id ∈ ids then { c with current_status := .missing } else c) }

/-- Translation of Database.add_events_batch (database.py lines 388-404). -/
def add_events_batch (db : Store) (evs : List EventRec) : Store :=
  { db with events := db.events ++ evs }

/-- Translation of Database.add_discrepancies_batch (database.py lines
431-448). -/
def add_discrepancies_batch (db : Store) (ds : List DiscRec) : Store :=
  { db with discrepancies := db.discrepancies ++ ds }

/-! ## Charter tracker (src/charter_tracker.py) -/

/-- The in-memory projection current_state: normalized path to charter id, a
Python dict modelled as an association list in insertion order. -/
abbrev CState := List (String × Nat)

/-- Python dict lookup. -/
def dictLookup (cs : CState) (k : String) : Option Nat :=
  (cs.find? (fun p => p.1 == k)).map (·.2)

/-- Python dict assignment: overwrite in place, or append a new key. -/
def dictSet (cs : CState) (k : String) (v : Nat) : CState :=
  if cs.any (fun p => p.1 == k) then cs.map (fun p => if p.1 = k then (k, v) else p)
  else cs ++ [(k, v)]

/-- Python dict deletion. -/
def dictDelete (cs : CState) (k : String) : CState :=
  cs.filter (fun p => ¬ p.1 = k)

/-- Keys of the projection. -/
def dictKeys (cs : CState) : List String := cs.map (·.1)

/-- Translation of CharterTracker.load_current_state (charter_tracker.py lines
31-44): every present charter, keyed by file path. -/
def load_current_state (db : Store) : CState :=
  (db.charters.filter (fun c => c.current_status == Status.present)).map
    (fun c => (c.file_path, c.id))

/-- Well-formedness of the tracker state: unique charter paths and ids in the
Store, fresh id counter, unique keys in the projection, and exact agreement
between the projection and the present charters of the Store (the spec
invariant: no drift permitted). -/
def TrackerInv (db : Store) (cs : CState) : Prop :=
  (db.charters.map Charter.file_path).Nodup ∧
  (db.charters.map Charter.id).Nodup ∧
  (∀ c ∈ db.charters, c.id < db.nextCharterId) ∧
  (dictKeys cs).Nodup ∧
  (∀ pr ∈ cs, ∃ c ∈ db.charters,
    c.file_path = pr.1 ∧ c.id = pr.2 ∧ c.current_status = Status.present) ∧
  (∀ c ∈ db.charters, c.current_status = Status.present → (c.file_path, c.id) ∈ cs)

/-- The two raw path listings extracted from one backup archive by the parser
(collaborator input: the ZIP and XML scanning is input/output). -/
structure BackupArchive where
  contents_xml_paths : List String
  zip_entry_paths : List String

/-- Accumulator of the reappearance loop (charter_tracker.py lines 130-153). -/
structure LoopState where
  cs : CState
  existing_ids : List Nat
  appeared_events : List EventRec
  reappeared : Nat
  new_charters : List (String × String × String × Nat)
deriving DecidableEq

/-- One step of the reappearance loop (charter_tracker.py lines 133-153): a
path found in the Store as missing transitions to present with an appeared
event; a path found as present is handled like an in-state path; an unknown
path is queued as a brand-new charter together with its parent collection. -/
def reappearStep (db : Store) (backup_id : Nat) (backup_date_str base : String)
    (st : LoopState) (pr : String × String) : LoopState :=
  match get_charter_by_path db pr.1 with
  | some c =>
    if c.current_status = .missing then
      { st with
          existing_ids := st.existing_ids ++ [c.id],
          cs := dictSet st.cs pr.1 c.id,
          appeared_events := st.appeared_events ++ [⟨c.id, backup_id, "appeared", backup_date_str⟩],
          reappeared := st.reappeared + 1 }
    else
      { st with
          cs := dictSet st.cs pr.1 c.id,
          existing_ids := st.existing_ids ++ [c.id] }
  | none =>
    { st with new_charters := st.new_charters ++
        [(pr.1, pr.2, extract_parent_path pr.1 base, backup_id)] }

/-- Statistics dictionary returned by process_backup (charter_tracker.py lines
225-235); the elapsed seconds entry is not modelled. -/
structure RunStats where
  backup_id : Nat
  charter_count : Nat
  appeared : Nat
  disappeared : Nat
  reappeared : Nat
  discrepancies : Nat
deriving DecidableEq

/-- Failure injection points of the transactional phase of process_backup: the
Store and parser calls inside the try block (charter_tracker.py lines 71-219)
that can raise. On a failure the source runs conn.rollback() and re-raises
(lines 221-223); the rollback restores the Store to its state at BEGIN
TRANSACTION (right after the committed add_backup), while the in-memory
current_state keeps whatever mutations had been applied up to the failure
point, because the except branch does not touch it. -/
inductive FailAt
  | noFail
  | atExtract
  | atAddDiscrepancies
  | atQueryBatch
  | atAddCharters
  | atUpdateLastSeen
  | atAddAppearEvents
  | atMarkMissing
  | atAddDisappearEvents
  | atMarkProcessed
deriving DecidableEq

/-- Translation of CharterTracker.process_backup (charter_tracker.py lines
46-235), with explicit failure injection. A filename whose timestamp does not
parse raises before any Store interaction (lines 59-61). On success the
returned triple carries the committed Store, the updated current_state and the
statistics; on failure the pair carries the rolled-back Store and the
current_state as left by the failure point. -/
def process_backup (db : Store) (cs : CState) (base : String)
    (archive : BackupArchive) (backup_filename : String) (fp : FailAt) :
    Except (Store × CState) (Store × CState × RunStats) :=
  match parse_backup_filename backup_filename with
  | none => .error (db, cs)
  | some backup_date =>
    let backup_date_str := format_datetime backup_date
    let adb := add_backup db backup_filename backup_date_str
    let db1 := adb.1
    let backup_id := adb.2
    -- BEGIN TRANSACTION (line 69): every failure below rolls back to db1.
    if fp = .atExtract then .error (db1, cs) else
    let path_mapping := extract_path_mapping
      (unionList archive.contents_xml_paths archive.zip_entry_paths)
    let discrepancies := get_discrepancies archive.contents_xml_paths archive.zip_entry_paths
    let discTuples : List DiscRec := discrepancies.map
      (fun d => ⟨backup_id, d.file_path, d.in_contents_xml, d.in_zip_entries⟩)
    if fp = .atAddDiscrepancies then .error (db1, cs) else
    let db2 := add_discrepancies_batch db1 discTuples
    let current_backup_paths := path_mapping.map (·.1)
    -- Categorisation (lines 103-116): one pass over path_mapping.
    let existing_ids0 := (path_mapping.filter (fun pr => (dictLookup cs pr.1).isSome)).filterMap
      (fun pr => dictLookup cs pr.1)
    let to_check := path_mapping.filter (fun pr => (dictLookup cs pr.1).isNone)
    if fp = .atQueryBatch then .error (db1, cs) else
    -- Reappearance loop (lines 130-153), querying the Store state db2.
    let st := to_check.foldl (reappearStep db2 backup_id backup_date_str base)
      ⟨cs, existing_ids0, [], 0, []⟩
    if fp = .atAddCharters then .error (db1, st.cs) else
    let acb := add_charters_batch db2 st.new_charters
    let db3 := acb.1
    let charter_ids := acb.2
    -- New charter bookkeeping (lines 155-170).
    let cs2 := (st.new_charters.zip charter_ids).foldl
      (fun acc pr => dictSet acc pr.1.1 pr.2) st.cs
    let appeared_events := st.appeared_events ++ (st.new_charters.zip charter_ids).map
      (fun pr => (⟨pr.2, backup_id, "appeared", backup_date_str⟩ : EventRec))
    let appeared_count := st.new_charters.length
    if fp = .atUpdateLastSeen then .error (db1, cs2) else
    let db4 := update_charters_last_seen_batch db3 st.existing_ids backup_id
    if fp = .atAddAppearEvents then .error (db1, cs2) else
    let db5 := add_events_batch db4 appeared_events
    -- Disappearance pass (lines 186-209).
    let previous_paths := dictKeys cs2
    let missing_paths := previous_paths.filter (fun p => p ∉ current_backup_paths)
    let disappeared_count := missing_paths.length
    let missing_ids := missing_paths.filterMap (fun p => dictLookup cs2 p)
    if fp = .atMarkMissing then .error (db1, cs2) else
    let db6 := mark_charters_missing_batch db5 missing_ids
    let disappeared_events := missing_ids.map
      (fun cid => (⟨cid, backup_id, "disappeared", backup_date_str⟩ : EventRec))
    if fp = .atAddDisappearEvents then .error (db1, cs2) else
    let db7 := add_events_batch db6 disappeared_events
    let cs3 := missing_paths.foldl dictDelete cs2
    if fp = .atMarkProcessed then .error (db1, cs3) else
    -- Finalisation and commit (lines 211-219).
    let charter_count := current_backup_paths.length
    let db8 := mark_backup_processed db7 backup_id charter_count
    .ok (db8, cs3, ⟨backup_id, charter_count, appeared_count, disappeared_count,
                    st.reappeared, discTuples.length⟩)

/-! ## Sync pipeline (main.py cmd_sync, lines 97-157) -/

/-- One iteration of the processing loop of cmd_sync (main.py lines 133-150):
a failure is caught, recorded and the loop continues with the same tracker
state. -/
def syncStep (base : String) (archives : String → BackupArchive) (failPlan : String → FailAt)
    (acc : Store × CState × List String) (fname : String) : Store × CState × List String :=
  match process_backup acc.1 acc.2.1 base (archives fname) fname (failPlan fname) with
  | .ok (db2, cs2, _) => (db2, cs2, acc.2.2)
  | .error (db2, cs2) => (db2, cs2, acc.2.2 ++ [fname])

/-- Translation of the processed-backup filtering and processing loop of
cmd_sync (main.py lines 119-150): backups already flagged processed in the
Store are removed from the work list up front, then each remaining backup is
processed in order, with per-backup failures collected. -/
def cmd_sync (db : Store) (cs : CState) (base : String) (backups : List String)
    (archives : String → BackupArchive) (failPlan : String → FailAt) :
    Store × CState × List String :=
  let to_process := backups.filter (fun f => !is_backup_processed db f)
  to_process.foldl (syncStep base archives failPlan) (db, cs, [])

deriving instance DecidableEq for Except

/-! ## Specification-side definitions used to compare claims with the code -/

/-- Shape demanded by claim C7 for a parseable backup filename: the literal
full, an eight-digit date, a dash, a four-digit time and the .zip extension,
with nothing following. -/
def claimedBackupShape (f : String) : Bool :=
  match f.data with
  | 'f' :: 'u' :: 'l' :: 'l' ::
    y1 :: y2 :: y3 :: y4 :: m1 :: m2 :: d1 :: d2 :: '-' ::
    h1 :: h2 :: n1 :: n2 :: '.' :: 'z' :: 'i' :: 'p' :: rest =>
    [y1, y2, y3, y4, m1, m2, d1, d2, h1, h2, n1, n2].all isDigitPy && rest.isEmpty
  | _ => false

/-- Filename pattern with the digit groups rendered from numeric fields and an
arbitrary trailer, used to state the corrected form of claim C7. -/
def fullPat (y mo d h mi : Nat) (rest : List Char) : List Char :=
  'f' :: 'u' :: 'l' :: 'l' ::
    (pad4 y ++ pad2 mo ++ pad2 d) ++ '-' :: (pad2 h ++ pad2 mi) ++
    '.' :: 'z' :: 'i' :: 'p' :: rest

/-- Corrected shape of claim C7, stated with the result: the filename starts
with the literal full, twelve Unicode decimal digits in the date and time
positions, a dash between them and the .zip extension (anything may follow),
the digit groups read as numbers form a timestamp the datetime constructor
accepts, and the returned value is that timestamp. -/
def claimTimestampShape (f : String) (dt : PyDateTime) : Prop :=
  ∃ y1 y2 y3 y4 m1 m2 d1 d2 h1 h2 n1 n2 : Char, ∃ rest : List Char,
    f.data = 'f' :: 'u' :: 'l' :: 'l' ::
      y1 :: y2 :: y3 :: y4 :: m1 :: m2 :: d1 :: d2 :: '-' ::
      h1 :: h2 :: n1 :: n2 :: '.' :: 'z' :: 'i' :: 'p' :: rest ∧
    [y1, y2, y3, y4, m1, m2, d1, d2, h1, h2, n1, n2].all isDigitUni = true ∧
    datetimeValid (dval4 y1 y2 y3 y4) (dval2 m1 m2) (dval2 d1 d2)
      (dval2 h1 h2) (dval2 n1 n2) = true ∧
    dt = ⟨dval4 y1 y2 y3 y4, dval2 m1 m2, dval2 d1 d2, dval2 h1 h2, dval2 n1 n2⟩

instance (db : Store) (cs : CState) : Decidable (TrackerInv db cs) := by
  unfold TrackerInv
  exact inferInstance

/-- Sample tracker store for concrete runs: charter 1 present, charter 2
missing, charter 3 present, next id 4. -/
def sampleStore : Store :=
  ⟨[], [⟨1, "db/a.xml", "db/a.xml", "", 1, 1, Status.present⟩,
    ⟨2, "db/b.xml", "db/b.xml", "", 1, 1, Status.missing⟩,
    ⟨3, "db/d.xml", "db/d.xml", "", 1, 1, Status.present⟩], [], [], 1, 4⟩

/-- The in-memory state matching sampleStore. -/
def sampleState : CState := [("db/a.xml", 1), ("db/d.xml", 3)]

/-- A backup listing paths a (still present), b (reappears) and c (new);
d has vanished. -/
def sampleArchive : BackupArchive :=
  ⟨["db/a.xml", "db/b.xml", "db/c.xml"], ["db/a.xml", "db/b.xml", "db/c.xml"]⟩

/-- The store produced by applying sampleArchive to sampleStore. -/
def sampleStoreAfter : Store :=
  ⟨[⟨1, "full20240101-0000.zip", "2024-01-01T00:00:00", true, 3⟩],
   [⟨1, "db/a.xml", "db/a.xml", "", 1, 1, Status.present⟩,
    ⟨2, "db/b.xml", "db/b.xml", "", 1, 1, Status.present⟩,
    ⟨3, "db/d.xml", "db/d.xml", "", 1, 1, Status.missing⟩,
    ⟨4, "db/c.xml", "db/c.xml", "", 1, 1, Status.present⟩],
   [⟨2, 1, "appeared", "2024-01-01T00:00:00"⟩,
    ⟨4, 1, "appeared", "2024-01-01T00:00:00"⟩,
    ⟨3, 1, "disappeared", "2024-01-01T00:00:00"⟩],
   [], 2, 5⟩

/-- The in-memory state after that run. -/
def sampleStateAfter : CState := [("db/a.xml", 1), ("db/b.xml", 2), ("db/c.xml", 4)]

/-! ## Claim theorems and supporting lemmas -/

/-- Characterisation of consOk on a successful overall decode. -/
theorem consOk_eq_ok {c : Char} {e : Except Unit (List Char)} {cs : List Char} :
    consOk c e = .ok cs ↔ ∃ r, e = .ok r ∧ cs = c :: r := by
  cases e with
  | ok r =>
    constructor
    · intro h
      injection h with h
      exact ⟨r, rfl, h.symm⟩
    · rintro ⟨r2, hr, rfl⟩
      injection hr with hr
      rw [hr]
      rfl
  | error e =>
    constructor
    · intro h; cases h
    · rintro ⟨r2, hr, rfl⟩; cases hr

example : extract_parent_path "db/mom/coll1/sub/x.xml" "db/mom" = "coll1/sub" := by decide
example : extract_parent_path "db/mom/x.xml" "db/mom" = "" := by decide
example : extract_parent_path "other/x.xml" "db/mom" = "" := by decide
example : extract_parent_path "db/mom/a/x.xml" "db/mom/" = "a" := by decide
example : generate_path_variants "db/a b|c.xml" (some "raw|x") =
    ["raw|x", "db/a b|c.xml", "db/a b&7C;c.xml", "db/a%20b%7Cc.xml"] := by decide
example : generate_path_variants "db/é.xml" none =
    ["db/é.xml", "db/%C3%A9.xml", "db/├⌐.xml", "db/Ã©.xml"] := by decide
example : generate_path_variants "a" (some "") = ["a"] := by decide
example : (parse_backup_filename "full20240115-0230.zip").isSome = true := by decide
example : (parse_backup_filename "full20240115-0230.zipX").isSome = true := by decide
example : parse_backup_filename "full20240231-0000.zip" = none := by decide
example : parse_backup_filename "xfull20240115-0230.zip" = none := by decide
example : format_datetime ⟨2024, 1, 15, 2, 30⟩ = "2024-01-15T02:30:00" := by decide

/-! ## Claim theorems: the path normalizer -/

/-- Claim C3, counterexample. The claim states that normalize_path is
idempotent for every input string. It is not: on the input a+ the plus sign
becomes a space in the first pass, and because the space is trailing, the
strip step of a second pass removes it. -/
theorem normalize_path_not_idempotent :
    normalize_path "a+" = "a " ∧ normalize_path (normalize_path "a+") = "a" ∧
    normalize_path (normalize_path "a+") ≠ normalize_path "a+" := by decide

/-- Claim C9, counterexample. The claim states that the variant list contains
the original raw input for every normalized and raw path. The source guards
the first append by Python truthiness, so an empty raw path is skipped and the
returned list does not contain it. -/
theorem generate_path_variants_missing_raw :
    ("" : String) ∉ generate_path_variants "a" (some "") ∧
    generate_path_variants "a" (some "") = ["a"] := by decide

/-- Claim C7, counterexample. The claim states that parse_backup_filename
returns a timestamp exactly for filenames of the shape full DDDDDDDD-DDDD.zip
and None for every other filename. Both directions fail: re.match anchors only
at the start, so a filename with trailing characters after .zip still parses;
a filename of the claimed shape whose digits do not form a real calendar date
(here February 31) returns None; and because \d on a str pattern matches any
Unicode decimal digit which int() then accepts, a filename whose digits are
Arabic-Indic rather than the 8-digit/4-digit ASCII groups of the claimed
shape still parses, to the same timestamp as its ASCII spelling. -/
theorem parse_backup_filename_shape_counterexample :
    claimedBackupShape "full20240115-0230.zipX" = false ∧
    (parse_backup_filename "full20240115-0230.zipX").isSome = true ∧
    claimedBackupShape "full20240231-0000.zip" = true ∧
    parse_backup_filename "full20240231-0000.zip" = none ∧
    claimedBackupShape "full٢٠٢٤٠١١٥-٠٢٣٠.zip" = false ∧
    parse_backup_filename "full٢٠٢٤٠١١٥-٠٢٣٠.zip" = some ⟨2024, 1, 15, 2, 30⟩ := by
  decide

/-! ## Claim theorem: rollback divergence (C2) -/

/-- Claim C2, failing run. Applying a backup that inserts one brand-new
charter to an empty Store with empty current_state, with a failure injected at
the mark-backup-processed call: the except branch of process_backup
(charter_tracker.py lines 221-223) rolls the Store back to the state right
after the committed add_backup (only the unprocessed backup row; no charter,
event or discrepancy rows), but it does not restore current_state, which is
left holding the path inserted during the aborted transaction. The resulting
current_state differs from its pre-backup value (the empty map) and from the
projection of the rolled-back Store, contradicting the claim that the
in-memory map is left equal to its value before the backup was applied. -/
theorem process_backup_rollback_divergence :
    process_backup Store.empty [] "db/mom" ⟨["db/mom/A.xml"], ["db/mom/A.xml"]⟩
        "full20240101-0000.zip" FailAt.atMarkProcessed
      = Except.error
          ({ backups := [⟨1, "full20240101-0000.zip", "2024-01-01T00:00:00", false, 0⟩],
             charters := [], events := [], discrepancies := [],
             nextBackupId := 2, nextCharterId := 1 },
           [("db/mom/A.xml", 1)]) ∧
    ([("db/mom/A.xml", 1)] : CState) ≠ ([] : CState) ∧
    load_current_state
        { backups := [⟨1, "full20240101-0000.zip", "2024-01-01T00:00:00", false, 0⟩],
          charters := [], events := [], discrepancies := [],
          nextBackupId := 2, nextCharterId := 1 } = [] := by decide

/-! ## Reconciliation lemmas and claim C4 -/

theorem extractMapGo_mem (l : List String) :
    ∀ (seen : List String) (pr : String × String), pr ∈ extractMapGo l seen →
      pr.2 ∈ l ∧ normalize_path pr.2 = pr.1 ∧ pr.1 ∉ seen := by
  induction l with
  | nil => intro seen pr h; simp [extractMapGo] at h
  | cons raw rest ih =>
    intro seen pr h
    rw [extractMapGo] at h
    by_cases hs : normalize_path raw ∈ seen
    · simp only [if_pos hs] at h
      obtain ⟨h1, h2, h3⟩ := ih seen pr h
      exact ⟨List.mem_cons_of_mem _ h1, h2, h3⟩
    · simp only [if_neg hs] at h
      rcases List.mem_cons.mp h with h | h
      · subst h
        exact ⟨List.mem_cons_self _ _, rfl, hs⟩
      · obtain ⟨h1, h2, h3⟩ := ih _ pr h
        refine ⟨List.mem_cons_of_mem _ h1, h2, fun hc => h3 (List.mem_cons_of_mem _ hc)⟩

theorem extractMapGo_key_mem (l : List String) :
    ∀ (seen : List String) (n : String),
      n ∈ (extractMapGo l seen).map Prod.fst ↔
        (n ∉ seen ∧ ∃ r ∈ l, normalize_path r = n) := by
  induction l with
  | nil => intro seen n; simp [extractMapGo]
  | cons raw rest ih =>
    intro seen n
    rw [extractMapGo]
    by_cases hs : normalize_path raw ∈ seen
    · rw [if_pos hs, ih]
      constructor
      · rintro ⟨h1, r, hr, hn⟩
        exact ⟨h1, r, List.mem_cons_of_mem _ hr, hn⟩
      · rintro ⟨h1, r, hr, hn⟩
        rcases List.mem_cons.mp hr with rfl | hr
        · exact absurd (hn ▸ hs) h1
        · exact ⟨h1, r, hr, hn⟩
    · rw [if_neg hs, List.map_cons, List.mem_cons, ih]
      constructor
      · rintro (rfl | ⟨h1, r, hr, hn⟩)
        · exact ⟨hs, raw, List.mem_cons_self _ _, rfl⟩
        · refine ⟨fun hc => h1 (List.mem_cons_of_mem _ hc), r, List.mem_cons_of_mem _ hr, hn⟩
      · rintro ⟨h1, r, hr, hn⟩
        rcases List.mem_cons.mp hr with rfl | hr
        · exact Or.inl hn.symm
        · by_cases hm : n = (normalize_path raw, raw).fst
          · exact Or.inl hm
          · refine Or.inr ⟨?_, r, hr, hn⟩
            intro hc
            rcases List.mem_cons.mp hc with hc | hc
            · exact hm hc
            · exact h1 hc

theorem extractMapGo_keys_nodup (l : List String) :
    ∀ seen : List String, ((extractMapGo l seen).map Prod.fst).Nodup := by
  induction l with
  | nil => intro seen; simp [extractMapGo]
  | cons raw rest ih =>
    intro seen
    rw [extractMapGo]
    by_cases hs : normalize_path raw ∈ seen
    · simpa [if_pos hs] using ih seen
    · simp only [if_neg hs, List.map_cons, List.nodup_cons]
      refine ⟨fun hc => ?_, ih _⟩
      exact ((extractMapGo_key_mem rest _ _).mp hc).1 (List.mem_cons_self _ _)

theorem dedupGo_mem (l : List String) :
    ∀ (seen : List String) (n : String), n ∈ dedupGo l seen ↔ (n ∈ l ∧ n ∉ seen) := by
  induction l with
  | nil => intro seen n; simp [dedupGo]
  | cons a rest ih =>
    intro seen n
    rw [dedupGo]
    by_cases hs : a ∈ seen
    · rw [if_pos hs, ih]
      constructor
      · rintro ⟨h1, h2⟩; exact ⟨List.mem_cons_of_mem _ h1, h2⟩
      · rintro ⟨h1, h2⟩
        rcases List.mem_cons.mp h1 with rfl | h1
        · exact absurd hs h2
        · exact ⟨h1, h2⟩
    · rw [if_neg hs]
      constructor
      · intro h
        rcases List.mem_cons.mp h with rfl | h
        · exact ⟨List.mem_cons_self _ _, hs⟩
        · obtain ⟨h1, h2⟩ := (ih _ n).mp h
          exact ⟨List.mem_cons_of_mem _ h1, fun hc => h2 (List.mem_cons_of_mem _ hc)⟩
      · rintro ⟨h1, h2⟩
        rcases List.mem_cons.mp h1 with rfl | h1
        · exact List.mem_cons_self _ _
        · by_cases hm : n = a
          · subst hm; exact List.mem_cons_self _ _
          · exact List.mem_cons_of_mem _
              ((ih _ n).mpr ⟨h1, fun hc => (List.mem_cons.mp hc).elim hm h2⟩)

theorem dedupGo_nodup (l : List String) : ∀ seen : List String, (dedupGo l seen).Nodup := by
  induction l with
  | nil => intro seen; simp [dedupGo]
  | cons a rest ih =>
    intro seen
    rw [dedupGo]
    by_cases hs : a ∈ seen
    · simpa [if_pos hs] using ih seen
    · simp only [if_neg hs, List.nodup_cons]
      refine ⟨fun hc => ?_, ih _⟩
      exact ((dedupGo_mem rest _ _).mp hc).2 (List.mem_cons_self _ _)

theorem firstDedup_mem (l : List String) (n : String) : n ∈ firstDedup l ↔ n ∈ l := by
  simp [firstDedup, dedupGo_mem]

theorem firstDedup_nodup (l : List String) : (firstDedup l).Nodup := dedupGo_nodup l []

/-- Claim C4. For any backup, the reconciled mapping built by extract_charters
and the discrepancy list built by get_discrepancies satisfy: the mapping keys
are exactly the normalizations of the union of the two raw listings, without
duplicates; every mapping entry pairs a key with a raw path of the union that
normalizes to it; every discrepancy record is flagged for exactly one source;
there is exactly one record per discrepant normalized path (the record paths
carry no duplicates); a record flagged for the manifest source exists exactly
for the normalized paths produced by the manifest listing and not by the entry
listing, and symmetrically; hence a normalized path present in both sources
(even under different raw encodings) is never a discrepancy. -/
theorem reconciliation_spec (contents zipe : List String) :
    ((extract_path_mapping (unionList contents zipe)).map Prod.fst).Nodup ∧
    (∀ n, n ∈ (extract_path_mapping (unionList contents zipe)).map Prod.fst ↔
      ∃ r ∈ unionList contents zipe, normalize_path r = n) ∧
    (∀ pr ∈ extract_path_mapping (unionList contents zipe),
      pr.2 ∈ unionList contents zipe ∧ normalize_path pr.2 = pr.1) ∧
    ((get_discrepancies contents zipe).map DiscOut.file_path).Nodup ∧
    (∀ rec ∈ get_discrepancies contents zipe,
      rec = ⟨rec.file_path, true, false⟩ ∨ rec = ⟨rec.file_path, false, true⟩) ∧
    (∀ n, (⟨n, true, false⟩ : DiscOut) ∈ get_discrepancies contents zipe ↔
      ((∃ r ∈ contents, normalize_path r = n) ∧ ¬ ∃ r ∈ zipe, normalize_path r = n)) ∧
    (∀ n, (⟨n, false, true⟩ : DiscOut) ∈ get_discrepancies contents zipe ↔
      ((∃ r ∈ zipe, normalize_path r = n) ∧ ¬ ∃ r ∈ contents, normalize_path r = n)) := by
  have hcm : ∀ n, n ∈ firstDedup (contents.map normalize_path) ↔
      ∃ r ∈ contents, normalize_path r = n := by
    intro n; rw [firstDedup_mem]; simp [eq_comm]
  have hzm : ∀ n, n ∈ firstDedup (zipe.map normalize_path) ↔
      ∃ r ∈ zipe, normalize_path r = n := by
    intro n; rw [firstDedup_mem]; simp [eq_comm]
  refine ⟨extractMapGo_keys_nodup _ [], ?_, ?_, ?_, ?_, ?_, ?_⟩
  · intro n
    rw [extract_path_mapping, extractMapGo_key_mem]
    simp
  · intro pr h
    obtain ⟨h1, h2, _⟩ := extractMapGo_mem _ [] pr h
    exact ⟨h1, h2⟩
  · rw [get_discrepancies]
    simp only [List.map_append, List.map_map]
    have : ∀ (f : String → DiscOut), (∀ s, (f s).file_path = s) →
        ∀ l : List String, l.map (DiscOut.file_path ∘ f) = l := by
      intro f hf l
      induction l with
      | nil => rfl
      | cons a t iht => simp [hf, iht]
    rw [this (fun n => ⟨n, true, false⟩) (fun _ => rfl),
        this (fun n => ⟨n, false, true⟩) (fun _ => rfl)]
    refine List.Nodup.append ((firstDedup_nodup _).filter _) ((firstDedup_nodup _).filter _) ?_
    intro n hn hn2
    rw [List.mem_filter] at hn hn2
    exact (by simpa using hn.2 : ¬ n ∈ firstDedup (zipe.map normalize_path)) hn2.1
  · intro rec h
    rw [get_discrepancies] at h
    rcases List.mem_append.mp h with h | h <;> simp only [List.mem_map] at h <;>
      obtain ⟨n, _, rfl⟩ := h
    · exact Or.inl rfl
    · exact Or.inr rfl
  · intro n
    rw [get_discrepancies]
    simp only [List.mem_append, List.mem_map, List.mem_filter, decide_eq_true_eq,
      DiscOut.mk.injEq, Bool.true_eq_false, Bool.false_eq_true, and_false, false_and,
      and_true, true_and, exists_false, or_false]
    constructor
    · rintro ⟨m, ⟨hm1, hm2⟩, rfl⟩
      exact ⟨(hcm m).mp hm1, fun hc => hm2 ((hzm m).mpr hc)⟩
    · rintro ⟨h1, h2⟩
      exact ⟨n, ⟨(hcm n).mpr h1, fun hc => h2 ((hzm n).mp hc)⟩, rfl⟩
  · intro n
    rw [get_discrepancies]
    simp only [List.mem_append, List.mem_map, List.mem_filter, decide_eq_true_eq,
      DiscOut.mk.injEq, Bool.true_eq_false, Bool.false_eq_true, and_false, false_and,
      and_true, true_and, exists_false, false_or]
    constructor
    · rintro ⟨m, ⟨hm1, hm2⟩, rfl⟩
      exact ⟨(hzm m).mp hm1, fun hc => hm2 ((hcm m).mpr hc)⟩
    · rintro ⟨h1, h2⟩
      exact ⟨n, ⟨(hzm n).mpr h1, fun hc => h2 ((hcm n).mp hc)⟩, rfl⟩

example : normalize_path "a+" = "a " := by decide
example : normalize_path "a " = "a" := by decide
example : normalize_path "db//x\\y.xml/" = "db/x/y.xml" := by decide
example : normalize_path "%41%2Fb" = "A/b" := by decide
example : normalize_path "%2541" = "A" := by decide
example : normalize_path "&7C;" = "|" := by decide
example : normalize_path "%FF" = "%FF" := by decide

/-! ## Percent-decode loop lemmas and claim C6 -/

theorem utf8Step_rest (bs : List Nat) :
    ∀ c rest, utf8Step bs = some (c, rest) → rest.length < bs.length := by
  intro c rest h
  rcases bs with _ | ⟨b, _ | ⟨b2, _ | ⟨b3, _ | ⟨b4, bs4⟩⟩⟩⟩ <;>
    simp only [utf8Step] at h <;>
    (try split_ifs at h) <;>
    simp_all <;>
    simp [← h.2] <;>
    omega

theorem utf8Go_nil (fuel : Nat) : utf8Go fuel [] = .ok [] := by
  cases fuel <;> rfl

theorem utf8Go_length (fuel : Nat) :
    ∀ (bs : List Nat) (cs : List Char), utf8Go fuel bs = .ok cs → cs.length ≤ bs.length := by
  induction fuel with
  | zero =>
    intro bs cs h
    cases bs with
    | nil => injection h with h; simp [← h]
    | cons b bs2 => cases h
  | succ fuel ih =>
    intro bs cs h
    cases bs with
    | nil => injection h with h; simp [← h]
    | cons b bs2 =>
      rw [utf8Go] at h
      cases hs : utf8Step (b :: bs2) with
      | none => rw [hs] at h; cases h
      | some pr =>
        obtain ⟨c, rest⟩ := pr
        rw [hs] at h
        obtain ⟨r, hr, rfl⟩ := consOk_eq_ok.mp h
        have h2 := utf8Step_rest _ _ _ hs
        have h3 := ih rest r hr
        simp only [List.length_cons] at h2 ⊢
        omega

theorem utf8DecodeE_length (bs : List Nat) (cs : List Char) :
    utf8DecodeE bs = .ok cs → cs.length ≤ bs.length :=
  utf8Go_length _ _ _

theorem utf8_ascii_go (fuel : Nat) :
    ∀ l : List Char, l.length ≤ fuel → (∀ c ∈ l, isAsciiC c = true) →
      utf8Go fuel (l.map Char.toNat) = .ok l := by
  induction fuel with
  | zero =>
    intro l h1 _
    have : l = [] := List.eq_nil_of_length_eq_zero (Nat.le_zero.mp h1)
    subst this
    rfl
  | succ fuel ih =>
    intro l h1 h2
    cases l with
    | nil => rfl
    | cons c rest =>
      rw [List.map_cons, utf8Go]
      have hc : c.toNat ≤ 0x7F := by
        have := h2 c (List.mem_cons_self _ _)
        simp [isAsciiC] at this
        omega
      have hstep : utf8Step (c.toNat :: rest.map Char.toNat) =
          some (Char.ofNat c.toNat, rest.map Char.toNat) := by
        simp [utf8Step, hc]
      rw [hstep]
      dsimp only
      rw [ih rest (by simp only [List.length_cons] at h1; omega)
        (fun a ha => h2 a (List.mem_cons_of_mem _ ha))]
      rw [consOk, Char.ofNat_toNat]

theorem utf8DecodeE_ascii (l : List Char) (h : ∀ c ∈ l, isAsciiC c = true) :
    utf8DecodeE (l.map Char.toNat) = .ok l := by
  rw [utf8DecodeE, List.length_map]
  exact utf8_ascii_go _ l (le_refl _) h

theorem runToBytes_cons_ne (c : Char) (rest : List Char) (hc : ¬ c = '%') :
    runToBytes (c :: rest) = c.toNat :: runToBytes rest := by
  rw [runToBytes.eq_def]
  split
  · rename_i h; exact absurd h (List.cons_ne_nil _ _)
  · rename_i h1x h2x restx heq
    injection heq with e1 _
    exact absurd e1 hc
  · rename_i cx restx hnot heq
    injection heq with e1 e2
    rw [e1, e2]

theorem runToBytes_length (l : List Char) : (runToBytes l).length ≤ l.length := by
  induction l using runToBytes.induct with
  | case1 => simp [runToBytes]
  | case2 h1 h2 rest hx ih =>
    simp only [runToBytes, if_pos hx, List.length_cons]
    omega
  | case3 h1 h2 rest hx ih =>
    simp only [runToBytes, if_neg hx, List.length_cons] at ih ⊢
    omega
  | case4 c rest hne ih =>
    by_cases hc : c = '%'
    · subst hc
      match rest, hne with
      | [], _ => simp [runToBytes]
      | [a], _ =>
        have : runToBytes ['%', a] = [0x25, a.toNat] := by simp [runToBytes]
        simp [this]
      | a :: b :: r, hne => exact (hne a b r rfl rfl).elim
    · rw [runToBytes_cons_ne c rest hc]
      simp only [List.length_cons]
      omega

theorem runToBytes_cases (l : List Char) :
    runToBytes l = l.map Char.toNat ∨ (runToBytes l).length < l.length := by
  induction l using runToBytes.induct with
  | case1 => exact Or.inl rfl
  | case2 h1 h2 rest hx ih =>
    right
    simp only [runToBytes, if_pos hx, List.length_cons]
    have := runToBytes_length rest
    omega
  | case3 h1 h2 rest hx ih =>
    rcases ih with ih | ih
    · left
      simp only [runToBytes, if_neg hx, ih, List.map_cons]
      rfl
    · right
      simp only [runToBytes, if_neg hx, List.length_cons] at ih ⊢
      omega
  | case4 c rest hne ih =>
    by_cases hc : c = '%'
    · subst hc
      match rest, hne with
      | [], _ => left; simp [runToBytes]
      | [a], _ =>
        left
        have h2 : runToBytes ['%', a] = [0x25, a.toNat] := by simp [runToBytes]
        simp only [h2, List.map_cons, List.map_nil]
        rfl
      | a :: b :: r, hne => exact (hne a b r rfl rfl).elim
    · rw [runToBytes_cons_ne c rest hc]
      rcases ih with ih | ih
      · left; rw [List.map_cons, ih]
      · right; simp only [List.length_cons]; omega

theorem splitRuns_flatten (l : List Char) : ((splitRuns l).map Prod.snd).flatten = l := by
  induction l with
  | nil => rfl
  | cons c cs ih =>
    rw [splitRuns]
    cases h : splitRuns cs with
    | nil =>
      rw [h] at ih
      simp only [List.map_nil, List.flatten_nil] at ih
      simp [← ih]
    | cons p rest =>
      obtain ⟨b, run⟩ := p
      rw [h] at ih
      dsimp only
      by_cases hb : isAsciiC c = b
      · rw [if_pos hb]
        simp only [List.map_cons, List.flatten_cons] at ih ⊢
        rw [← ih]
        rfl
      · rw [if_neg hb]
        simp only [List.map_cons, List.flatten_cons] at ih ⊢
        rw [← ih]
        rfl

theorem splitRuns_flag (l : List Char) :
    ∀ p ∈ splitRuns l, ∀ c ∈ p.2, isAsciiC c = p.1 := by
  induction l with
  | nil => intro p hp; simp [splitRuns] at hp
  | cons c cs ih =>
    intro p hp a ha
    rw [splitRuns] at hp
    cases h : splitRuns cs with
    | nil =>
      rw [h] at hp
      simp only [List.mem_singleton] at hp
      subst hp
      rcases List.mem_cons.mp ha with rfl | ha
      · rfl
      · simp at ha
    | cons q rest =>
      obtain ⟨b, run⟩ := q
      rw [h] at hp
      dsimp only at hp
      by_cases hb : isAsciiC c = b
      · rw [if_pos hb] at hp
        rcases List.mem_cons.mp hp with rfl | hp
        · rcases List.mem_cons.mp ha with rfl | ha
          · exact hb
          · exact ih (b, run) (h ▸ List.mem_cons_self _ _) a ha
        · exact ih p (h ▸ List.mem_cons_of_mem _ hp) a ha
      · rw [if_neg hb] at hp
        rcases List.mem_cons.mp hp with rfl | hp
        · rcases List.mem_cons.mp ha with rfl | ha
          · rfl
          · simp at ha
        · exact ih p (h ▸ hp) a ha

theorem decodeRun_cases (b : Bool) (run : List Char) (out : List Char)
    (hflag : ∀ c ∈ run, isAsciiC c = b) (h : decodeRun (b, run) = .ok out) :
    out = run ∨ out.length < run.length := by
  cases b with
  | false =>
    rw [decodeRun, if_neg (by simp)] at h
    injection h with h
    exact Or.inl h.symm
  | true =>
    rw [decodeRun, if_pos rfl] at h
    dsimp only at h
    rcases runToBytes_cases run with hr | hr
    · rw [hr, utf8DecodeE_ascii run hflag] at h
      injection h with h
      exact Or.inl h.symm
    · right
      have := utf8DecodeE_length _ _ h
      omega

theorem decodeRuns_shrink (ps : List (Bool × List Char)) :
    ∀ t, (∀ p ∈ ps, ∀ c ∈ p.2, isAsciiC c = p.1) → decodeRuns ps = .ok t →
      t = (ps.map Prod.snd).flatten ∨ t.length < ((ps.map Prod.snd).flatten).length := by
  induction ps with
  | nil =>
    intro t _ h
    injection h with h
    exact Or.inl h.symm
  | cons p ps ih =>
    intro t hflag h
    obtain ⟨b, run⟩ := p
    rw [decodeRuns] at h
    cases hd : decodeRun (b, run) with
    | error e => rw [hd] at h; cases h
    | ok out =>
      rw [hd] at h
      dsimp only at h
      cases hr : decodeRuns ps with
      | error e => rw [hr] at h; cases h
      | ok rest =>
        rw [hr] at h
        simp only [Except.map] at h
        injection h with h
        have hout := decodeRun_cases b run out
          (fun c hc => hflag (b, run) (List.mem_cons_self _ _) c hc) hd
        have hrest := ih rest (fun q hq => hflag q (List.mem_cons_of_mem _ hq)) hr
        subst h
        simp only [List.map_cons, List.flatten_cons, List.length_append]
        rcases hout with rfl | hout <;> rcases hrest with hR | hR
        · left; rw [hR]
        · right; omega
        · right; rw [hR]; omega
        · right; omega

theorem unquoteE_shrink (s t : List Char) (h : unquoteE s = .ok t) :
    t = s ∨ t.length < s.length := by
  rw [unquoteE] at h
  by_cases hp : s.contains '%' = false
  · rw [if_pos hp] at h
    injection h with h
    exact Or.inl h.symm
  · rw [if_neg hp] at h
    have := decodeRuns_shrink (splitRuns s) t (splitRuns_flag s) h
    rw [splitRuns_flatten] at this
    exact this


theorem percentLoopAux_spec (fuel : Nat) :
    ∀ s : List Char, s.length < fuel →
      ∃ n, percentLoopAux fuel s = okIterate n s ∧
        (unquoteE (percentLoopAux fuel s) = .error () ∨
         unquoteE (percentLoopAux fuel s) = .ok (percentLoopAux fuel s)) := by
  induction fuel with
  | zero => intro s h; omega
  | succ fuel ih =>
    intro s h
    rw [percentLoopAux]
    cases he : unquoteE s with
    | error e =>
      cases e
      exact ⟨0, rfl, Or.inl he⟩
    | ok t =>
      dsimp only
      by_cases ht : t = s
      · rw [if_pos ht]
        subst ht
        exact ⟨0, rfl, Or.inr he⟩
      · rw [if_neg ht]
        have hlt : t.length < s.length := (unquoteE_shrink s t he).resolve_left ht
        obtain ⟨n, h1, h2⟩ := ih t (by omega)
        refine ⟨n + 1, ?_, h2⟩
        rw [okIterate, he]
        exact h1

/-- Claim C6. The normalizer is total: it is the composition of the decoding
stages, the percent-decode loop and the cleanup stages, all total functions
(the custom hex decode only produces values up to 0xFF and the entity decoder
is total, so their try/except guards are dead). The percent loop falls back on
error: if the first strict unquote of the decoded input fails, the loop leaves
its input unchanged, and in general the loop result is an iterate of unquote
from the decoded input at which unquote either fails (the fallback keeps the
last successful value) or has stabilised. -/
theorem normalize_path_total_fallback (x : String) :
    normalize_path x = String.mk (postStages (percentDecodeLoop (decodeStages x.data))) ∧
    (unquoteE (decodeStages x.data) = .error () →
      percentDecodeLoop (decodeStages x.data) = decodeStages x.data) ∧
    ∃ n, percentDecodeLoop (decodeStages x.data) = okIterate n (decodeStages x.data) ∧
      (unquoteE (percentDecodeLoop (decodeStages x.data)) = .error () ∨
       unquoteE (percentDecodeLoop (decodeStages x.data)) =
         .ok (percentDecodeLoop (decodeStages x.data))) := by
  refine ⟨rfl, ?_, ?_⟩
  · intro he
    rw [percentDecodeLoop, percentLoopAux, he]
  · exact percentLoopAux_spec _ _ (Nat.lt_succ_self _)

/-- Witness for claim C6 at a concrete input whose percent decode fails. -/
theorem normalize_path_total_fallback_witness :
    normalize_path "%FF" =
      String.mk (postStages (percentDecodeLoop (decodeStages "%FF".data))) ∧
    (unquoteE (decodeStages "%FF".data) = .error () →
      percentDecodeLoop (decodeStages "%FF".data) = decodeStages "%FF".data) ∧
    ∃ n, percentDecodeLoop (decodeStages "%FF".data) = okIterate n (decodeStages "%FF".data) ∧
      (unquoteE (percentDecodeLoop (decodeStages "%FF".data)) = .error () ∨
       unquoteE (percentDecodeLoop (decodeStages "%FF".data)) =
         .ok (percentDecodeLoop (decodeStages "%FF".data))) :=
  normalize_path_total_fallback "%FF"

/-! ## Plain-ASCII idempotence lemmas and claim C3 (amended) -/

theorem dropWhile_eq_self_of (p : Char → Bool) (l : List Char)
    (h : ∀ c ∈ l, p c = false) : l.dropWhile p = l := by
  cases l with
  | nil => rfl
  | cons a t =>
    rw [List.dropWhile_cons, if_neg]
    simp [h a (List.mem_cons_self _ _)]

theorem pyStrip_eq_self (l : List Char) (h : ∀ c ∈ l, isPySpace c = false) :
    pyStrip l = l := by
  rw [pyStrip, dropWhile_eq_self_of _ _ h, dropWhile_eq_self_of, List.reverse_reverse]
  intro c hc
  exact h c (List.mem_reverse.mp hc)

theorem decode_exist_cons_ne (c : Char) (rest : List Char) (hc : ¬ c = '&') :
    decode_exist_encoding (c :: rest) = c :: decode_exist_encoding rest := by
  rw [decode_exist_encoding.eq_def]
  split
  · rename_i h; exact absurd h (List.cons_ne_nil _ _)
  · rename_i h1x h2x restx heq
    injection heq with e1 _
    exact absurd e1 hc
  · rename_i cx restx hnot heq
    injection heq with e1 e2
    rw [e1, e2]

theorem decode_exist_eq_self (l : List Char) (h : ∀ c ∈ l, ¬ c = '&') :
    decode_exist_encoding l = l := by
  induction l with
  | nil => rfl
  | cons c rest ih =>
    rw [decode_exist_cons_ne c rest (h c (List.mem_cons_self _ _)),
        ih (fun a ha => h a (List.mem_cons_of_mem _ ha))]

theorem contains_eq_false_of (l : List Char) (a : Char) (h : ∀ c ∈ l, ¬ c = a) :
    l.contains a = false := by
  induction l with
  | nil => rfl
  | cons c rest ih =>
    simp only [List.contains_cons, Bool.or_eq_false_iff]
    refine ⟨by simpa using fun he => h c (List.mem_cons_self _ _) he.symm,
            ih (fun x hx => h x (List.mem_cons_of_mem _ hx))⟩

theorem htmlUnescape_eq_self (l : List Char) (h : ∀ c ∈ l, ¬ c = '&') :
    htmlUnescape l = l := by
  rw [htmlUnescape, contains_eq_false_of l '&' h]
  rfl

theorem unquoteE_no_percent (l : List Char) (h : ∀ c ∈ l, ¬ c = '%') :
    unquoteE l = .ok l := by
  rw [unquoteE, if_pos (contains_eq_false_of l '%' h)]

theorem percentDecodeLoop_fixed (s : List Char) (h : unquoteE s = .ok s) :
    percentDecodeLoop s = s := by
  rw [percentDecodeLoop, percentLoopAux, h]
  simp

theorem map_eq_self_of (f : Char → Char) (l : List Char) (h : ∀ c ∈ l, f c = c) :
    l.map f = l := by
  induction l with
  | nil => rfl
  | cons c rest ih =>
    rw [List.map_cons, h c (List.mem_cons_self _ _),
        ih (fun a ha => h a (List.mem_cons_of_mem _ ha))]

theorem replacePlus_eq_self (l : List Char) (h : ∀ c ∈ l, ¬ c = '+') :
    replacePlus l = l :=
  map_eq_self_of _ l (fun c hc => by rw [if_neg (h c hc)])

theorem replaceBackslash_eq_self (l : List Char) (h : ∀ c ∈ l, ¬ c = '\\') :
    replaceBackslash l = l :=
  map_eq_self_of _ l (fun c hc => by rw [if_neg (h c hc)])

theorem replaceBackslash_chars (l : List Char) :
    ∀ x ∈ replaceBackslash l, ¬ x = '\\' ∧ (x = '/' ∨ x ∈ l) := by
  intro x hx
  obtain ⟨c, hc, rfl⟩ := List.mem_map.mp hx
  by_cases h : c = '\\'
  · rw [if_pos h]
    exact ⟨by decide, Or.inl rfl⟩
  · rw [if_neg h]
    exact ⟨h, Or.inr hc⟩

theorem replacePairOnce_subset (c : Char) (l : List Char) :
    ∀ x ∈ replacePairOnce c l, x ∈ l := by
  induction l using replacePairOnce.induct c with
  | case1 => intro x hx; simp [replacePairOnce] at hx
  | case2 a =>
    intro x hx
    simpa [replacePairOnce] using hx
  | case3 a b rest hab ih =>
    intro x hx
    rw [replacePairOnce, if_pos hab] at hx
    rcases List.mem_cons.mp hx with rfl | hx
    · simp only [Bool.and_eq_true, decide_eq_true_eq] at hab
      rw [← hab.1]
      exact List.mem_cons_self _ _
    · exact List.mem_cons_of_mem _ (List.mem_cons_of_mem _ (ih x hx))
  | case4 a b rest hab ih =>
    intro x hx
    rw [replacePairOnce, if_neg hab] at hx
    rcases List.mem_cons.mp hx with rfl | hx
    · exact List.mem_cons_self _ _
    · exact List.mem_cons_of_mem _ (ih x hx)

theorem replacePairOnce_length (c : Char) (l : List Char) :
    (replacePairOnce c l).length ≤ l.length := by
  induction l using replacePairOnce.induct c with
  | case1 => simp [replacePairOnce]
  | case2 a => simp [replacePairOnce]
  | case3 a b rest hab ih =>
    rw [replacePairOnce, if_pos hab]
    simp only [List.length_cons] at ih ⊢
    omega
  | case4 a b rest hab ih =>
    rw [replacePairOnce, if_neg hab]
    simp only [List.length_cons] at ih ⊢
    omega

theorem replacePairOnce_lt (c : Char) (l : List Char) (h : containsPair c l = true) :
    (replacePairOnce c l).length < l.length := by
  induction l using replacePairOnce.induct c with
  | case1 => simp [containsPair] at h
  | case2 a => simp [containsPair] at h
  | case3 a b rest hab ih =>
    rw [replacePairOnce, if_pos hab]
    have := replacePairOnce_length c rest
    simp only [List.length_cons]
    omega
  | case4 a b rest hab ih =>
    rw [containsPair] at h
    rw [Bool.or_eq_true] at h
    rcases h with h | h
    · exact absurd h hab
    · rw [replacePairOnce, if_neg hab]
      have := ih h
      simp only [List.length_cons] at this ⊢
      omega

theorem collapseAux_subset (c : Char) (fuel : Nat) :
    ∀ l, ∀ x ∈ collapseAux c fuel l, x ∈ l := by
  induction fuel with
  | zero => intro l x hx; exact hx
  | succ fuel ih =>
    intro l x hx
    rw [collapseAux] at hx
    by_cases h : containsPair c l = true
    · rw [if_pos h] at hx
      exact replacePairOnce_subset c l x (ih _ x hx)
    · rw [if_neg h] at hx
      exact hx

theorem collapseAux_no_pair (c : Char) (fuel : Nat) :
    ∀ l : List Char, l.length < fuel → containsPair c (collapseAux c fuel l) = false := by
  induction fuel with
  | zero => intro l h; omega
  | succ fuel ih =>
    intro l h
    rw [collapseAux]
    by_cases hp : containsPair c l = true
    · rw [if_pos hp]
      exact ih _ (by have := replacePairOnce_lt c l hp; omega)
    · rw [if_neg hp]
      exact Bool.not_eq_true _ ▸ (by simpa using hp)

theorem collapsePair_no_pair (c : Char) (l : List Char) :
    containsPair c (collapsePair c l) = false :=
  collapseAux_no_pair c _ l (Nat.lt_succ_self _)

theorem collapsePair_subset (c : Char) (l : List Char) :
    ∀ x ∈ collapsePair c l, x ∈ l :=
  collapseAux_subset c _ l

theorem collapsePair_eq_self (c : Char) (l : List Char) (h : containsPair c l = false) :
    collapsePair c l = l := by
  rw [collapsePair, collapseAux, if_neg (by simp [h])]

theorem containsPair_mem (c : Char) (l : List Char) (h : containsPair c l = true) :
    c ∈ l := by
  induction l using containsPair.induct c with
  | case1 => simp [containsPair] at h
  | case2 a => simp [containsPair] at h
  | case3 a b rest ih =>
    rw [containsPair, Bool.or_eq_true] at h
    rcases h with h | h
    · simp only [Bool.and_eq_true, decide_eq_true_eq] at h
      rw [← h.1]
      exact List.mem_cons_self _ _
    · exact List.mem_cons_of_mem _ (ih h)


theorem rstripChar_subset (c : Char) (l : List Char) :
    ∀ x ∈ rstripChar c l, x ∈ l := by
  intro x hx
  rw [rstripChar] at hx
  have := (List.dropWhile_sublist (fun a => a = c)).subset (List.mem_reverse.mp hx)
  exact List.mem_reverse.mp this

theorem head?_dropWhile (p : Char → Bool) (l : List Char) :
    ∀ a, (l.dropWhile p).head? = some a → p a = false := by
  induction l with
  | nil => intro a h; cases h
  | cons b t ih =>
    intro a h
    rw [List.dropWhile_cons] at h
    by_cases hb : p b = true
    · rw [if_pos hb] at h
      exact ih a h
    · rw [if_neg hb] at h
      injection h with h
      rw [← h]
      exact Bool.not_eq_true _ ▸ (by simpa using hb)

theorem rstripChar_getLast (c : Char) (l : List Char) :
    ∀ a, (rstripChar c l).getLast? = some a → ¬ a = c := by
  intro a h
  rw [rstripChar, List.getLast?_reverse] at h
  have := head?_dropWhile (fun x => x = c) l.reverse a h
  simpa using this

theorem rstripChar_isPrefix (c : Char) (l : List Char) :
    ∃ t, rstripChar c l ++ t = l := by
  obtain ⟨t, ht⟩ := (List.dropWhile_suffix (fun a => a = c) (l := l.reverse))
  refine ⟨t.reverse, ?_⟩
  rw [rstripChar, ← List.reverse_append, ht, List.reverse_reverse]

theorem containsPair_append_left (c : Char) (z t : List Char)
    (h : containsPair c z = true) : containsPair c (z ++ t) = true := by
  induction z using containsPair.induct c with
  | case1 => simp [containsPair] at h
  | case2 a => simp [containsPair] at h
  | case3 a b rest ih =>
    rw [containsPair, Bool.or_eq_true] at h
    simp only [List.cons_append]
    rw [containsPair, Bool.or_eq_true]
    rcases h with h | h
    · exact Or.inl h
    · exact Or.inr (by simpa using ih h)


theorem postStages_plain (l : List Char)
    (hp : ∀ c ∈ l, ¬ c = '+') (hs : ∀ c ∈ l, isPySpace c = false) :
    postStages l =
      (if (collapsePair '/' (replaceBackslash l)).length > 1 &&
          ((collapsePair '/' (replaceBackslash l)).getLast? == some '/')
       then rstripChar '/' (collapsePair '/' (replaceBackslash l))
       else collapsePair '/' (replaceBackslash l)) := by
  have hZs : ∀ c ∈ collapsePair '/' (replaceBackslash l), ¬ c = ' ' := by
    intro c hc
    have hc2 := collapsePair_subset '/' _ c hc
    rcases (replaceBackslash_chars l c hc2).2 with rfl | hc3
    · decide
    · intro he
      subst he
      have := hs ' ' hc3
      simp [isPySpace] at this
  have hZnp : containsPair ' ' (collapsePair '/' (replaceBackslash l)) = false := by
    by_cases hcp : containsPair ' ' (collapsePair '/' (replaceBackslash l)) = true
    · exact absurd rfl (hZs ' ' (containsPair_mem _ _ hcp))
    · simpa using hcp
  rw [postStages, replacePlus_eq_self l hp, nfcNormalize,
      collapsePair_eq_self ' ' _ hZnp]

theorem normalizePathL_plain (l : List Char)
    (h : ∀ c ∈ l, c.toNat ≤ 0x7F ∧ ¬ c = '&' ∧ ¬ c = '%' ∧ ¬ c = '+' ∧ isPySpace c = false) :
    normalizePathL l =
      (if (collapsePair '/' (replaceBackslash l)).length > 1 &&
          ((collapsePair '/' (replaceBackslash l)).getLast? == some '/')
       then rstripChar '/' (collapsePair '/' (replaceBackslash l))
       else collapsePair '/' (replaceBackslash l)) := by
  rw [normalizePathL, decodeStages, pyStrip_eq_self l (fun c hc => (h c hc).2.2.2.2),
      decode_exist_eq_self l (fun c hc => (h c hc).2.1),
      htmlUnescape_eq_self l (fun c hc => (h c hc).2.1),
      percentDecodeLoop_fixed l (unquoteE_no_percent l (fun c hc => (h c hc).2.2.1)),
      postStages_plain l (fun c hc => (h c hc).2.2.2.1) (fun c hc => (h c hc).2.2.2.2)]

set_option maxHeartbeats 2000000 in
/-- Claim C3, amended: normalize_path is idempotent on every string of
non-whitespace ASCII characters none of which is an ampersand, a percent sign
or a plus sign (the unrestricted claim is refuted by the a+ counterexample:
decoding can surface new escape markers and a plus can become a trailing
space that only the next pass strips). -/
theorem normalize_path_idempotent_on_plain_ascii (x : String)
    (h : ∀ c ∈ x.data, c.toNat ≤ 0x7F ∧ ¬ c = '&' ∧ ¬ c = '%' ∧ ¬ c = '+' ∧ isPySpace c = false) :
    normalize_path (normalize_path x) = normalize_path x := by
  have main : ∀ R : List Char,
      (∀ c ∈ R, (c.toNat ≤ 0x7F ∧ ¬ c = '&' ∧ ¬ c = '%' ∧ ¬ c = '+' ∧ isPySpace c = false) ∧ ¬ c = '\\') →
      containsPair '/' R = false →
      (R.length > 1 && (R.getLast? == some '/')) = false →
      normalizePathL R = R := by
    intro R hRc hRnp hRg
    rw [normalizePathL_plain R (fun c hc => (hRc c hc).1),
        replaceBackslash_eq_self R (fun c hc => (hRc c hc).2),
        collapsePair_eq_self '/' R hRnp, hRg]
    rfl
  have key : normalizePathL (normalizePathL x.data) = normalizePathL x.data := by
    rw [normalizePathL_plain x.data h]
    set Z := collapsePair '/' (replaceBackslash x.data) with hZdef
    have hZc : ∀ c ∈ Z,
        (c.toNat ≤ 0x7F ∧ ¬ c = '&' ∧ ¬ c = '%' ∧ ¬ c = '+' ∧ isPySpace c = false) ∧ ¬ c = '\\' := by
      intro c hc
      have hc2 := collapsePair_subset '/' (replaceBackslash x.data) c (hZdef ▸ hc)
      obtain ⟨hnb, hor⟩ := replaceBackslash_chars x.data c hc2
      rcases hor with rfl | hmem
      · exact ⟨⟨by decide, by decide, by decide, by decide, by decide⟩, hnb⟩
      · exact ⟨h c hmem, hnb⟩
    have hZnp : containsPair '/' Z = false := hZdef ▸ collapsePair_no_pair '/' _
    by_cases hg : (Z.length > 1 && (Z.getLast? == some '/')) = true
    · rw [if_pos hg]
      refine main (rstripChar '/' Z) (fun c hc => hZc c (rstripChar_subset '/' Z c hc)) ?_ ?_
      · by_cases hcp : containsPair '/' (rstripChar '/' Z) = true
        · obtain ⟨t, ht⟩ := rstripChar_isPrefix '/' Z
          have h2 := containsPair_append_left '/' _ t hcp
          rw [ht] at h2
          rw [h2] at hZnp
          cases hZnp
        · simpa using hcp
      · cases hL : (rstripChar '/' Z).getLast? with
        | none => simp
        | some a =>
          have := rstripChar_getLast '/' Z a hL
          simp [this]
    · rw [if_neg hg]
      exact main Z hZc hZnp (by simpa using hg)
  exact congrArg String.mk key


/-- Witness for the amended claim C3 at a concrete plain-ASCII input. -/
theorem normalize_path_idempotent_witness :
    (∀ c ∈ ("db//x\\y.xml/" : String).data,
      c.toNat ≤ 0x7F ∧ ¬ c = '&' ∧ ¬ c = '%' ∧ ¬ c = '+' ∧ isPySpace c = false) ∧
    normalize_path (normalize_path "db//x\\y.xml/") = normalize_path "db//x\\y.xml/" :=
  ⟨by decide, normalize_path_idempotent_on_plain_ascii _ (by decide)⟩

/-! ## Digit rendering lemmas and claim C7 (amended) -/

theorem isDigitUni_digitChar (k : Nat) : isDigitUni (digitChar k) = true := by
  rcases k with _|_|_|_|_|_|_|_|_|k <;> rfl

theorem digitValUni_digitChar (k : Nat) (h : k < 10) : digitValUni (digitChar k) = k := by
  rcases k with _|_|_|_|_|_|_|_|_|k
  case succ.succ.succ.succ.succ.succ.succ.succ.succ =>
    have h9 : digitValUni (digitChar (k + 9)) = 9 := rfl
    rw [h9]
    omega
  all_goals rfl

theorem dval2_pad2 (n : Nat) (h : n ≤ 99) :
    dval2 (digitChar (n / 10 % 10)) (digitChar (n % 10)) = n := by
  rw [dval2, digitValUni_digitChar _ (by omega), digitValUni_digitChar _ (by omega)]
  omega

theorem dval4_pad4 (n : Nat) (h : n ≤ 9999) :
    dval4 (digitChar (n / 1000 % 10)) (digitChar (n / 100 % 10))
      (digitChar (n / 10 % 10)) (digitChar (n % 10)) = n := by
  rw [dval4, dval2, dval2, digitValUni_digitChar _ (by omega), digitValUni_digitChar _ (by omega),
      digitValUni_digitChar _ (by omega), digitValUni_digitChar _ (by omega)]
  omega

theorem datetimeValid_bounds (y mo d h mi : Nat) (hv : datetimeValid y mo d h mi = true) :
    y ≤ 9999 ∧ mo ≤ 99 ∧ d ≤ 99 ∧ h ≤ 99 ∧ mi ≤ 99 := by
  simp only [datetimeValid, Bool.and_eq_true, decide_eq_true_eq] at hv
  obtain ⟨⟨⟨⟨⟨⟨⟨_, h1⟩, _⟩, h2⟩, _⟩, h3⟩, h4⟩, h5⟩ := hv
  have : d ≤ daysInMonth y mo := h3
  have hdm : daysInMonth y mo ≤ 31 := by
    rw [daysInMonth]
    split_ifs <;> simp
  omega

/-- Claim C7, amended: parse_backup_filename returns a timestamp exactly for
filenames that START with the literal full, eight Unicode decimal digits, a
dash, four more Unicode decimal digits and the .zip extension (anything may
follow, because re.match anchors only at the start, and the digits may come
from any Nd run, because \d on a str pattern is not restricted to ASCII)
whose digit groups, read by their decimal values, form a timestamp the
datetime constructor accepts; the returned timestamp is exactly that value.
In particular a filename rendered from in-range numeric fields with ASCII
digits parses back to those fields. It returns None for every other filename,
and a filename it rejects makes process_backup raise before any Store
mutation (the error state carries the unchanged Store and current_state). -/
theorem parse_backup_filename_spec :
    (∀ (f : String) (dt : PyDateTime),
      parse_backup_filename f = some dt ↔ claimTimestampShape f dt) ∧
    (∀ (f : String) (y mo d h mi : Nat) (rest : List Char),
      f.data = fullPat y mo d h mi rest → datetimeValid y mo d h mi = true →
      parse_backup_filename f = some ⟨y, mo, d, h, mi⟩) ∧
    (∀ (f : String) (db : Store) (cs : CState) (base : String) (archive : BackupArchive)
        (fp : FailAt), parse_backup_filename f = none →
      process_backup db cs base archive f fp = .error (db, cs)) := by
  refine ⟨?_, ?_, ?_⟩
  · intro f dt
    constructor
    · intro hs
      rw [parse_backup_filename] at hs
      split at hs
      · rename_i y1 y2 y3 y4 m1 m2 d1 d2 h1 h2 n1 n2 rest heq
        by_cases hdig : ([y1, y2, y3, y4, m1, m2, d1, d2, h1, h2, n1, n2].all isDigitUni) = true
        · rw [if_pos hdig, mkDatetime] at hs
          by_cases hv : datetimeValid (dval4 y1 y2 y3 y4) (dval2 m1 m2) (dval2 d1 d2)
              (dval2 h1 h2) (dval2 n1 n2) = true
          · rw [if_pos hv] at hs
            injection hs with hs
            exact ⟨y1, y2, y3, y4, m1, m2, d1, d2, h1, h2, n1, n2, rest,
              heq, hdig, hv, hs.symm⟩
          · rw [if_neg hv] at hs
            cases hs
        · rw [if_neg hdig] at hs
          cases hs
      · cases hs
    · rintro ⟨y1, y2, y3, y4, m1, m2, d1, d2, h1, h2, n1, n2, rest, hf, hdig, hv, hdt⟩
      rw [parse_backup_filename, hf]
      show (if [y1, y2, y3, y4, m1, m2, d1, d2, h1, h2, n1, n2].all isDigitUni then
          mkDatetime (dval4 y1 y2 y3 y4) (dval2 m1 m2) (dval2 d1 d2)
            (dval2 h1 h2) (dval2 n1 n2)
        else none) = some dt
      rw [if_pos hdig, mkDatetime, if_pos hv, hdt]
  · intro f y mo d h mi rest hf hv
    obtain ⟨hy, hmo, hd, hh, hmi⟩ := datetimeValid_bounds y mo d h mi hv
    rw [parse_backup_filename, hf]
    rw [fullPat, pad4, pad2, pad2, pad2, pad2]
    simp only [List.cons_append, List.nil_append]
    rw [if_pos (by simp [isDigitUni_digitChar])]
    rw [dval4_pad4 y hy, dval2_pad2 mo hmo, dval2_pad2 d hd, dval2_pad2 h hh,
        dval2_pad2 mi hmi, mkDatetime, if_pos hv]
  · intro f db cs base archive fp hn
    rw [process_backup, hn]


/-- Witness for the amended claim C7: a parseable ASCII filename, the same
timestamp spelt with Arabic-Indic digits (both through the characterization),
and a rejected filename aborting process_backup without mutation. -/
theorem parse_backup_filename_spec_witness :
    parse_backup_filename "full20240115-0230.zip" = some ⟨2024, 1, 15, 2, 30⟩ ∧
    parse_backup_filename "full٢٠٢٤٠١١٥-٠٢٣٠.zip" = some ⟨2024, 1, 15, 2, 30⟩ ∧
    process_backup Store.empty [] "db" ⟨[], []⟩ "nope.zip" FailAt.noFail =
      .error (Store.empty, []) :=
  ⟨(parse_backup_filename_spec.1 "full20240115-0230.zip" ⟨2024, 1, 15, 2, 30⟩).mpr
      ⟨'2', '0', '2', '4', '0', '1', '1', '5', '0', '2', '3', '0', [],
        by decide, by decide, by decide, by decide⟩,
   (parse_backup_filename_spec.1 "full٢٠٢٤٠١١٥-٠٢٣٠.zip" ⟨2024, 1, 15, 2, 30⟩).mpr
      ⟨'٢', '٠', '٢', '٤', '٠', '١', '١', '٥', '٠', '٢', '٣', '٠', [],
        by decide, by decide, by decide, by decide⟩,
   parse_backup_filename_spec.2.2 "nope.zip" Store.empty [] "db" ⟨[], []⟩ FailAt.noFail
      (by decide)⟩

/-! ## Variant-list lemmas and claim C9 (amended) -/

theorem appendIf_sublist (vs cands : List (List Char)) (v : List Char)
    (h : List.Sublist vs cands) :
    List.Sublist (if v ∈ vs then vs else vs ++ [v]) (cands ++ [v]) := by
  by_cases hv : v ∈ vs
  · rw [if_pos hv]
    exact h.trans (List.sublist_append_left _ _)
  · rw [if_neg hv]
    exact h.append (List.Sublist.refl [v])

theorem appendIfG_sublist (vs cands : List (List Char)) (v : List Char) (P : Prop)
    [Decidable P] (h : List.Sublist vs cands) :
    List.Sublist (if v ∉ vs ∧ P then vs ++ [v] else vs) (cands ++ [v]) := by
  by_cases hv : v ∉ vs ∧ P
  · rw [if_pos hv]
    exact h.append (List.Sublist.refl [v])
  · rw [if_neg hv]
    exact h.trans (List.sublist_append_left _ _)

theorem appendIf_nodup (vs : List (List Char)) (v : List Char) (h : vs.Nodup) :
    (if v ∈ vs then vs else vs ++ [v]).Nodup := by
  by_cases hv : v ∈ vs
  · rw [if_pos hv]; exact h
  · rw [if_neg hv]
    refine h.append (List.nodup_singleton v) ?_
    intro a ha hb
    rw [List.mem_singleton] at hb
    exact hv (hb ▸ ha)

theorem appendIfG_nodup (vs : List (List Char)) (v : List Char) (P : Prop)
    [Decidable P] (h : vs.Nodup) :
    (if v ∉ vs ∧ P then vs ++ [v] else vs).Nodup := by
  by_cases hv : v ∉ vs ∧ P
  · rw [if_pos hv]
    refine h.append (List.nodup_singleton v) ?_
    intro a ha hb
    rw [List.mem_singleton] at hb
    exact hv.1 (hb ▸ ha)
  · rw [if_neg hv]; exact h

theorem appendIf_mem (vs : List (List Char)) (v x : List Char) (h : x ∈ vs) :
    x ∈ (if v ∈ vs then vs else vs ++ [v]) := by
  by_cases hv : v ∈ vs
  · rw [if_pos hv]; exact h
  · rw [if_neg hv]; exact List.mem_append_left _ h

theorem appendIfG_mem (vs : List (List Char)) (v x : List Char) (P : Prop)
    [Decidable P] (h : x ∈ vs) :
    x ∈ (if v ∉ vs ∧ P then vs ++ [v] else vs) := by
  by_cases hv : v ∉ vs ∧ P
  · rw [if_pos hv]; exact List.mem_append_left _ h
  · rw [if_neg hv]; exact h

theorem appendIf_mem_self (vs : List (List Char)) (v : List Char) :
    v ∈ (if v ∈ vs then vs else vs ++ [v]) := by
  by_cases hv : v ∈ vs
  · rw [if_pos hv]; exact hv
  · rw [if_neg hv]; exact List.mem_append_right _ (List.mem_singleton_self v)

/-- Claim C9, amended: for every normalized path and raw path, the variant
list contains the original raw input whenever the raw input is non-empty
(None and the empty string are skipped by the Python truthiness guard),
always contains the normalized form, holds no duplicates, and is a sublist of
the fixed likelihood-ordered candidate sequence (raw input, normalized form,
custom-hex re-encoding, percent re-encoding, then the four double-encoding
corruptions), each candidate kept at its first occurrence. -/
theorem generate_path_variants_spec (np raw : String) :
    (¬ raw = "" → raw ∈ generate_path_variants np (some raw)) ∧
    np ∈ generate_path_variants np (some raw) ∧
    (generate_path_variants np (some raw)).Nodup ∧
    List.Sublist (generate_path_variants np (some raw))
      (((if raw = "" then [] else [raw.data]) ++
        [np.data, encode_exist_path np.data, pyQuote np.data,
         encode_path_cp437_corruption np.data,
         encode_path_cp437_corruption (encode_exist_path np.data),
         encode_path_latin1_corruption np.data,
         encode_path_latin1_corruption (encode_exist_path np.data)]).map String.mk) := by
  have hdata : (raw.data ≠ []) ↔ ¬ raw = "" := by
    constructor
    · intro h1 h2
      rw [h2] at h1
      exact h1 rfl
    · intro h1 h2
      exact h1 (congrArg String.mk h2)
  simp only [generate_path_variants]
  have base_sub : List.Sublist (if raw.data ≠ [] then [raw.data] else [])
      (if raw = "" then [] else [raw.data]) := by
    by_cases hr : raw = ""
    · rw [if_pos hr, if_neg (by simp [hr])]
    · rw [if_neg hr, if_pos (hdata.mpr hr)]
  have base_nodup : (if raw.data ≠ [] then [raw.data] else []).Nodup := by
    by_cases hr : raw.data ≠ [] 
    · rw [if_pos hr]; exact List.nodup_singleton _
    · rw [if_neg hr]; exact List.nodup_nil
  refine ⟨?_, ?_, ?_, ?_⟩
  · intro hr
    have h0 : raw.data ∈ (if raw.data ≠ [] then [raw.data] else []) := by
      rw [if_pos (hdata.mpr hr)]
      exact List.mem_singleton_self _
    have m1 := appendIf_mem _ np.data _ h0
    have m2 := appendIf_mem _ (encode_exist_path np.data) _ m1
    have m3 := appendIf_mem _ (pyQuote np.data) _ m2
    have m4 := appendIfG_mem _ (encode_path_cp437_corruption np.data) _
      (encode_path_cp437_corruption np.data ≠ np.data) m3
    have m5 := appendIfG_mem _ (encode_path_cp437_corruption (encode_exist_path np.data)) _
      (encode_path_cp437_corruption (encode_exist_path np.data) ≠ encode_exist_path np.data) m4
    have m6 := appendIfG_mem _ (encode_path_latin1_corruption np.data) _
      (encode_path_latin1_corruption np.data ≠ np.data) m5
    have m7 := appendIfG_mem _ (encode_path_latin1_corruption (encode_exist_path np.data)) _
      (encode_path_latin1_corruption (encode_exist_path np.data) ≠ encode_exist_path np.data) m6
    have hmk : String.mk raw.data = raw := rfl
    exact hmk ▸ List.mem_map_of_mem String.mk m7
  · have h0 : np.data ∈ (if np.data ∈ (if raw.data ≠ [] then [raw.data] else [])
        then (if raw.data ≠ [] then [raw.data] else [])
        else (if raw.data ≠ [] then [raw.data] else []) ++ [np.data]) :=
      appendIf_mem_self _ _
    have m2 := appendIf_mem _ (encode_exist_path np.data) _ h0
    have m3 := appendIf_mem _ (pyQuote np.data) _ m2
    have m4 := appendIfG_mem _ (encode_path_cp437_corruption np.data) _
      (encode_path_cp437_corruption np.data ≠ np.data) m3
    have m5 := appendIfG_mem _ (encode_path_cp437_corruption (encode_exist_path np.data)) _
      (encode_path_cp437_corruption (encode_exist_path np.data) ≠ encode_exist_path np.data) m4
    have m6 := appendIfG_mem _ (encode_path_latin1_corruption np.data) _
      (encode_path_latin1_corruption np.data ≠ np.data) m5
    have m7 := appendIfG_mem _ (encode_path_latin1_corruption (encode_exist_path np.data)) _
      (encode_path_latin1_corruption (encode_exist_path np.data) ≠ encode_exist_path np.data) m6
    have hmk : String.mk np.data = np := rfl
    exact hmk ▸ List.mem_map_of_mem String.mk m7
  · have n1 := appendIf_nodup _ np.data base_nodup
    have n2 := appendIf_nodup _ (encode_exist_path np.data) n1
    have n3 := appendIf_nodup _ (pyQuote np.data) n2
    have n4 := appendIfG_nodup _ (encode_path_cp437_corruption np.data)
      (encode_path_cp437_corruption np.data ≠ np.data) n3
    have n5 := appendIfG_nodup _ (encode_path_cp437_corruption (encode_exist_path np.data))
      (encode_path_cp437_corruption (encode_exist_path np.data) ≠ encode_exist_path np.data) n4
    have n6 := appendIfG_nodup _ (encode_path_latin1_corruption np.data)
      (encode_path_latin1_corruption np.data ≠ np.data) n5
    have n7 := appendIfG_nodup _ (encode_path_latin1_corruption (encode_exist_path np.data))
      (encode_path_latin1_corruption (encode_exist_path np.data) ≠ encode_exist_path np.data) n6
    refine List.Nodup.map ?_ n7
    intro a b hab
    have : (String.mk a).data = (String.mk b).data := by rw [hab]
    exact this
  · have s1 := appendIf_sublist _ _ np.data base_sub
    have s2 := appendIf_sublist _ _ (encode_exist_path np.data) s1
    have s3 := appendIf_sublist _ _ (pyQuote np.data) s2
    have s4 := appendIfG_sublist _ _ (encode_path_cp437_corruption np.data)
      (encode_path_cp437_corruption np.data ≠ np.data) s3
    have s5 := appendIfG_sublist _ _ (encode_path_cp437_corruption (encode_exist_path np.data))
      (encode_path_cp437_corruption (encode_exist_path np.data) ≠ encode_exist_path np.data) s4
    have s6 := appendIfG_sublist _ _ (encode_path_latin1_corruption np.data)
      (encode_path_latin1_corruption np.data ≠ np.data) s5
    have s7 := appendIfG_sublist _ _ (encode_path_latin1_corruption (encode_exist_path np.data))
      (encode_path_latin1_corruption (encode_exist_path np.data) ≠ encode_exist_path np.data) s6
    refine List.Sublist.map String.mk ?_
    simpa only [List.append_assoc, List.singleton_append] using s7


/-- Witness for the amended claim C9 at a concrete non-empty raw path. -/
theorem generate_path_variants_spec_witness :
    ¬ ("raw|x" : String) = "" ∧
    ("raw|x" : String) ∈ generate_path_variants "db/a b|c.xml" (some "raw|x") ∧
    ("db/a b|c.xml" : String) ∈ generate_path_variants "db/a b|c.xml" (some "raw|x") ∧
    (generate_path_variants "db/a b|c.xml" (some "raw|x")).Nodup :=
  ⟨by decide,
   (generate_path_variants_spec "db/a b|c.xml" "raw|x").1 (by decide),
   (generate_path_variants_spec "db/a b|c.xml" "raw|x").2.1,
   (generate_path_variants_spec "db/a b|c.xml" "raw|x").2.2.1⟩

/-! ## Rolled-back Store lemmas and claim C10 -/

theorem add_backup_row (db : Store) (fname d : String)
    (hunproc : is_backup_processed db fname = false) :
    ((add_backup db fname d).1.backups.any
      (fun b => b.filename == fname && !b.processed)) = true ∧
    (add_backup db fname d).1.charters = db.charters ∧
    (add_backup db fname d).1.events = db.events ∧
    (add_backup db fname d).1.discrepancies = db.discrepancies := by
  rw [add_backup]
  cases hfind : db.backups.find? (fun b => b.filename == fname) with
  | some b =>
    refine ⟨?_, rfl, rfl, rfl⟩
    have hmem := List.mem_of_find?_eq_some hfind
    have hname := List.find?_some hfind
    simp only [beq_iff_eq] at hname
    have hnp : b.processed = false := by
      rw [is_backup_processed] at hunproc
      by_cases hbp : b.processed = true
      · exfalso
        have : db.backups.any (fun r => r.filename == fname && r.processed) = true := by
          rw [List.any_eq_true]
          exact ⟨b, hmem, by simp [hname, hbp]⟩
        rw [this] at hunproc
        cases hunproc
      · simpa using hbp
    rw [List.any_eq_true]
    exact ⟨b, hmem, by simp [hname, hnp]⟩
  | none =>
    refine ⟨?_, rfl, rfl, rfl⟩
    rw [List.any_eq_true]
    exact ⟨⟨db.nextBackupId, fname, d, false, 0⟩, by simp, by simp⟩

/-- Claim C10. When the timestamp of a backup filename parses and the backup
is not yet flagged processed, any failure injected into the transactional
phase of process_backup makes it raise (no success result), and the
rolled-back Store it leaves behind is exactly the state committed by
add_backup before BEGIN TRANSACTION: the backups table contains a row for the
filename with the processed flag unset, while the charters, events and
discrepancies tables are exactly as before the call. -/
theorem process_backup_failure_keeps_backup_row
    (db : Store) (cs : CState) (base : String) (archive : BackupArchive) (fname : String)
    (fp : FailAt) (dt : PyDateTime)
    (hp : parse_backup_filename fname = some dt)
    (hf : ¬ fp = FailAt.noFail)
    (hunproc : is_backup_processed db fname = false) :
    (process_backup db cs base archive fname fp).isOk = false ∧
    (∀ (dbr : Store) (csr : CState),
      process_backup db cs base archive fname fp = .error (dbr, csr) →
      dbr = (add_backup db fname (format_datetime dt)).1) ∧
    ((add_backup db fname (format_datetime dt)).1.backups.any
        (fun b => b.filename == fname && !b.processed)) = true ∧
    (add_backup db fname (format_datetime dt)).1.charters = db.charters ∧
    (add_backup db fname (format_datetime dt)).1.events = db.events ∧
    (add_backup db fname (format_datetime dt)).1.discrepancies = db.discrepancies := by
  have hrow := add_backup_row db fname (format_datetime dt) hunproc
  cases fp
  case noFail => exact absurd rfl hf
  all_goals refine ⟨by simp [process_backup, hp, Except.isOk, Except.toBool], ?_,
    hrow.1, hrow.2.1, hrow.2.2.1, hrow.2.2.2⟩
  all_goals intro dbr csr h
  all_goals simp only [process_backup, hp] at h
  all_goals simp at h
  all_goals exact h.1.symm


/-- Witness for claim C10: a concrete failed run keeping the unprocessed
backup row. -/
theorem process_backup_failure_keeps_backup_row_witness :
    parse_backup_filename "full20240101-0000.zip" = some ⟨2024, 1, 1, 0, 0⟩ ∧
    ¬ FailAt.atMarkMissing = FailAt.noFail ∧
    is_backup_processed Store.empty "full20240101-0000.zip" = false ∧
    ((process_backup Store.empty [] "db" ⟨["db/a.xml"], []⟩ "full20240101-0000.zip"
        FailAt.atMarkMissing).isOk = false ∧
     (∀ (dbr : Store) (csr : CState),
        process_backup Store.empty [] "db" ⟨["db/a.xml"], []⟩ "full20240101-0000.zip"
            FailAt.atMarkMissing = .error (dbr, csr) →
        dbr = (add_backup Store.empty "full20240101-0000.zip"
            (format_datetime ⟨2024, 1, 1, 0, 0⟩)).1) ∧
     ((add_backup Store.empty "full20240101-0000.zip"
          (format_datetime ⟨2024, 1, 1, 0, 0⟩)).1.backups.any
        (fun b => b.filename == "full20240101-0000.zip" && !b.processed)) = true ∧
     (add_backup Store.empty "full20240101-0000.zip"
        (format_datetime ⟨2024, 1, 1, 0, 0⟩)).1.charters = Store.empty.charters ∧
     (add_backup Store.empty "full20240101-0000.zip"
        (format_datetime ⟨2024, 1, 1, 0, 0⟩)).1.events = Store.empty.events ∧
     (add_backup Store.empty "full20240101-0000.zip"
        (format_datetime ⟨2024, 1, 1, 0, 0⟩)).1.discrepancies = Store.empty.discrepancies) :=
  ⟨by decide, by decide, by decide,
   process_backup_failure_keeps_backup_row Store.empty [] "db" ⟨["db/a.xml"], []⟩
     "full20240101-0000.zip" FailAt.atMarkMissing ⟨2024, 1, 1, 0, 0⟩
     (by decide) (by decide) (by decide)⟩

/-! ## Dictionary lemmas for the tracker -/

theorem dictKeys_append (a b : CState) : dictKeys (a ++ b) = dictKeys a ++ dictKeys b :=
  List.map_append _ a b

theorem dictLookup_some_mem (cs : CState) (p : String) (v : Nat)
    (h : dictLookup cs p = some v) : (p, v) ∈ cs := by
  rw [dictLookup] at h
  cases hf : cs.find? (fun q => q.1 == p) with
  | none => rw [hf] at h; cases h
  | some q =>
    rw [hf] at h
    injection h with h
    have hq := List.find?_some hf
    simp only [beq_iff_eq] at hq
    have hm := List.mem_of_find?_eq_some hf
    have : q = (p, v) := by
      obtain ⟨q1, q2⟩ := q
      simp only at hq h
      rw [hq, h]
    exact this ▸ hm

theorem dictLookup_isSome_iff (cs : CState) (p : String) :
    (dictLookup cs p).isSome = true ↔ p ∈ dictKeys cs := by
  induction cs with
  | nil => simp [dictLookup, dictKeys]
  | cons q rest ih =>
    by_cases hq : q.1 = p
    · have hb : (q.1 == p) = true := by simpa using hq
      rw [dictLookup, List.find?_cons, hb]
      simp [dictKeys, hq]
    · have hb : (q.1 == p) = false := by simpa using hq
      rw [dictLookup, List.find?_cons, hb]
      rw [dictLookup] at ih
      rw [ih]
      simp only [dictKeys, List.map_cons, List.mem_cons]
      constructor
      · intro h; exact Or.inr h
      · rintro (h | h)
        · exact absurd h.symm hq
        · exact h

theorem dictLookup_eq_none_iff (cs : CState) (p : String) :
    dictLookup cs p = none ↔ p ∉ dictKeys cs := by
  rw [← dictLookup_isSome_iff]
  cases dictLookup cs p <;> simp

theorem dictLookup_of_mem_nodup (cs : CState) (p : String) (v : Nat)
    (hn : (dictKeys cs).Nodup) (hm : (p, v) ∈ cs) : dictLookup cs p = some v := by
  induction cs with
  | nil => cases hm
  | cons q rest ih =>
    rw [dictKeys, List.map_cons, List.nodup_cons] at hn
    rcases List.mem_cons.mp hm with rfl | hm
    · rw [dictLookup, List.find?_cons]
      have hb : (((p, v) : String × Nat).1 == p) = true := by simp
      rw [hb]
      rfl
    · have hq : ¬ q.1 = p := by
        intro he
        exact hn.1 (he ▸ List.mem_map_of_mem Prod.fst hm)
      have hb : (q.1 == p) = false := by simpa using hq
      rw [dictLookup, List.find?_cons, hb]
      exact ih hn.2 hm

theorem dictLookup_append_left (a b : CState) (p : String) (h : p ∈ dictKeys a) :
    dictLookup (a ++ b) p = dictLookup a p := by
  induction a with
  | nil => cases h
  | cons q rest ih =>
    by_cases hq : q.1 = p
    · have hb : (q.1 == p) = true := by simpa using hq
      rw [List.cons_append, dictLookup, List.find?_cons, hb, dictLookup, List.find?_cons, hb]
    · have hb : (q.1 == p) = false := by simpa using hq
      rw [List.cons_append, dictLookup, List.find?_cons, hb, dictLookup, List.find?_cons, hb]
      rw [dictLookup, dictLookup] at ih
      rcases List.mem_cons.mp h with he | he
      · exact absurd he.symm hq
      · exact ih he

theorem dictLookup_append_right (a b : CState) (p : String) (h : p ∉ dictKeys a) :
    dictLookup (a ++ b) p = dictLookup b p := by
  induction a with
  | nil => rfl
  | cons q rest ih =>
    have hq : ¬ q.1 = p := fun he => h (he ▸ List.mem_cons_self _ _)
    have hb : (q.1 == p) = false := by simpa using hq
    rw [List.cons_append, dictLookup, List.find?_cons, hb]
    rw [dictLookup] at ih
    exact ih (fun he => h (List.mem_cons_of_mem _ he))

theorem dictSet_fresh (cs : CState) (p : String) (v : Nat) (h : p ∉ dictKeys cs) :
    dictSet cs p v = cs ++ [(p, v)] := by
  rw [dictSet, if_neg]
  intro hc
  rw [List.any_eq_true] at hc
  obtain ⟨q, hq, he⟩ := hc
  simp only [beq_iff_eq] at he
  exact h (he ▸ List.mem_map_of_mem Prod.fst hq)

theorem foldl_dictDelete_eq_filter (ps : List String) :
    ∀ cs : CState, ps.foldl dictDelete cs = cs.filter (fun pr => decide (pr.1 ∉ ps)) := by
  induction ps with
  | nil => intro cs; simp
  | cons p rest ih =>
    intro cs
    rw [List.foldl_cons, ih, dictDelete, List.filter_filter]
    congr 1
    funext pr
    by_cases h1 : pr.1 = p <;> by_cases h2 : pr.1 ∈ rest <;> simp [h1, h2]

/-! ## General list helper lemmas for the tracker proofs -/

theorem map_filter_comp {α β : Type} (f : α → β) (q : β → Bool) (l : List α) :
    (l.filter (fun x => q (f x))).map f = (l.map f).filter q := by
  induction l with
  | nil => rfl
  | cons a rest ih =>
    by_cases h : q (f a) = true <;>
      simp [List.filter_cons, h, ih]

theorem filterMap_eq_map_filter {α β γ : Type} (g : α → Option β) (h : α → β → γ) (d : β)
    (l : List α) :
    l.filterMap (fun a => (g a).map (h a)) =
      (l.filter (fun a => (g a).isSome)).map (fun a => h a ((g a).getD d)) := by
  induction l with
  | nil => rfl
  | cons a rest ih =>
    cases hg : g a with
    | none => simp [List.filterMap_cons, List.filter_cons, hg, ih]
    | some b => simp [List.filterMap_cons, List.filter_cons, hg, ih]

theorem filterMap_filter_isSome {α β : Type} (g : α → Option β) (l : List α) :
    (l.filter (fun a => (g a).isSome)).filterMap g = l.filterMap g := by
  induction l with
  | nil => rfl
  | cons a rest ih =>
    cases hg : g a with
    | none => simp [List.filterMap_cons, List.filter_cons, hg, ih]
    | some b => simp [List.filterMap_cons, List.filter_cons, hg, ih]

theorem pair_eq_of_keys_nodup (cs : CState) (hn : (dictKeys cs).Nodup)
    (pr qr : String × Nat) (hp : pr ∈ cs) (hq : qr ∈ cs) (he : pr.1 = qr.1) : pr = qr := by
  rw [dictKeys] at hn
  exact List.inj_on_of_nodup_map hn hp hq he

/-! ## Lookup lemmas for the charter table -/

theorem get_charter_by_path_some (db : Store) (p : String) (c : Charter)
    (h : get_charter_by_path db p = some c) : c ∈ db.charters ∧ c.file_path = p := by
  rw [get_charter_by_path] at h
  refine ⟨List.mem_of_find?_eq_some h, ?_⟩
  have := List.find?_some h
  simpa using this

theorem get_charter_by_path_none (db : Store) (p : String) :
    get_charter_by_path db p = none ↔ ∀ c ∈ db.charters, ¬ c.file_path = p := by
  rw [get_charter_by_path, List.find?_eq_none]
  simp

theorem find_charter_of_mem (l : List Charter) (c : Charter)
    (hn : (l.map Charter.file_path).Nodup) (hm : c ∈ l) :
    l.find? (fun x => x.file_path == c.file_path) = some c := by
  induction l with
  | nil => cases hm
  | cons a rest ih =>
    rw [List.map_cons, List.nodup_cons] at hn
    rcases List.mem_cons.mp hm with rfl | hm
    · rw [List.find?_cons]
      have hb : (c.file_path == c.file_path) = true := by simp
      rw [hb]
    · have ha : ¬ a.file_path = c.file_path := by
        intro he
        exact hn.1 (he ▸ List.mem_map_of_mem Charter.file_path hm)
      have hb : (a.file_path == c.file_path) = false := by simpa using ha
      rw [List.find?_cons, hb]
      exact ih hn.2 hm

theorem get_charter_by_path_of_mem (db : Store) (c : Charter)
    (hn : (db.charters.map Charter.file_path).Nodup) (hm : c ∈ db.charters) :
    get_charter_by_path db c.file_path = some c :=
  find_charter_of_mem db.charters c hn hm

theorem get_charter_by_path_congr (db db2 : Store) (h : db2.charters = db.charters)
    (p : String) : get_charter_by_path db2 p = get_charter_by_path db p := by
  rw [get_charter_by_path, get_charter_by_path, h]

/-! ## Field projections of the Store operations -/

theorem add_backup_charters (db : Store) (f d : String) :
    (add_backup db f d).1.charters = db.charters := by
  rw [add_backup]
  cases db.backups.find? (fun b => b.filename == f) <;> rfl

theorem add_backup_events (db : Store) (f d : String) :
    (add_backup db f d).1.events = db.events := by
  rw [add_backup]
  cases db.backups.find? (fun b => b.filename == f) <;> rfl

theorem add_backup_nextCharterId (db : Store) (f d : String) :
    (add_backup db f d).1.nextCharterId = db.nextCharterId := by
  rw [add_backup]
  cases db.backups.find? (fun b => b.filename == f) <;> rfl

theorem foldl_dictSet_pairs :
    ∀ (l : List ((String × String × String × Nat) × Nat)) (cs : CState),
    (∀ q ∈ l, q.1.1 ∉ dictKeys cs) →
    ((l.map (fun q => q.1.1)).Nodup) →
    l.foldl (fun acc pr => dictSet acc pr.1.1 pr.2) cs =
      cs ++ l.map (fun q => (q.1.1, q.2)) := by
  intro l
  induction l with
  | nil => intro cs _ _; simp
  | cons q rest ih =>
    intro cs hfresh hnod
    rw [List.map_cons, List.nodup_cons] at hnod
    have h1 : q.1.1 ∉ dictKeys cs := hfresh q (List.mem_cons_self _ _)
    have hfresh2 : ∀ r ∈ rest, r.1.1 ∉ dictKeys (cs ++ [(q.1.1, q.2)]) := by
      intro r hr
      rw [dictKeys_append]
      simp only [List.mem_append]
      rintro (h | h)
      · exact hfresh r (List.mem_cons_of_mem _ hr) h
      · have he : r.1.1 = q.1.1 := by simpa [dictKeys] using h
        exact hnod.1 (he ▸ List.mem_map_of_mem (fun q => q.1.1) hr)
    simp only [List.foldl_cons]
    rw [dictSet_fresh cs q.1.1 q.2 h1, ih _ hfresh2 hnod.2]
    simp

/-! ## Characterisation of the reappearance loop -/

theorem reappear_fold_spec (db2 : Store) (bid : Nat) (bds base : String) :
    ∀ (l : List (String × String)) (st : LoopState),
    (∀ pr ∈ l, pr.1 ∉ dictKeys st.cs) →
    ((l.map Prod.fst).Nodup) →
    (∀ pr ∈ l, ∀ c, get_charter_by_path db2 pr.1 = some c →
      c.current_status = Status.missing) →
    l.foldl (reappearStep db2 bid bds base) st =
      ⟨st.cs ++ l.filterMap (fun pr => (get_charter_by_path db2 pr.1).map
         (fun c => (pr.1, c.id))),
       st.existing_ids ++ l.filterMap (fun pr => (get_charter_by_path db2 pr.1).map
         (fun c => c.id)),
       st.appeared_events ++ l.filterMap (fun pr => (get_charter_by_path db2 pr.1).map
         (fun c => (⟨c.id, bid, "appeared", bds⟩ : EventRec))),
       st.reappeared + (l.filter (fun pr => (get_charter_by_path db2 pr.1).isSome)).length,
       st.new_charters ++ (l.filter (fun pr => (get_charter_by_path db2 pr.1).isNone)).map
         (fun pr => (pr.1, pr.2, extract_parent_path pr.1 base, bid))⟩ := by
  intro l
  induction l with
  | nil =>
    intro st _ _ _
    simp
  | cons pr rest ih =>
    intro st hfresh hnod hmiss
    rw [List.map_cons, List.nodup_cons] at hnod
    have hfr : pr.1 ∉ dictKeys st.cs := hfresh pr (List.mem_cons_self _ _)
    simp only [List.foldl_cons]
    cases hg : get_charter_by_path db2 pr.1 with
    | some c =>
      have hc := hmiss pr (List.mem_cons_self _ _) c hg
      have hstep : reappearStep db2 bid bds base st pr =
          { st with
              existing_ids := st.existing_ids ++ [c.id],
              cs := dictSet st.cs pr.1 c.id,
              appeared_events := st.appeared_events ++
                [⟨c.id, bid, "appeared", bds⟩],
              reappeared := st.reappeared + 1 } := by
        rw [reappearStep, hg]
        dsimp only
        rw [if_pos hc]
      rw [hstep]
      have hset : dictSet st.cs pr.1 c.id = st.cs ++ [(pr.1, c.id)] :=
        dictSet_fresh st.cs pr.1 c.id hfr
      have hfresh2 : ∀ q ∈ rest,
          q.1 ∉ dictKeys ({ st with
              existing_ids := st.existing_ids ++ [c.id],
              cs := dictSet st.cs pr.1 c.id,
              appeared_events := st.appeared_events ++
                [⟨c.id, bid, "appeared", bds⟩],
              reappeared := st.reappeared + 1 } : LoopState).cs := by
        intro q hq
        dsimp only
        rw [hset, dictKeys_append]
        simp only [List.mem_append]
        rintro (h | h)
        · exact hfresh q (List.mem_cons_of_mem _ hq) h
        · have he : q.1 = pr.1 := by simpa [dictKeys] using h
          exact hnod.1 (he ▸ List.mem_map_of_mem Prod.fst hq)
      rw [ih _ hfresh2 hnod.2
        (fun q hq c2 hg2 => hmiss q (List.mem_cons_of_mem _ hq) c2 hg2)]
      simp [hset, hg, List.filterMap_cons, List.filter_cons, Nat.add_assoc,
        Nat.add_comm 1]
    | none =>
      have hstep : reappearStep db2 bid bds base st pr =
          { st with new_charters := st.new_charters ++
              [(pr.1, pr.2, extract_parent_path pr.1 base, bid)] } := by
        rw [reappearStep, hg]
      rw [hstep]
      have hfresh2 : ∀ q ∈ rest,
          q.1 ∉ dictKeys ({ st with new_charters := st.new_charters ++
              [(pr.1, pr.2, extract_parent_path pr.1 base, bid)] } : LoopState).cs := by
        intro q hq
        exact hfresh q (List.mem_cons_of_mem _ hq)
      rw [ih _ hfresh2 hnod.2
        (fun q hq c2 hg2 => hmiss q (List.mem_cons_of_mem _ hq) c2 hg2)]
      simp [hg, List.filterMap_cons, List.filter_cons]

/-! ## Field projections of the transactional Store operations -/

theorem add_discrepancies_charters (db : Store) (ds : List DiscRec) :
    (add_discrepancies_batch db ds).charters = db.charters := rfl

theorem add_discrepancies_events (db : Store) (ds : List DiscRec) :
    (add_discrepancies_batch db ds).events = db.events := rfl

theorem add_discrepancies_nextCharterId (db : Store) (ds : List DiscRec) :
    (add_discrepancies_batch db ds).nextCharterId = db.nextCharterId := rfl

theorem add_charters_charters (db : Store) (rows : List (String × String × String × Nat)) :
    (add_charters_batch db rows).1.charters = db.charters ++ rows.enum.map
      (fun q => (⟨db.nextCharterId + q.1, q.2.1, q.2.2.1, q.2.2.2.1, q.2.2.2.2, q.2.2.2.2,
        Status.present⟩ : Charter)) := rfl

theorem add_charters_ids (db : Store) (rows : List (String × String × String × Nat)) :
    (add_charters_batch db rows).2 = rows.enum.map (fun q => db.nextCharterId + q.1) := rfl

theorem add_charters_events (db : Store) (rows : List (String × String × String × Nat)) :
    (add_charters_batch db rows).1.events = db.events := rfl

theorem add_charters_nextCharterId (db : Store) (rows : List (String × String × String × Nat)) :
    (add_charters_batch db rows).1.nextCharterId = db.nextCharterId + rows.length := rfl

theorem update_last_seen_charters (db : Store) (ids : List Nat) (bid : Nat) :
    (update_charters_last_seen_batch db ids bid).charters = db.charters.map (fun c =>
      if c.id ∈ ids then { c with last_seen_backup_id := bid, current_status := Status.present }
      else c) := rfl

theorem update_last_seen_events (db : Store) (ids : List Nat) (bid : Nat) :
    (update_charters_last_seen_batch db ids bid).events = db.events := rfl

theorem update_last_seen_nextCharterId (db : Store) (ids : List Nat) (bid : Nat) :
    (update_charters_last_seen_batch db ids bid).nextCharterId = db.nextCharterId := rfl

theorem mark_missing_charters (db : Store) (ids : List Nat) :
    (mark_charters_missing_batch db ids).charters = db.charters.map (fun c =>
      if c.id ∈ ids then { c with current_status := Status.missing } else c) := rfl

theorem mark_missing_events (db : Store) (ids : List Nat) :
    (mark_charters_missing_batch db ids).events = db.events := rfl

theorem mark_missing_nextCharterId (db : Store) (ids : List Nat) :
    (mark_charters_missing_batch db ids).nextCharterId = db.nextCharterId := rfl

theorem add_events_events (db : Store) (evs : List EventRec) :
    (add_events_batch db evs).events = db.events ++ evs := rfl

theorem add_events_charters (db : Store) (evs : List EventRec) :
    (add_events_batch db evs).charters = db.charters := rfl

theorem add_events_nextCharterId (db : Store) (evs : List EventRec) :
    (add_events_batch db evs).nextCharterId = db.nextCharterId := rfl

theorem mark_processed_charters (db : Store) (bid n : Nat) :
    (mark_backup_processed db bid n).charters = db.charters := rfl

theorem mark_processed_events (db : Store) (bid n : Nat) :
    (mark_backup_processed db bid n).events = db.events := rfl

theorem mark_processed_nextCharterId (db : Store) (bid n : Nat) :
    (mark_backup_processed db bid n).nextCharterId = db.nextCharterId := rfl

/-! ## Enumeration and zipping of the freshly inserted charter rows -/

theorem zip_enumFrom_assign {α : Type} (N : Nat) :
    ∀ (i : Nat) (rows : List α),
    rows.zip ((List.enumFrom i rows).map (fun q => N + q.1)) =
      (List.enumFrom i rows).map (fun q => (q.2, N + q.1)) := by
  intro i rows
  induction rows generalizing i with
  | nil => rfl
  | cons a l ih => simp [List.enumFrom, ih (i + 1)]

theorem zip_enum_assign {α : Type} (N : Nat) (rows : List α) :
    rows.zip (rows.enum.map (fun q => N + q.1)) =
      rows.enum.map (fun q => (q.2, N + q.1)) :=
  zip_enumFrom_assign N 0 rows

theorem key_mem_dictKeys (l : CState) (q : String × Nat) (h : q ∈ l) : q.1 ∈ dictKeys l :=
  List.mem_map_of_mem (fun x => x.1) h

theorem enumFrom_map_snd_comp {α β : Type} (g : α → β) :
    ∀ (i : Nat) (l : List α), (List.enumFrom i l).map (fun q => g q.2) = l.map g := by
  intro i l
  induction l generalizing i with
  | nil => rfl
  | cons a t ih => simp [List.enumFrom, ih (i + 1)]

theorem enum_map_snd_comp {α β : Type} (g : α → β) (l : List α) :
    l.enum.map (fun q => g q.2) = l.map g :=
  enumFrom_map_snd_comp g 0 l

set_option maxHeartbeats 4000000 in
theorem process_backup_shape (db : Store) (cs : CState) (base : String)
    (archive : BackupArchive) (fname : String) (bd : PyDateTime)
    (dbr : Store) (csr : CState) (stats : RunStats)
    (pm tc nf : List (String × String)) (bds : String) (bid : Nat)
    (rows : List (String × String × String × Nat))
    (hcs : (dictKeys cs).Nodup)
    (hpres : ∀ c ∈ db.charters, c.current_status = Status.present →
      (c.file_path, c.id) ∈ cs)
    (hp : parse_backup_filename fname = some bd)
    (hpm : pm = extract_path_mapping
      (unionList archive.contents_xml_paths archive.zip_entry_paths))
    (hbds : bds = format_datetime bd)
    (hbid : bid = (add_backup db fname bds).2)
    (htc : tc = pm.filter (fun pr => (dictLookup cs pr.1).isNone))
    (hnf : nf = tc.filter (fun pr => (get_charter_by_path db pr.1).isNone))
    (hrows : rows = nf.map (fun pr => (pr.1, pr.2, extract_parent_path pr.1 base, bid)))
    (hok : process_backup db cs base archive fname FailAt.noFail =
      .ok (dbr, csr, stats)) :
    dbr.charters =
      ((db.charters ++ rows.enum.map (fun q =>
          (⟨db.nextCharterId + q.1, q.2.1, q.2.2.1, q.2.2.2.1, q.2.2.2.2, q.2.2.2.2,
            Status.present⟩ : Charter))).map
        (fun c => if c.id ∈ pm.filterMap (fun pr => dictLookup cs pr.1) ++
            tc.filterMap (fun pr => (get_charter_by_path db pr.1).map (fun c2 => c2.id)) then
          { c with last_seen_backup_id := bid, current_status := Status.present } else c)).map
        (fun c => if c.id ∈ (cs.filter (fun pr => decide (pr.1 ∉ pm.map (fun x => x.1)))).map
              (fun pr => pr.2) then
          { c with current_status := Status.missing } else c) ∧
    dbr.events = db.events ++
      (tc.filterMap (fun pr => (get_charter_by_path db pr.1).map
          (fun c => (⟨c.id, bid, "appeared", bds⟩ : EventRec))) ++
        rows.enum.map (fun q =>
          (⟨db.nextCharterId + q.1, bid, "appeared", bds⟩ : EventRec))) ++
      ((cs.filter (fun pr => decide (pr.1 ∉ pm.map (fun x => x.1)))).map (fun pr => pr.2)).map
        (fun i => (⟨i, bid, "disappeared", bds⟩ : EventRec)) ∧
    dbr.nextCharterId = db.nextCharterId + rows.length ∧
    csr = cs.filter (fun pr => decide (pr.1 ∈ pm.map (fun x => x.1))) ++
      tc.filterMap (fun pr => (get_charter_by_path db pr.1).map (fun c => (pr.1, c.id))) ++
      rows.enum.map (fun q => (q.2.1, db.nextCharterId + q.1)) ∧
    stats.backup_id = bid := by
  simp only [process_backup, hp,
    eq_false (show ¬ (FailAt.noFail = FailAt.atExtract) from by decide),
    eq_false (show ¬ (FailAt.noFail = FailAt.atAddDiscrepancies) from by decide),
    eq_false (show ¬ (FailAt.noFail = FailAt.atQueryBatch) from by decide),
    eq_false (show ¬ (FailAt.noFail = FailAt.atAddCharters) from by decide),
    eq_false (show ¬ (FailAt.noFail = FailAt.atUpdateLastSeen) from by decide),
    eq_false (show ¬ (FailAt.noFail = FailAt.atAddAppearEvents) from by decide),
    eq_false (show ¬ (FailAt.noFail = FailAt.atMarkMissing) from by decide),
    eq_false (show ¬ (FailAt.noFail = FailAt.atAddDisappearEvents) from by decide),
    eq_false (show ¬ (FailAt.noFail = FailAt.atMarkProcessed) from by decide),
    if_false] at hok
  rw [← hbds, ← hpm] at hok
  rw [← hbid] at hok
  rw [← htc] at hok
  rw [filterMap_filter_isSome (fun pr => dictLookup cs pr.1) pm] at hok
  -- the store inside the transaction, before the batch insert
  have hdb2ch : (add_discrepancies_batch (add_backup db fname bds).1
      ((get_discrepancies archive.contents_xml_paths archive.zip_entry_paths).map
        (fun d => (⟨bid, d.file_path, d.in_contents_xml, d.in_zip_entries⟩ : DiscRec)))).charters
      = db.charters := by
    rw [add_discrepancies_charters, add_backup_charters]
  have hdb2n : (add_discrepancies_batch (add_backup db fname bds).1
      ((get_discrepancies archive.contents_xml_paths archive.zip_entry_paths).map
        (fun d => (⟨bid, d.file_path, d.in_contents_xml, d.in_zip_entries⟩ : DiscRec)))).nextCharterId
      = db.nextCharterId := by
    rw [add_discrepancies_nextCharterId, add_backup_nextCharterId]
  have hgc : ∀ p, get_charter_by_path (add_discrepancies_batch (add_backup db fname bds).1
      ((get_discrepancies archive.contents_xml_paths archive.zip_entry_paths).map
        (fun d => (⟨bid, d.file_path, d.in_contents_xml, d.in_zip_entries⟩ : DiscRec)))) p =
      get_charter_by_path db p :=
    get_charter_by_path_congr db _ hdb2ch
  -- the categorisation facts
  have hpmn : (pm.map Prod.fst).Nodup := by
    rw [hpm, extract_path_mapping]
    exact extractMapGo_keys_nodup _ []
  have htcn : (tc.map Prod.fst).Nodup := by
    rw [htc]
    exact List.Nodup.sublist (List.Sublist.map Prod.fst (List.filter_sublist pm)) hpmn
  have htcfresh : ∀ pr ∈ tc, pr.1 ∉ dictKeys cs := by
    intro pr hpr
    rw [htc] at hpr
    have h2 := (List.mem_filter.mp hpr).2
    rw [Option.isNone_iff_eq_none] at h2
    exact (dictLookup_eq_none_iff cs pr.1).mp h2
  have hmiss : ∀ pr ∈ tc, ∀ c, get_charter_by_path (add_discrepancies_batch
      (add_backup db fname bds).1
      ((get_discrepancies archive.contents_xml_paths archive.zip_entry_paths).map
        (fun d => (⟨bid, d.file_path, d.in_contents_xml, d.in_zip_entries⟩ : DiscRec)))) pr.1
      = some c → c.current_status = Status.missing := by
    intro pr hpr c hg
    rw [hgc] at hg
    obtain ⟨hcm, hcp⟩ := get_charter_by_path_some db pr.1 c hg
    cases hs : c.current_status with
    | missing => rfl
    | present =>
      exact absurd (hcp ▸ key_mem_dictKeys cs _ (hpres c hcm hs)) (htcfresh pr hpr)
  -- rewrite the reappearance loop
  rw [reappear_fold_spec (add_discrepancies_batch (add_backup db fname bds).1
      ((get_discrepancies archive.contents_xml_paths archive.zip_entry_paths).map
        (fun d => (⟨bid, d.file_path, d.in_contents_xml, d.in_zip_entries⟩ : DiscRec))))
      bid bds base tc ⟨cs, pm.filterMap (fun pr => dictLookup cs pr.1), [], 0, []⟩
      (fun pr hpr => htcfresh pr hpr) htcn hmiss] at hok
  dsimp only at hok
  simp only [hgc] at hok
  rw [← hnf] at hok
  rw [← hrows] at hok
  simp only [List.nil_append] at hok
  rw [add_charters_ids] at hok
  rw [hdb2n] at hok
  rw [zip_enum_assign db.nextCharterId rows] at hok
  set F := tc.filterMap (fun pr => (get_charter_by_path db pr.1).map (fun c => (pr.1, c.id)))
    with hF
  -- facts about the reappearance pairs and the fresh rows
  have hFkey : ∀ x ∈ F, ∃ pr2 ∈ tc, ∃ c, get_charter_by_path db pr2.1 = some c ∧
      x = (pr2.1, c.id) := by
    intro x hx
    rw [hF] at hx
    obtain ⟨pr2, hpr2, hmap⟩ := List.mem_filterMap.mp hx
    obtain ⟨c, hgc2, hxe⟩ := Option.map_eq_some'.mp hmap
    exact ⟨pr2, hpr2, c, hgc2, hxe.symm⟩
  have hnff : ∀ pr ∈ nf, pr ∈ tc ∧ get_charter_by_path db pr.1 = none := by
    intro pr hpr
    rw [hnf] at hpr
    have h1 := List.mem_filter.mp hpr
    exact ⟨h1.1, Option.isNone_iff_eq_none.mp h1.2⟩
  have htcinj : ∀ pr ∈ tc, ∀ pr2 ∈ tc, pr.1 = pr2.1 → pr = pr2 :=
    fun pr h1 pr2 h2 he => List.inj_on_of_nodup_map htcn h1 h2 he
  have hFfresh : ∀ pr ∈ nf, pr.1 ∉ dictKeys F := by
    intro pr hpr hink
    obtain ⟨x, hxF, hx1⟩ := List.mem_map.mp hink
    obtain ⟨pr2, hpr2, c, hgc2, hxe⟩ := hFkey x hxF
    have he : pr2.1 = pr.1 := by rw [← hx1, hxe]
    have he2 : pr2 = pr := htcinj pr2 hpr2 pr (hnff pr hpr).1 he
    rw [he2] at hgc2
    rw [(hnff pr hpr).2] at hgc2
    cases hgc2
  have hzmem : ∀ q ∈ rows.enum.map (fun q => (q.2, db.nextCharterId + q.1)),
      ∃ pr ∈ nf, q.1 = (pr.1, pr.2, extract_parent_path pr.1 base, bid) := by
    intro q hq
    obtain ⟨e, he, hqe⟩ := List.mem_map.mp hq
    have h2 : e.2 ∈ rows := by
      have h3 := List.mem_map_of_mem Prod.snd he
      rwa [List.enum_map_snd] at h3
    rw [hrows] at h2
    obtain ⟨pr, hpr, hfe⟩ := List.mem_map.mp h2
    refine ⟨pr, hpr, ?_⟩
    have hq1 : q.1 = e.2 := by rw [← hqe]
    rw [hq1, ← hfe]
  have hfr : ∀ q ∈ rows.enum.map (fun q => (q.2, db.nextCharterId + q.1)),
      q.1.1 ∉ dictKeys (cs ++ F) := by
    intro q hq
    obtain ⟨pr, hpr, hq1⟩ := hzmem q hq
    have hq11 : q.1.1 = pr.1 := by rw [hq1]
    rw [hq11, dictKeys_append]
    simp only [List.mem_append]
    rintro (h | h)
    · exact htcfresh pr (hnff pr hpr).1 h
    · exact hFfresh pr hpr h
  have hzk : (rows.enum.map (fun q => (q.2, db.nextCharterId + q.1))).map (fun q => q.1.1) =
      nf.map (fun pr => pr.1) := by
    rw [List.map_map]
    have h2 := enum_map_snd_comp (fun (r : String × String × String × Nat) => r.1) rows
    have h3 : rows.map (fun r => r.1) = nf.map (fun pr => pr.1) := by
      rw [hrows, List.map_map]
      rfl
    exact h2.trans h3
  have hnd : ((rows.enum.map (fun q => (q.2, db.nextCharterId + q.1))).map
      (fun q => q.1.1)).Nodup := by
    rw [hzk]
    have hsub : List.Sublist nf tc := by rw [hnf]; exact List.filter_sublist tc
    exact List.Nodup.sublist (List.Sublist.map (fun pr => pr.1) hsub) htcn
  rw [foldl_dictSet_pairs (rows.enum.map (fun q => (q.2, db.nextCharterId + q.1)))
    (cs ++ F) hfr hnd] at hok
  have hNP : (rows.enum.map (fun q => (q.2, db.nextCharterId + q.1))).map
      (fun q => (q.1.1, q.2)) = rows.enum.map (fun q => (q.2.1, db.nextCharterId + q.1)) := by
    rw [List.map_map]
    rfl
  have hNE : (rows.enum.map (fun q => (q.2, db.nextCharterId + q.1))).map
      (fun pr => (⟨pr.2, bid, "appeared", bds⟩ : EventRec)) =
      rows.enum.map (fun q => (⟨db.nextCharterId + q.1, bid, "appeared", bds⟩ : EventRec)) := by
    rw [List.map_map]
    rfl
  rw [hNP, hNE] at hok
  -- every key introduced by the loop or the insert lies in the current backup
  have hFsub : ∀ p ∈ dictKeys F, p ∈ pm.map (fun x => x.1) := by
    intro p hp
    obtain ⟨x, hxF, hx1⟩ := List.mem_map.mp hp
    obtain ⟨pr2, hpr2, c, hgc2, hxe⟩ := hFkey x hxF
    have he : p = pr2.1 := by rw [← hx1, hxe]
    rw [he]
    have hpr2pm : pr2 ∈ pm := by
      rw [htc] at hpr2
      exact List.mem_of_mem_filter hpr2
    exact List.mem_map_of_mem (fun x => x.1) hpr2pm
  have hNPsub : ∀ p ∈ dictKeys (rows.enum.map (fun q => (q.2.1, db.nextCharterId + q.1))),
      p ∈ pm.map (fun x => x.1) := by
    intro p hp
    obtain ⟨x, hxN, hx1⟩ := List.mem_map.mp hp
    obtain ⟨e, he, hex⟩ := List.mem_map.mp hxN
    have h2 : e.2 ∈ rows := by
      have h3 := List.mem_map_of_mem Prod.snd he
      rwa [List.enum_map_snd] at h3
    rw [hrows] at h2
    obtain ⟨pr, hpr, hfe⟩ := List.mem_map.mp h2
    have hp1 : p = pr.1 := by rw [← hx1, ← hex, ← hfe]
    rw [hp1]
    have hprpm : pr ∈ pm := by
      have h4 := (hnff pr hpr).1
      rw [htc] at h4
      exact List.mem_of_mem_filter h4
    exact List.mem_map_of_mem (fun x => x.1) hprpm
  -- the vanished keys are exactly the stale keys of the previous state
  have hmp : (dictKeys ((cs ++ F) ++ rows.enum.map
        (fun q => (q.2.1, db.nextCharterId + q.1)))).filter
        (fun p => decide (p ∉ pm.map (fun x => x.1))) =
      (dictKeys cs).filter (fun p => decide (p ∉ pm.map (fun x => x.1))) := by
    rw [dictKeys_append, dictKeys_append, List.filter_append, List.filter_append]
    have hn1 : (dictKeys F).filter (fun p => decide (p ∉ pm.map (fun x => x.1))) = [] :=
      List.filter_eq_nil_iff.mpr (fun p hp hdec => (of_decide_eq_true hdec) (hFsub p hp))
    have hn2 : (dictKeys (rows.enum.map (fun q => (q.2.1, db.nextCharterId + q.1)))).filter
        (fun p => decide (p ∉ pm.map (fun x => x.1))) = [] :=
      List.filter_eq_nil_iff.mpr (fun p hp hdec => (of_decide_eq_true hdec) (hNPsub p hp))
    rw [hn1, hn2, List.append_nil, List.append_nil]
  rw [hmp] at hok
  -- the ids marked missing are the values of the stale entries
  have hmi : ((dictKeys cs).filter (fun p => decide (p ∉ pm.map (fun x => x.1)))).filterMap
        (fun p => dictLookup ((cs ++ F) ++ rows.enum.map
          (fun q => (q.2.1, db.nextCharterId + q.1))) p) =
      (cs.filter (fun pr => decide (pr.1 ∉ pm.map (fun x => x.1)))).map (fun pr => pr.2) := by
    have h1 : ∀ p ∈ (dictKeys cs).filter (fun p => decide (p ∉ pm.map (fun x => x.1))),
        dictLookup ((cs ++ F) ++ rows.enum.map
          (fun q => (q.2.1, db.nextCharterId + q.1))) p = dictLookup cs p := by
      intro p hp
      have hpc : p ∈ dictKeys cs := List.mem_of_mem_filter hp
      rw [dictLookup_append_left (cs ++ F) _ p
          (by rw [dictKeys_append]; exact List.mem_append_left _ hpc),
        dictLookup_append_left cs F p hpc]
    rw [List.filterMap_congr h1]
    rw [show dictKeys cs = cs.map (fun x => x.1) from rfl]
    rw [← map_filter_comp (fun x => x.1) (fun p => decide (p ∉ pm.map (fun x => x.1))) cs]
    rw [List.filterMap_map]
    have h2 : ∀ pr ∈ cs.filter (fun x => decide (x.1 ∉ pm.map (fun x => x.1))),
        ((fun p => dictLookup cs p) ∘ (fun (x : String × Nat) => x.1)) pr = some pr.2 := by
      intro pr hpr
      exact dictLookup_of_mem_nodup cs pr.1 pr.2 hcs (List.mem_of_mem_filter hpr)
    rw [List.filterMap_congr h2]
    exact congrFun (List.filterMap_eq_map (fun (pr : String × Nat) => pr.2)) _
  rw [hmi] at hok
  -- the final state drops exactly the stale keys
  rw [foldl_dictDelete_eq_filter] at hok
  have hcsr2 : ((cs ++ F) ++ rows.enum.map (fun q => (q.2.1, db.nextCharterId + q.1))).filter
        (fun pr => decide (pr.1 ∉ (dictKeys cs).filter
          (fun p => decide (p ∉ pm.map (fun x => x.1))))) =
      cs.filter (fun pr => decide (pr.1 ∈ pm.map (fun x => x.1))) ++ F ++
        rows.enum.map (fun q => (q.2.1, db.nextCharterId + q.1)) := by
    rw [List.filter_append, List.filter_append]
    have hc1 : cs.filter (fun pr => decide (pr.1 ∉ (dictKeys cs).filter
          (fun p => decide (p ∉ pm.map (fun x => x.1))))) =
        cs.filter (fun pr => decide (pr.1 ∈ pm.map (fun x => x.1))) := by
      apply List.filter_congr
      intro pr hmem
      have hpc : pr.1 ∈ dictKeys cs := key_mem_dictKeys cs pr hmem
      by_cases hx : pr.1 ∈ pm.map (fun x => x.1) <;>
        simp [List.mem_filter, hx, hpc]
    have hc2 : F.filter (fun pr => decide (pr.1 ∉ (dictKeys cs).filter
          (fun p => decide (p ∉ pm.map (fun x => x.1))))) = F := by
      apply List.filter_eq_self.mpr
      intro x hx
      apply decide_eq_true
      intro hin
      exact (of_decide_eq_true (List.mem_filter.mp hin).2)
        (hFsub x.1 (key_mem_dictKeys F x hx))
    have hc3 : (rows.enum.map (fun q => (q.2.1, db.nextCharterId + q.1))).filter
        (fun pr => decide (pr.1 ∉ (dictKeys cs).filter
          (fun p => decide (p ∉ pm.map (fun x => x.1))))) =
        rows.enum.map (fun q => (q.2.1, db.nextCharterId + q.1)) := by
      apply List.filter_eq_self.mpr
      intro x hx
      apply decide_eq_true
      intro hin
      exact (of_decide_eq_true (List.mem_filter.mp hin).2)
        (hNPsub x.1 (key_mem_dictKeys _ x hx))
    rw [hc1, hc2, hc3]
  rw [hcsr2] at hok
  rw [Except.ok.injEq, Prod.mk.injEq, Prod.mk.injEq] at hok
  obtain ⟨h1, h2, h3⟩ := hok
  subst h1
  subst h2
  subst h3
  refine ⟨?_, ?_, ?_, ?_, ?_⟩
  · rw [mark_processed_charters, add_events_charters, mark_missing_charters,
      add_events_charters, update_last_seen_charters, add_charters_charters, hdb2ch, hdb2n]
  · rw [mark_processed_events, add_events_events, mark_missing_events, add_events_events,
      update_last_seen_events, add_charters_events, add_discrepancies_events, add_backup_events]
  · rw [mark_processed_nextCharterId, add_events_nextCharterId, mark_missing_nextCharterId,
      add_events_nextCharterId, update_last_seen_nextCharterId, add_charters_nextCharterId,
      hdb2n]
  · rfl
  · rfl

/-! ## Counting helpers for the event lists -/

theorem countP_congr_local {α : Type} (l : List α) (p q : α → Bool)
    (h : ∀ a ∈ l, p a = q a) : l.countP p = l.countP q := by
  rw [List.countP_eq_length_filter, List.countP_eq_length_filter, List.filter_congr h]

theorem countP_evs_id (bid : Nat) (bds t : String) (ids : List Nat) (i : Nat) :
    (ids.map (fun j => (⟨j, bid, t, bds⟩ : EventRec))).countP
      (fun e => e.charter_id == i) = ids.count i := by
  rw [List.countP_map]
  rfl

theorem countP_evs_type_eq (bid : Nat) (bds t : String) (ids : List Nat) (i : Nat) :
    (ids.map (fun j => (⟨j, bid, t, bds⟩ : EventRec))).countP
      (fun e => e.charter_id == i && e.event_type == t) = ids.count i := by
  rw [List.countP_map]
  have h : ∀ j ∈ ids, ((fun e => e.charter_id == i && e.event_type == t) ∘
      (fun j => (⟨j, bid, t, bds⟩ : EventRec))) j = (j == i) := by
    intro j _
    simp [Function.comp]
  rw [countP_congr_local _ _ _ h]
  rfl

theorem countP_evs_type_ne (bid : Nat) (bds t t2 : String) (h : ¬ t = t2)
    (ids : List Nat) (i : Nat) :
    (ids.map (fun j => (⟨j, bid, t, bds⟩ : EventRec))).countP
      (fun e => e.charter_id == i && e.event_type == t2) = 0 := by
  rw [List.countP_map]
  apply List.countP_eq_zero.mpr
  intro j _
  simp [Function.comp, h]

theorem upd_then_miss (eIds mIds : List Nat) (bid : Nat) (c0 : Charter) :
    (fun c => if c.id ∈ mIds then { c with current_status := Status.missing } else c)
      ((fun c => if c.id ∈ eIds then
        { c with last_seen_backup_id := bid, current_status := Status.present } else c) c0) =
    ⟨c0.id, c0.file_path, c0.file_path_raw, c0.parent_path, c0.first_seen_backup_id,
      (if c0.id ∈ eIds then bid else c0.last_seen_backup_id),
      (if c0.id ∈ mIds then Status.missing else if c0.id ∈ eIds then Status.present
        else c0.current_status)⟩ := by
  by_cases h1 : c0.id ∈ eIds <;> by_cases h2 : c0.id ∈ mIds <;>
    simp [h1, h2]

set_option maxHeartbeats 4000000 in
theorem process_backup_master (db : Store) (cs : CState) (base : String)
    (archive : BackupArchive) (fname : String)
    (dbr : Store) (csr : CState) (stats : RunStats)
    (K : List String) (emitted : List EventRec)
    (hInv : TrackerInv db cs)
    (hK : K = (extract_path_mapping (unionList archive.contents_xml_paths
      archive.zip_entry_paths)).map (fun x => x.1))
    (hemit : emitted = dbr.events.drop db.events.length)
    (hok : process_backup db cs base archive fname FailAt.noFail =
      .ok (dbr, csr, stats)) :
    (∀ c ∈ dbr.charters, (c.current_status = Status.missing ↔ c.file_path ∉ K)) ∧
    (∀ p, p ∈ dictKeys csr ↔ p ∈ K) ∧
    TrackerInv dbr csr ∧
    (∀ pr ∈ cs, pr.1 ∈ K →
      emitted.countP (fun e => e.charter_id == pr.2) = 0 ∧
      ∃ c ∈ dbr.charters, c.file_path = pr.1 ∧ c.id = pr.2 ∧
        c.current_status = Status.present ∧ c.last_seen_backup_id = stats.backup_id) ∧
    (∀ pr ∈ cs, pr.1 ∉ K →
      emitted.countP (fun e => e.charter_id == pr.2 && e.event_type == "disappeared") = 1 ∧
      emitted.countP (fun e => e.charter_id == pr.2) = 1) ∧
    (∀ p ∈ K, ∀ c, get_charter_by_path db p = some c →
      c.current_status = Status.missing →
      emitted.countP (fun e => e.charter_id == c.id && e.event_type == "appeared") = 1 ∧
      emitted.countP (fun e => e.charter_id == c.id) = 1) ∧
    (∀ p ∈ K, get_charter_by_path db p = none →
      ∃ c ∈ dbr.charters, c.file_path = p ∧ c.first_seen_backup_id = stats.backup_id ∧
        c.current_status = Status.present ∧
        emitted.countP (fun e => e.charter_id == c.id && e.event_type == "appeared") = 1 ∧
        emitted.countP (fun e => e.charter_id == c.id) = 1) := by
  obtain ⟨hpathn, hidn, hidlt, hcsk, hcs2st, hst2cs⟩ := hInv
  cases hparse : parse_backup_filename fname with
  | none =>
    simp only [process_backup, hparse] at hok
    simp at hok
  | some bd =>
    obtain ⟨S1, S2, S3, S4, S5⟩ := process_backup_shape db cs base archive fname bd
      dbr csr stats _ _ _ _ _ _ hcsk hst2cs hparse rfl rfl rfl rfl rfl rfl hok
    set bds := format_datetime bd with hbds
    set bid := (add_backup db fname bds).2 with hbid
    set pm := extract_path_mapping
      (unionList archive.contents_xml_paths archive.zip_entry_paths) with hpm
    rw [← hK] at S1 S2 S4
    set tc := pm.filter (fun pr => (dictLookup cs pr.1).isNone) with htc
    set nf := tc.filter (fun pr => (get_charter_by_path db pr.1).isNone) with hnf
    set rows := nf.map (fun pr => (pr.1, pr.2, extract_parent_path pr.1 base, bid)) with hrows
    have hemit2 : emitted =
        (tc.filterMap (fun pr => (get_charter_by_path db pr.1).map
          (fun c => (⟨c.id, bid, "appeared", bds⟩ : EventRec))) ++
         rows.enum.map (fun q =>
          (⟨db.nextCharterId + q.1, bid, "appeared", bds⟩ : EventRec))) ++
        ((cs.filter (fun pr => decide (pr.1 ∉ K))).map (fun pr => pr.2)).map
          (fun i => (⟨i, bid, "disappeared", bds⟩ : EventRec)) := by
      rw [hemit, S2, List.append_assoc db.events, List.drop_left]
    -- injectivity of the store and the state maps
    have hidinj : ∀ c1 ∈ db.charters, ∀ c2 ∈ db.charters, c1.id = c2.id → c1 = c2 :=
      fun c1 h1 c2 h2 he => List.inj_on_of_nodup_map hidn h1 h2 he
    have hpathinj : ∀ c1 ∈ db.charters, ∀ c2 ∈ db.charters,
        c1.file_path = c2.file_path → c1 = c2 :=
      fun c1 h1 c2 h2 he => List.inj_on_of_nodup_map hpathn h1 h2 he
    have hcsinj : ∀ pr ∈ cs, ∀ qr ∈ cs, pr.1 = qr.1 → pr = qr :=
      fun pr h1 qr h2 he => pair_eq_of_keys_nodup cs hcsk pr qr h1 h2 he
    have hcsnd : cs.Nodup := List.Nodup.of_map (fun x => x.1)
      (show (cs.map (fun x => x.1)).Nodup from hcsk)
    have hcsvinj : ∀ pr ∈ cs, ∀ qr ∈ cs, pr.2 = qr.2 → pr = qr := by
      intro pr h1 qr h2 he
      obtain ⟨c1, hc1, hp1, hi1, hs1⟩ := hcs2st pr h1
      obtain ⟨c2, hc2, hp2, hi2, hs2⟩ := hcs2st qr h2
      have hcc : c1 = c2 := hidinj c1 hc1 c2 hc2 (by rw [hi1, hi2, he])
      have hkey : pr.1 = qr.1 := by rw [← hp1, ← hp2, hcc]
      exact hcsinj pr h1 qr h2 hkey
    have hcsv : (cs.map (fun pr => pr.2)).Nodup :=
      (List.nodup_map_iff_inj_on hcsnd).mpr hcsvinj
    -- category facts for the keys of the current backup
    have htcfresh : ∀ pr ∈ tc, pr.1 ∉ dictKeys cs := by
      intro pr hpr
      rw [htc] at hpr
      have h2 := (List.mem_filter.mp hpr).2
      rw [Option.isNone_iff_eq_none] at h2
      exact (dictLookup_eq_none_iff cs pr.1).mp h2
    have hpmn : (pm.map Prod.fst).Nodup := by
      rw [hpm, extract_path_mapping]
      exact extractMapGo_keys_nodup _ []
    have htcn : (tc.map Prod.fst).Nodup := by
      rw [htc]
      exact List.Nodup.sublist (List.Sublist.map Prod.fst (List.filter_sublist pm)) hpmn
    have htcinj : ∀ pr ∈ tc, ∀ pr2 ∈ tc, pr.1 = pr2.1 → pr = pr2 :=
      fun pr h1 pr2 h2 he => List.inj_on_of_nodup_map htcn h1 h2 he
    have htcK : ∀ pr ∈ tc, pr.1 ∈ K := by
      intro pr hpr
      rw [htc] at hpr
      rw [hK]
      exact List.mem_map_of_mem (fun x => x.1) (List.mem_of_mem_filter hpr)
    have hKpm : ∀ p ∈ K, ∃ pr ∈ pm, pr.1 = p := by
      intro p hp
      rw [hK] at hp
      obtain ⟨pr, hpr, he⟩ := List.mem_map.mp hp
      exact ⟨pr, hpr, he⟩
    have hmisNotCs : ∀ c ∈ db.charters, c.current_status = Status.missing →
        c.file_path ∉ dictKeys cs := by
      intro c hc hcmiss hk
      obtain ⟨pr3, hpr3, he3⟩ := List.mem_map.mp hk
      obtain ⟨c2, hc2, hp2, hi2, hs2⟩ := hcs2st pr3 hpr3
      have hcc : c2 = c := hpathinj c2 hc2 c hc (by rw [hp2, he3])
      rw [hcc] at hs2
      rw [hs2] at hcmiss
      exact Status.noConfusion hcmiss
    have hcatK : ∀ p ∈ K, (∃ pr ∈ cs, pr.1 = p) ∨ (∃ pr ∈ tc, pr.1 = p) := by
      intro p hp
      obtain ⟨pr0, hpr0, he0⟩ := hKpm p hp
      cases ho : dictLookup cs pr0.1 with
      | some v =>
        have hmem := dictLookup_some_mem cs pr0.1 v ho
        exact Or.inl ⟨(pr0.1, v), hmem, he0⟩
      | none =>
        refine Or.inr ⟨pr0, ?_, he0⟩
        rw [htc]
        refine List.mem_filter.mpr ⟨hpr0, ?_⟩
        rw [Option.isNone_iff_eq_none]
        exact ho
    -- the found-in-store entries of the reappearance loop
    set dflt : Charter := ⟨0, "", "", "", 0, 0, Status.present⟩ with hdflt
    set fd := tc.filter (fun pr => (get_charter_by_path db pr.1).isSome) with hfd
    have hFeqPairs : tc.filterMap (fun pr => (get_charter_by_path db pr.1).map
        (fun c => (pr.1, c.id))) = fd.map (fun pr =>
          (pr.1, ((get_charter_by_path db pr.1).getD dflt).id)) :=
      filterMap_eq_map_filter (fun pr => get_charter_by_path db pr.1)
        (fun pr c => (pr.1, c.id)) dflt tc
    have hFeqIds : tc.filterMap (fun pr => (get_charter_by_path db pr.1).map
        (fun c => c.id)) = fd.map (fun pr =>
          ((get_charter_by_path db pr.1).getD dflt).id) :=
      filterMap_eq_map_filter (fun pr => get_charter_by_path db pr.1)
        (fun pr c => c.id) dflt tc
    have hFeqEvs : tc.filterMap (fun pr => (get_charter_by_path db pr.1).map
        (fun c => (⟨c.id, bid, "appeared", bds⟩ : EventRec))) = fd.map (fun pr =>
          (⟨((get_charter_by_path db pr.1).getD dflt).id, bid, "appeared", bds⟩ : EventRec)) :=
      filterMap_eq_map_filter (fun pr => get_charter_by_path db pr.1)
        (fun pr c => (⟨c.id, bid, "appeared", bds⟩ : EventRec)) dflt tc
    rw [hFeqIds] at S1
    rw [hFeqPairs] at S4
    rw [hFeqEvs] at hemit2
    have hfdtc : ∀ pr ∈ fd, pr ∈ tc := by
      intro pr hpr
      rw [hfd] at hpr
      exact List.mem_of_mem_filter hpr
    have hfdget : ∀ pr ∈ fd, get_charter_by_path db pr.1 =
        some ((get_charter_by_path db pr.1).getD dflt) := by
      intro pr hpr
      rw [hfd] at hpr
      have h2 := (List.mem_filter.mp hpr).2
      cases hgo : get_charter_by_path db pr.1 with
      | none => rw [hgo] at h2; simp at h2
      | some c => rfl
    have hfdchar : ∀ pr ∈ fd, ((get_charter_by_path db pr.1).getD dflt) ∈ db.charters ∧
        ((get_charter_by_path db pr.1).getD dflt).file_path = pr.1 ∧
        ((get_charter_by_path db pr.1).getD dflt).current_status = Status.missing := by
      intro pr hpr
      obtain ⟨hmem, hpath⟩ := get_charter_by_path_some db pr.1 _ (hfdget pr hpr)
      refine ⟨hmem, hpath, ?_⟩
      cases hs : ((get_charter_by_path db pr.1).getD dflt).current_status with
      | present =>
        have hpair := hst2cs _ hmem hs
        have hk := key_mem_dictKeys cs _ hpair
        rw [hpath] at hk
        exact absurd hk (htcfresh pr (hfdtc pr hpr))
      | missing => rfl
    have hfdkeys : (fd.map (fun pr => pr.1)).Nodup := by
      rw [hfd]
      exact List.Nodup.sublist (List.Sublist.map _ (List.filter_sublist tc)) htcn
    have hfdnd : fd.Nodup := List.Nodup.of_map _ hfdkeys
    have hfdinj : ∀ pr ∈ fd, ∀ qr ∈ fd, pr.1 = qr.1 → pr = qr :=
      fun pr h1 qr h2 he => htcinj pr (hfdtc pr h1) qr (hfdtc qr h2) he
    have hfdIdsNodup : (fd.map (fun pr =>
        ((get_charter_by_path db pr.1).getD dflt).id)).Nodup := by
      refine (List.nodup_map_iff_inj_on hfdnd).mpr ?_
      intro pr h1 qr h2 he
      obtain ⟨hm1, hp1, _⟩ := hfdchar pr h1
      obtain ⟨hm2, hp2, _⟩ := hfdchar qr h2
      have hc : (get_charter_by_path db pr.1).getD dflt =
          (get_charter_by_path db qr.1).getD dflt := hidinj _ hm1 _ hm2 he
      exact hfdinj pr h1 qr h2 (by rw [← hp1, ← hp2, hc])
    have hfdlt : ∀ pr ∈ fd, ((get_charter_by_path db pr.1).getD dflt).id < db.nextCharterId :=
      fun pr h1 => hidlt _ (hfdchar pr h1).1
    -- the freshly assigned identifiers
    have hNewEq : rows.enum.map (fun q => db.nextCharterId + q.1) =
        (List.range rows.length).map (fun i => db.nextCharterId + i) := by
      have h1 := congrArg (List.map (fun i => db.nextCharterId + i)) (List.enum_map_fst rows)
      have h2 : (rows.enum.map Prod.fst).map (fun i => db.nextCharterId + i) =
          rows.enum.map (fun q => db.nextCharterId + q.1) := List.map_map _ _ _
      rw [← h2, h1]
    have hNewNodup : (rows.enum.map (fun q => db.nextCharterId + q.1)).Nodup := by
      rw [hNewEq]
      exact List.Nodup.map (fun a b h => by omega) (List.nodup_range rows.length)
    have hNewGe : ∀ i ∈ rows.enum.map (fun q => db.nextCharterId + q.1),
        db.nextCharterId ≤ i ∧ i < db.nextCharterId + rows.length := by
      rw [hNewEq]
      intro i hi
      obtain ⟨j, hj, he⟩ := List.mem_map.mp hi
      rw [List.mem_range] at hj
      omega
    -- the stale entries marked missing
    have hmIdsNodup : ((cs.filter (fun pr => decide (pr.1 ∉ K))).map
        (fun pr => pr.2)).Nodup :=
      List.Nodup.sublist (List.Sublist.map _ (List.filter_sublist cs)) hcsv
    have hmIdsMem : ∀ i, i ∈ (cs.filter (fun pr => decide (pr.1 ∉ K))).map
        (fun pr => pr.2) ↔ ∃ pr ∈ cs, pr.2 = i ∧ pr.1 ∉ K := by
      intro i
      constructor
      · intro hi
        obtain ⟨pr, hpr, he⟩ := List.mem_map.mp hi
        exact ⟨pr, List.mem_of_mem_filter hpr, he,
          of_decide_eq_true (List.mem_filter.mp hpr).2⟩
      · rintro ⟨pr, hpr, he, hk⟩
        exact he ▸ List.mem_map_of_mem _ (List.mem_filter.mpr ⟨hpr, decide_eq_true hk⟩)
    have hmIdslt : ∀ i ∈ (cs.filter (fun pr => decide (pr.1 ∉ K))).map (fun pr => pr.2),
        i < db.nextCharterId := by
      intro i hi
      obtain ⟨pr, hpr, he, hk⟩ := (hmIdsMem i).mp hi
      obtain ⟨c2, hc2, hp2, hi2, hs2⟩ := hcs2st pr hpr
      rw [← he, ← hi2]
      exact hidlt c2 hc2
    -- the last-seen update list
    have he0mem : ∀ i, i ∈ pm.filterMap (fun pr => dictLookup cs pr.1) →
        ∃ pr ∈ cs, pr.2 = i ∧ pr.1 ∈ K := by
      intro i hi
      obtain ⟨pr0, hpr0, hl⟩ := List.mem_filterMap.mp hi
      have hmem := dictLookup_some_mem cs pr0.1 i hl
      refine ⟨(pr0.1, i), hmem, rfl, ?_⟩
      rw [hK]
      exact List.mem_map_of_mem (fun x => x.1) hpr0
    have he0of : ∀ pr ∈ cs, pr.1 ∈ K → pr.2 ∈ pm.filterMap (fun pr => dictLookup cs pr.1) := by
      intro pr hpr hk
      obtain ⟨pr0, hpr0, he0⟩ := hKpm pr.1 hk
      refine List.mem_filterMap.mpr ⟨pr0, hpr0, ?_⟩
      rw [he0]
      exact dictLookup_of_mem_nodup cs pr.1 pr.2 hcsk hpr
    -- abbreviations for the update and missing id lists and the new rows
    set U := pm.filterMap (fun pr => dictLookup cs pr.1) ++ fd.map (fun pr =>
      ((get_charter_by_path db pr.1).getD dflt).id) with hU
    set M := (cs.filter (fun pr => decide (pr.1 ∉ K))).map (fun pr => pr.2) with hM
    set NEWC := rows.enum.map (fun q =>
      (⟨db.nextCharterId + q.1, q.2.1, q.2.2.1, q.2.2.2.1, q.2.2.2.2, q.2.2.2.2,
        Status.present⟩ : Charter)) with hNEWC
    have hch : dbr.charters = (db.charters ++ NEWC).map (fun c0 =>
        (⟨c0.id, c0.file_path, c0.file_path_raw, c0.parent_path, c0.first_seen_backup_id,
          (if c0.id ∈ U then bid else c0.last_seen_backup_id),
          (if c0.id ∈ M then Status.missing else if c0.id ∈ U then Status.present
            else c0.current_status)⟩ : Charter)) := by
      rw [S1, List.map_map]
      exact List.map_congr_left (fun c0 _ => upd_then_miss U M bid c0)
    -- facts about the new rows and the unknown paths
    have hnfK : ∀ pr ∈ nf, pr.1 ∈ K := by
      intro pr hpr
      rw [hnf] at hpr
      exact htcK pr (List.mem_of_mem_filter hpr)
    have hnftc : ∀ pr ∈ nf, pr ∈ tc := by
      intro pr hpr
      rw [hnf] at hpr
      exact List.mem_of_mem_filter hpr
    have hnfnone : ∀ pr ∈ nf, get_charter_by_path db pr.1 = none := by
      intro pr hpr
      rw [hnf] at hpr
      have h2 := (List.mem_filter.mp hpr).2
      rwa [Option.isNone_iff_eq_none] at h2
    have hnfnotold : ∀ pr ∈ nf, ∀ c ∈ db.charters, ¬ c.file_path = pr.1 :=
      fun pr hpr => (get_charter_by_path_none db pr.1).mp (hnfnone pr hpr)
    have hrowsnf : ∀ r ∈ rows, ∃ pr ∈ nf, r = (pr.1, pr.2, extract_parent_path pr.1 base, bid) := by
      intro r hr
      rw [hrows] at hr
      obtain ⟨pr, hpr, he⟩ := List.mem_map.mp hr
      exact ⟨pr, hpr, he.symm⟩
    have hNEWCmem : ∀ cn ∈ NEWC, db.nextCharterId ≤ cn.id ∧
        cn.current_status = Status.present ∧ cn.first_seen_backup_id = bid ∧
        cn.last_seen_backup_id = bid ∧ ∃ pr ∈ nf, cn.file_path = pr.1 := by
      intro cn hcn
      rw [hNEWC] at hcn
      obtain ⟨q, hq, he⟩ := List.mem_map.mp hcn
      have h2 : q.2 ∈ rows := by
        have h3 := List.mem_map_of_mem Prod.snd hq
        rwa [List.enum_map_snd] at h3
      obtain ⟨pr, hpr, hqe⟩ := hrowsnf q.2 h2
      rw [← he]
      refine ⟨Nat.le_add_right _ _, rfl, ?_, ?_, pr, hpr, ?_⟩ <;>
        simp only [hqe]
    -- membership in the update list characterises the present keys
    have hUlt : ∀ i ∈ U, i < db.nextCharterId := by
      intro i hi
      rw [hU] at hi
      rcases List.mem_append.mp hi with h | h
      · obtain ⟨pr, hpr, he, _⟩ := he0mem i h
        obtain ⟨c2, hc2, hp2, hi2, hs2⟩ := hcs2st pr hpr
        rw [← he, ← hi2]
        exact hidlt c2 hc2
      · obtain ⟨pr, hpr, he⟩ := List.mem_map.mp h
        rw [← he]
        exact hfdlt pr hpr
    have hOldU : ∀ c0 ∈ db.charters, (c0.id ∈ U ↔ c0.file_path ∈ K) := by
      intro c0 hc0
      constructor
      · intro hi
        rw [hU] at hi
        rcases List.mem_append.mp hi with h | h
        · obtain ⟨pr, hpr, he, hk⟩ := he0mem c0.id h
          obtain ⟨c2, hc2, hp2, hi2, hs2⟩ := hcs2st pr hpr
          have hcc : c2 = c0 := hidinj c2 hc2 c0 hc0 (by rw [hi2, he])
          rw [← hcc, hp2]
          exact hk
        · obtain ⟨pr, hpr, he⟩ := List.mem_map.mp h
          obtain ⟨hm1, hp1, _⟩ := hfdchar pr hpr
          have hcc : (get_charter_by_path db pr.1).getD dflt = c0 :=
            hidinj _ hm1 c0 hc0 he
          rw [← hcc, hp1]
          exact htcK pr (hfdtc pr hpr)
      · intro hk
        rw [hU]
        cases hs0 : c0.current_status with
        | present =>
          apply List.mem_append_left
          have hpair := hst2cs c0 hc0 hs0
          exact he0of (c0.file_path, c0.id) hpair hk
        | missing =>
          apply List.mem_append_right
          have hnk : c0.file_path ∉ dictKeys cs := hmisNotCs c0 hc0 hs0
          obtain ⟨pr0, hpr0, he0⟩ := hKpm c0.file_path hk
          have hpr0tc : pr0 ∈ tc := by
            rw [htc]
            refine List.mem_filter.mpr ⟨hpr0, ?_⟩
            rw [Option.isNone_iff_eq_none, dictLookup_eq_none_iff, he0]
            exact hnk
          have hget : get_charter_by_path db pr0.1 = some c0 := by
            rw [he0]
            exact get_charter_by_path_of_mem db c0 hpathn hc0
          have hfd0 : pr0 ∈ fd := by
            rw [hfd]
            refine List.mem_filter.mpr ⟨hpr0tc, ?_⟩
            rw [hget]
            rfl
          have hmm := List.mem_map_of_mem (fun pr =>
            ((get_charter_by_path db pr.1).getD dflt).id) hfd0
          simpa only [hget, Option.getD_some] using hmm
    have hOldM : ∀ c0 ∈ db.charters, (c0.id ∈ M ↔
        (c0.current_status = Status.present ∧ c0.file_path ∉ K)) := by
      intro c0 hc0
      constructor
      · intro hi
        obtain ⟨pr, hpr, he, hk⟩ := (hmIdsMem c0.id).mp hi
        obtain ⟨c2, hc2, hp2, hi2, hs2⟩ := hcs2st pr hpr
        have hcc : c2 = c0 := hidinj c2 hc2 c0 hc0 (by rw [hi2, he])
        rw [← hcc, hp2]
        exact ⟨hs2, hk⟩
      · rintro ⟨hs0, hk⟩
        have hpair := hst2cs c0 hc0 hs0
        exact (hmIdsMem c0.id).mpr ⟨(c0.file_path, c0.id), hpair, rfl, hk⟩
    have hNewNotU : ∀ cn ∈ NEWC, cn.id ∉ U := by
      intro cn hcn hi
      have h1 := (hNEWCmem cn hcn).1
      have h2 := hUlt cn.id hi
      omega
    have hNewNotM : ∀ cn ∈ NEWC, cn.id ∉ M := by
      intro cn hcn hi
      have h1 := (hNEWCmem cn hcn).1
      have h2 := hmIdslt cn.id hi
      omega
    -- keys of the new state components
    have hnfkeys : (nf.map (fun pr => pr.1)).Nodup := by
      have hsub : List.Sublist nf tc := by rw [hnf]; exact List.filter_sublist tc
      exact List.Nodup.sublist (List.Sublist.map (fun pr => pr.1) hsub) htcn
    have hkF : dictKeys (fd.map (fun pr =>
        (pr.1, ((get_charter_by_path db pr.1).getD dflt).id))) = fd.map (fun pr => pr.1) := by
      show (fd.map (fun pr => (pr.1, ((get_charter_by_path db pr.1).getD dflt).id))).map
        (fun x => x.1) = fd.map (fun pr => pr.1)
      rw [List.map_map]
      rfl
    have hkNP : dictKeys (rows.enum.map (fun q => (q.2.1, db.nextCharterId + q.1))) =
        nf.map (fun pr => pr.1) := by
      show (rows.enum.map (fun q => (q.2.1, db.nextCharterId + q.1))).map (fun x => x.1) =
        nf.map (fun pr => pr.1)
      rw [List.map_map]
      have h2 := enum_map_snd_comp (fun (r : String × String × String × Nat) => r.1) rows
      have h3 : rows.map (fun r => r.1) = nf.map (fun pr => pr.1) := by
        rw [hrows, List.map_map]
        rfl
      exact h2.trans h3
    have hnewpaths : NEWC.map Charter.file_path = nf.map (fun pr => pr.1) := by
      rw [hNEWC, List.map_map]
      have h2 := enum_map_snd_comp (fun (r : String × String × String × Nat) => r.1) rows
      have h3 : rows.map (fun r => r.1) = nf.map (fun pr => pr.1) := by
        rw [hrows, List.map_map]
        rfl
      exact h2.trans h3
    have hnewids : NEWC.map Charter.id = rows.enum.map (fun q => db.nextCharterId + q.1) := by
      rw [hNEWC, List.map_map]
      rfl
    have hemit3 : emitted =
        ((fd.map (fun pr => ((get_charter_by_path db pr.1).getD dflt).id)).map
          (fun j => (⟨j, bid, "appeared", bds⟩ : EventRec)) ++
         (rows.enum.map (fun q => db.nextCharterId + q.1)).map
          (fun j => (⟨j, bid, "appeared", bds⟩ : EventRec))) ++
        M.map (fun j => (⟨j, bid, "disappeared", bds⟩ : EventRec)) := by
      rw [hemit2]
      have e1 : fd.map (fun pr =>
          (⟨((get_charter_by_path db pr.1).getD dflt).id, bid, "appeared", bds⟩ : EventRec)) =
          (fd.map (fun pr => ((get_charter_by_path db pr.1).getD dflt).id)).map
            (fun j => (⟨j, bid, "appeared", bds⟩ : EventRec)) :=
        (List.map_map (fun j => (⟨j, bid, "appeared", bds⟩ : EventRec))
          (fun (pr : String × String) => ((get_charter_by_path db pr.1).getD dflt).id) fd).symm
      have e2 : rows.enum.map (fun q =>
          (⟨db.nextCharterId + q.1, bid, "appeared", bds⟩ : EventRec)) =
          (rows.enum.map (fun q => db.nextCharterId + q.1)).map
            (fun j => (⟨j, bid, "appeared", bds⟩ : EventRec)) :=
        (List.map_map (fun j => (⟨j, bid, "appeared", bds⟩ : EventRec))
          (fun (q : Nat × (String × String × String × Nat)) => db.nextCharterId + q.1)
          rows.enum).symm
      rw [e1, e2]
    have hfdIdsNotPresent : ∀ pr2 ∈ cs, pr2.2 ∉ fd.map (fun pr =>
        ((get_charter_by_path db pr.1).getD dflt).id) := by
      intro pr2 h2 hin
      obtain ⟨qr, hqr, he⟩ := List.mem_map.mp hin
      obtain ⟨hm1, hp1, hs1⟩ := hfdchar qr hqr
      obtain ⟨c2, hc2, hp2, hi2, hs2⟩ := hcs2st pr2 h2
      have hcc : (get_charter_by_path db qr.1).getD dflt = c2 :=
        hidinj _ hm1 c2 hc2 (by rw [he, hi2])
      rw [hcc, hs2] at hs1
      exact Status.noConfusion hs1
    have hcsNotNew : ∀ pr2 ∈ cs, pr2.2 ∉ rows.enum.map
        (fun q => db.nextCharterId + q.1) := by
      intro pr2 h2 hin
      obtain ⟨c2, hc2, hp2, hi2, hs2⟩ := hcs2st pr2 h2
      have h3 := (hNewGe pr2.2 hin).1
      have h4 := hidlt c2 hc2
      omega
    refine ⟨?_, ?_, ⟨?_, ?_, ?_, ?_, ?_, ?_⟩, ?_, ?_, ?_, ?_⟩
    · -- M1: status is missing exactly off the current backup
      rw [hch]
      intro c hc
      obtain ⟨c0, hc0m, he⟩ := List.mem_map.mp hc
      rw [← he]
      dsimp only
      rcases List.mem_append.mp hc0m with hold | hnew
      · by_cases hk0 : c0.file_path ∈ K
        · have hu := (hOldU c0 hold).mpr hk0
          have hm : c0.id ∉ M := fun hm2 => ((hOldM c0 hold).mp hm2).2 hk0
          rw [if_neg hm, if_pos hu]
          simp [hk0]
        · have hu : c0.id ∉ U := fun h2 => hk0 ((hOldU c0 hold).mp h2)
          cases hs0 : c0.current_status with
          | present =>
            have hm := (hOldM c0 hold).mpr ⟨hs0, hk0⟩
            rw [if_pos hm]
            simp [hk0]
          | missing =>
            have hm : c0.id ∉ M := by
              intro h2
              have h3 := ((hOldM c0 hold).mp h2).1
              rw [hs0] at h3
              exact Status.noConfusion h3
            rw [if_neg hm, if_neg hu]
            simp [hk0]
      · have h5 := hNEWCmem c0 hnew
        rw [if_neg (hNewNotM c0 hnew), if_neg (hNewNotU c0 hnew), h5.2.1]
        obtain ⟨pr, hpr, hpe⟩ := h5.2.2.2.2
        have hk0 : c0.file_path ∈ K := by rw [hpe]; exact hnfK pr hpr
        simp [hk0]
    · -- M2: the state keys are the current backup keys
      intro p
      rw [S4, dictKeys_append, dictKeys_append]
      constructor
      · intro hp
        rcases List.mem_append.mp hp with h | h
        · rcases List.mem_append.mp h with h1 | h1
          · obtain ⟨pr, hpr, he⟩ := List.mem_map.mp h1
            have h2 := List.mem_filter.mp hpr
            rw [← he]
            exact of_decide_eq_true h2.2
          · obtain ⟨x, hx, he⟩ := List.mem_map.mp h1
            obtain ⟨pr, hpr, he2⟩ := List.mem_map.mp hx
            rw [← he, ← he2]
            exact htcK pr (hfdtc pr hpr)
        · obtain ⟨x, hx, he⟩ := List.mem_map.mp h
          obtain ⟨q, hq, he2⟩ := List.mem_map.mp hx
          have h2 : q.2 ∈ rows := by
            have h3 := List.mem_map_of_mem Prod.snd hq
            rwa [List.enum_map_snd] at h3
          obtain ⟨pr, hpr, hqe⟩ := hrowsnf q.2 h2
          rw [← he, ← he2]
          show q.2.1 ∈ K
          rw [hqe]
          exact hnfK pr hpr
      · intro hp
        rcases hcatK p hp with ⟨pr, hpr, he⟩ | ⟨pr, hpr, he⟩
        · apply List.mem_append_left
          apply List.mem_append_left
          have hf : pr ∈ cs.filter (fun pr => decide (pr.1 ∈ K)) :=
            List.mem_filter.mpr ⟨hpr, decide_eq_true (he.symm ▸ hp)⟩
          exact he ▸ key_mem_dictKeys _ pr hf
        · by_cases hg : get_charter_by_path db pr.1 = none
          · apply List.mem_append_right
            have hprnf : pr ∈ nf := by
              rw [hnf]
              exact List.mem_filter.mpr ⟨hpr, by rw [Option.isNone_iff_eq_none]; exact hg⟩
            have h2 : (pr.1, pr.2, extract_parent_path pr.1 base, bid) ∈ rows := by
              rw [hrows]
              exact List.mem_map_of_mem _ hprnf
            have h3 : (pr.1, pr.2, extract_parent_path pr.1 base, bid) ∈
                rows.enum.map Prod.snd := by
              rw [List.enum_map_snd]
              exact h2
            obtain ⟨q, hq, hqe⟩ := List.mem_map.mp h3
            have hx := List.mem_map_of_mem (fun q => (q.2.1, db.nextCharterId + q.1)) hq
            have hk2 := key_mem_dictKeys _ _ hx
            have hq21 : q.2.1 = p := by
              show (q.2).1 = p
              rw [hqe]
              exact he
            show p ∈ dictKeys (rows.enum.map (fun q => (q.2.1, db.nextCharterId + q.1)))
            rw [← hq21]
            exact hk2
          · apply List.mem_append_left
            apply List.mem_append_right
            have hprfd : pr ∈ fd := by
              rw [hfd]
              refine List.mem_filter.mpr ⟨hpr, ?_⟩
              cases hgo : get_charter_by_path db pr.1 with
              | none => exact absurd hgo hg
              | some c => rfl
            have hx := List.mem_map_of_mem (fun pr => (pr.1,
              ((get_charter_by_path db pr.1).getD dflt).id)) hprfd
            have hk2 := key_mem_dictKeys _ _ hx
            show p ∈ dictKeys (fd.map (fun pr => (pr.1,
              ((get_charter_by_path db pr.1).getD dflt).id)))
            rw [← he]
            exact hk2
    · -- M3 paths nodup
      rw [hch, List.map_map, List.map_append]
      refine List.Nodup.append hpathn ?_ ?_
      · have h2 : (NEWC.map Charter.file_path).Nodup := by
          rw [hnewpaths]
          exact hnfkeys
        exact h2
      · intro a ha hb
        obtain ⟨c, hc, he⟩ := List.mem_map.mp ha
        have hb2 : a ∈ NEWC.map Charter.file_path := hb
        rw [hnewpaths] at hb2
        obtain ⟨pr, hpr, he2⟩ := List.mem_map.mp hb2
        exact hnfnotold pr hpr c hc (he.trans he2.symm)
    · -- M3 ids nodup
      rw [hch, List.map_map, List.map_append]
      refine List.Nodup.append hidn ?_ ?_
      · have h2 : (NEWC.map Charter.id).Nodup := by
          rw [hnewids]
          exact hNewNodup
        exact h2
      · intro a ha hb
        obtain ⟨c, hc, he⟩ := List.mem_map.mp ha
        have hb2 : a ∈ NEWC.map Charter.id := hb
        rw [hnewids] at hb2
        have h1 := (hNewGe a hb2).1
        have h2 : c.id < db.nextCharterId := hidlt c hc
        have h3 : c.id = a := he
        omega
    · -- M3 id bound
      intro c hc
      rw [hch] at hc
      obtain ⟨c0, hc0, he⟩ := List.mem_map.mp hc
      rw [← he, S3]
      show c0.id < db.nextCharterId + rows.length
      rcases List.mem_append.mp hc0 with hold | hnew
      · have := hidlt c0 hold
        omega
      · have h2 : c0.id ∈ NEWC.map Charter.id := List.mem_map_of_mem Charter.id hnew
        rw [hnewids] at h2
        exact (hNewGe c0.id h2).2
    · -- M3 state keys nodup
      rw [S4, dictKeys_append, dictKeys_append]
      refine List.Nodup.append (List.Nodup.append ?_ ?_ ?_) ?_ ?_
      · show ((cs.filter (fun pr => decide (pr.1 ∈ K))).map (fun x => x.1)).Nodup
        exact List.Nodup.sublist
          (List.Sublist.map (fun x => x.1) (List.filter_sublist cs)) hcsk
      · rw [hkF]
        exact hfdkeys
      · intro a ha hb
        rw [hkF] at hb
        obtain ⟨qr, hqr, he2⟩ := List.mem_map.mp hb
        obtain ⟨pr, hpr, he⟩ := List.mem_map.mp ha
        have hcsmem : a ∈ dictKeys cs := by
          rw [← he]
          exact key_mem_dictKeys cs pr (List.mem_of_mem_filter hpr)
        rw [← he2] at hcsmem
        exact htcfresh qr (hfdtc qr hqr) hcsmem
      · rw [hkNP]
        exact hnfkeys
      · intro a ha hb
        rw [hkNP] at hb
        obtain ⟨pr, hpr, he2⟩ := List.mem_map.mp hb
        rcases List.mem_append.mp ha with h1 | h1
        · obtain ⟨qr, hqr, he⟩ := List.mem_map.mp h1
          have hcsmem : a ∈ dictKeys cs := by
            rw [← he]
            exact key_mem_dictKeys cs qr (List.mem_of_mem_filter hqr)
          rw [← he2] at hcsmem
          exact htcfresh pr (hnftc pr hpr) hcsmem
        · rw [hkF] at h1
          obtain ⟨qr, hqr, he⟩ := List.mem_map.mp h1
          have heq : qr = pr := htcinj qr (hfdtc qr hqr) pr (hnftc pr hpr)
            (by rw [he, ← he2])
          have h2 := hfdget qr hqr
          rw [heq, hnfnone pr hpr] at h2
          exact Option.noConfusion h2
    · -- M3 state entries are present charters
      rw [S4]
      intro pr hpr
      rcases List.mem_append.mp hpr with h | h
      · rcases List.mem_append.mp h with h1 | h1
        · have hprcs := List.mem_of_mem_filter h1
          have hk0 : pr.1 ∈ K := of_decide_eq_true (List.mem_filter.mp h1).2
          obtain ⟨c2, hc2, hp2, hi2, hs2⟩ := hcs2st pr hprcs
          have hm : c2.id ∉ M := fun h2 => ((hOldM c2 hc2).mp h2).2 (by rw [hp2]; exact hk0)
          have hu : c2.id ∈ U := (hOldU c2 hc2).mpr (by rw [hp2]; exact hk0)
          rw [hch]
          refine ⟨_, List.mem_map_of_mem _ (List.mem_append_left NEWC hc2), ?_, ?_, ?_⟩
          · dsimp only
            exact hp2
          · dsimp only
            exact hi2
          · dsimp only
            rw [if_neg hm, if_pos hu]
        · obtain ⟨qr, hqr, he⟩ := List.mem_map.mp h1
          obtain ⟨hm1, hp1, hs1⟩ := hfdchar qr hqr
          have hm : ((get_charter_by_path db qr.1).getD dflt).id ∉ M := by
            intro h2
            have h3 := ((hOldM _ hm1).mp h2).1
            rw [hs1] at h3
            exact Status.noConfusion h3
          have hu : ((get_charter_by_path db qr.1).getD dflt).id ∈ U :=
            (hOldU _ hm1).mpr (by rw [hp1]; exact htcK qr (hfdtc qr hqr))
          rw [hch]
          refine ⟨_, List.mem_map_of_mem _ (List.mem_append_left NEWC hm1), ?_, ?_, ?_⟩
          · dsimp only
            rw [← he, hp1]
          · dsimp only
            rw [← he]
          · dsimp only
            rw [if_neg hm, if_pos hu]
      · obtain ⟨q, hq, he⟩ := List.mem_map.mp h
        have hmem : (⟨db.nextCharterId + q.1, q.2.1, q.2.2.1, q.2.2.2.1, q.2.2.2.2, q.2.2.2.2,
            Status.present⟩ : Charter) ∈ NEWC := by
          rw [hNEWC]
          exact List.mem_map_of_mem _ hq
        have hmnot := hNewNotM _ hmem
        have hunot := hNewNotU _ hmem
        rw [hch]
        refine ⟨_, List.mem_map_of_mem _ (List.mem_append_right db.charters hmem), ?_, ?_, ?_⟩
        · dsimp only
          rw [← he]
        · dsimp only
          rw [← he]
        · dsimp only
          rw [if_neg hmnot, if_neg hunot]
    · -- M3 present charters have state entries
      rw [hch, S4]
      intro c hc hcp
      obtain ⟨c0, hc0m, he⟩ := List.mem_map.mp hc
      rw [← he] at hcp ⊢
      dsimp only at hcp ⊢
      rcases List.mem_append.mp hc0m with hold | hnew
      · by_cases hk0 : c0.file_path ∈ K
        · cases hs0 : c0.current_status with
          | present =>
            apply List.mem_append_left
            apply List.mem_append_left
            have hpair := hst2cs c0 hold hs0
            exact List.mem_filter.mpr ⟨hpair, decide_eq_true hk0⟩
          | missing =>
            apply List.mem_append_left
            apply List.mem_append_right
            have hnk : c0.file_path ∉ dictKeys cs := hmisNotCs c0 hold hs0
            obtain ⟨pr0, hpr0, he0⟩ := hKpm c0.file_path hk0
            have hpr0tc : pr0 ∈ tc := by
              rw [htc]
              refine List.mem_filter.mpr ⟨hpr0, ?_⟩
              rw [Option.isNone_iff_eq_none, dictLookup_eq_none_iff, he0]
              exact hnk
            have hget : get_charter_by_path db pr0.1 = some c0 := by
              rw [he0]
              exact get_charter_by_path_of_mem db c0 hpathn hold
            have hfd0 : pr0 ∈ fd := by
              rw [hfd]
              refine List.mem_filter.mpr ⟨hpr0tc, ?_⟩
              rw [hget]
              rfl
            have hmm := List.mem_map_of_mem (fun pr => (pr.1,
              ((get_charter_by_path db pr.1).getD dflt).id)) hfd0
            dsimp only at hmm
            rw [hget, Option.getD_some] at hmm
            rw [← he0]
            exact hmm
        · exfalso
          have hu : c0.id ∉ U := fun h2 => hk0 ((hOldU c0 hold).mp h2)
          cases hs0 : c0.current_status with
          | present =>
            have hm := (hOldM c0 hold).mpr ⟨hs0, hk0⟩
            rw [if_pos hm] at hcp
            exact Status.noConfusion hcp
          | missing =>
            have hm : c0.id ∉ M := by
              intro h2
              have h3 := ((hOldM c0 hold).mp h2).1
              rw [hs0] at h3
              exact Status.noConfusion h3
            rw [if_neg hm, if_neg hu, hs0] at hcp
            exact Status.noConfusion hcp
      · apply List.mem_append_right
        rw [hNEWC] at hnew
        obtain ⟨q, hq, he2⟩ := List.mem_map.mp hnew
        rw [← he2]
        exact List.mem_map_of_mem (fun q => (q.2.1, db.nextCharterId + q.1)) hq
    · -- M4: in-state keys receive only a last-seen update and no event
      intro pr hpr hk
      have hMnot : pr.2 ∉ M := by
        intro hin
        obtain ⟨qr, hqr, he, hknot⟩ := (hmIdsMem pr.2).mp hin
        have heq : qr = pr := hcsvinj qr hqr pr hpr he
        rw [heq] at hknot
        exact hknot hk
      refine ⟨?_, ?_⟩
      · rw [hemit3, List.countP_append, List.countP_append, countP_evs_id,
          countP_evs_id, countP_evs_id,
          List.count_eq_zero.mpr (hfdIdsNotPresent pr hpr),
          List.count_eq_zero.mpr (hcsNotNew pr hpr),
          List.count_eq_zero.mpr hMnot]
      · obtain ⟨c2, hc2, hp2, hi2, hs2⟩ := hcs2st pr hpr
        have hu : c2.id ∈ U := (hOldU c2 hc2).mpr (by rw [hp2]; exact hk)
        have hm : c2.id ∉ M := fun h2 => ((hOldM c2 hc2).mp h2).2 (by rw [hp2]; exact hk)
        rw [hch]
        refine ⟨_, List.mem_map_of_mem _ (List.mem_append_left NEWC hc2), ?_, ?_, ?_, ?_⟩
        · dsimp only
          exact hp2
        · dsimp only
          exact hi2
        · dsimp only
          rw [if_neg hm, if_pos hu]
        · dsimp only
          rw [if_pos hu]
          exact S5.symm
    · -- M5: stale keys receive exactly one disappeared event
      intro pr hpr hk
      have hmmem : pr.2 ∈ M := (hmIdsMem pr.2).mpr ⟨pr, hpr, rfl, hk⟩
      refine ⟨?_, ?_⟩
      · rw [hemit3, List.countP_append, List.countP_append,
          countP_evs_type_ne bid bds "appeared" "disappeared" (by decide) _ pr.2,
          countP_evs_type_ne bid bds "appeared" "disappeared" (by decide) _ pr.2,
          countP_evs_type_eq,
          List.count_eq_one_of_mem hmIdsNodup hmmem]
      · rw [hemit3, List.countP_append, List.countP_append, countP_evs_id,
          countP_evs_id, countP_evs_id,
          List.count_eq_zero.mpr (hfdIdsNotPresent pr hpr),
          List.count_eq_zero.mpr (hcsNotNew pr hpr),
          List.count_eq_one_of_mem hmIdsNodup hmmem]
    · -- M6: a reappearing charter receives exactly one appeared event
      intro p hp c hg hcmiss
      have hcm : c ∈ db.charters := (get_charter_by_path_some db p c hg).1
      have hcp : c.file_path = p := (get_charter_by_path_some db p c hg).2
      have hnk : p ∉ dictKeys cs := by
        rw [← hcp]
        exact hmisNotCs c hcm hcmiss
      obtain ⟨pr0, hpr0, he0⟩ := hKpm p hp
      have hpr0tc : pr0 ∈ tc := by
        rw [htc]
        refine List.mem_filter.mpr ⟨hpr0, ?_⟩
        rw [Option.isNone_iff_eq_none, dictLookup_eq_none_iff, he0]
        exact hnk
      have hget0 : get_charter_by_path db pr0.1 = some c := by
        rw [he0]
        exact hg
      have hfd0 : pr0 ∈ fd := by
        rw [hfd]
        refine List.mem_filter.mpr ⟨hpr0tc, ?_⟩
        rw [hget0]
        rfl
      have hidmem : c.id ∈ fd.map (fun pr =>
          ((get_charter_by_path db pr.1).getD dflt).id) := by
        have hmm := List.mem_map_of_mem (fun pr =>
          ((get_charter_by_path db pr.1).getD dflt).id) hfd0
        dsimp only at hmm
        rwa [hget0, Option.getD_some] at hmm
      have hnotnew : c.id ∉ rows.enum.map (fun q => db.nextCharterId + q.1) := by
        intro hin
        have h3 := (hNewGe c.id hin).1
        have h4 := hidlt c hcm
        omega
      have hnotM : c.id ∉ M := by
        intro hin
        obtain ⟨qr, hqr, he, hknot⟩ := (hmIdsMem c.id).mp hin
        obtain ⟨c2, hc2, hp2, hi2, hs2⟩ := hcs2st qr hqr
        have hcc : c2 = c := hidinj c2 hc2 c hcm (by rw [hi2, he])
        rw [hcc, hcmiss] at hs2
        exact Status.noConfusion hs2
      refine ⟨?_, ?_⟩
      · rw [hemit3, List.countP_append, List.countP_append,
          countP_evs_type_eq, countP_evs_type_eq,
          countP_evs_type_ne bid bds "disappeared" "appeared" (by decide) _ c.id,
          List.count_eq_one_of_mem hfdIdsNodup hidmem,
          List.count_eq_zero.mpr hnotnew]
      · rw [hemit3, List.countP_append, List.countP_append, countP_evs_id,
          countP_evs_id, countP_evs_id,
          List.count_eq_one_of_mem hfdIdsNodup hidmem,
          List.count_eq_zero.mpr hnotnew,
          List.count_eq_zero.mpr hnotM]
    · -- M7: a brand-new charter receives exactly one appeared event
      intro p hp hg
      have hpr0nf : ∃ pr0 ∈ nf, pr0.1 = p := by
        rcases hcatK p hp with ⟨pr, hpr, he⟩ | ⟨pr0, hpr0, he0⟩
        · exfalso
          obtain ⟨c2, hc2, hp2, hi2, hs2⟩ := hcs2st pr hpr
          have hsome : get_charter_by_path db p = some c2 := by
            rw [← he, ← hp2]
            exact get_charter_by_path_of_mem db c2 hpathn hc2
          rw [hg] at hsome
          exact Option.noConfusion hsome
        · refine ⟨pr0, ?_, he0⟩
          rw [hnf]
          refine List.mem_filter.mpr ⟨hpr0, ?_⟩
          rw [Option.isNone_iff_eq_none, he0]
          exact hg
      obtain ⟨pr0, hpr0nf2, he0⟩ := hpr0nf
      have h2 : (pr0.1, pr0.2, extract_parent_path pr0.1 base, bid) ∈ rows := by
        rw [hrows]
        exact List.mem_map_of_mem _ hpr0nf2
      have h3 : (pr0.1, pr0.2, extract_parent_path pr0.1 base, bid) ∈
          rows.enum.map Prod.snd := by
        rw [List.enum_map_snd]
        exact h2
      obtain ⟨q, hq, hqe⟩ := List.mem_map.mp h3
      have hmemN : (⟨db.nextCharterId + q.1, q.2.1, q.2.2.1, q.2.2.2.1, q.2.2.2.2, q.2.2.2.2,
          Status.present⟩ : Charter) ∈ NEWC := by
        rw [hNEWC]
        exact List.mem_map_of_mem _ hq
      have hmnot := hNewNotM _ hmemN
      have hunot := hNewNotU _ hmemN
      have hidnew : db.nextCharterId + q.1 ∈ rows.enum.map
          (fun q => db.nextCharterId + q.1) := List.mem_map_of_mem _ hq
      have hnotfd : db.nextCharterId + q.1 ∉ fd.map (fun pr =>
          ((get_charter_by_path db pr.1).getD dflt).id) := by
        intro hin
        obtain ⟨qr, hqr, he2⟩ := List.mem_map.mp hin
        have h4 := hfdlt qr hqr
        omega
      have hnotM2 : db.nextCharterId + q.1 ∉ M := by
        intro hin
        have h4 := hmIdslt _ hin
        omega
      rw [hch]
      refine ⟨_, List.mem_map_of_mem _ (List.mem_append_right db.charters hmemN),
        ?_, ?_, ?_, ?_, ?_⟩
      · dsimp only
        show q.2.1 = p
        rw [hqe]
        exact he0
      · dsimp only
        show q.2.2.2.2 = stats.backup_id
        rw [hqe, S5]
      · dsimp only
        rw [if_neg hmnot, if_neg hunot]
      · dsimp only
        rw [hemit3, List.countP_append, List.countP_append,
          countP_evs_type_eq, countP_evs_type_eq,
          countP_evs_type_ne bid bds "disappeared" "appeared" (by decide) _ _,
          List.count_eq_zero.mpr hnotfd,
          List.count_eq_one_of_mem hNewNodup hidnew]
      · dsimp only
        rw [hemit3, List.countP_append, List.countP_append, countP_evs_id,
          countP_evs_id, countP_evs_id,
          List.count_eq_zero.mpr hnotfd,
          List.count_eq_one_of_mem hNewNodup hidnew,
          List.count_eq_zero.mpr hnotM2]

/-- Claim C1: after each successful application of a backup by process_backup,
starting from a well-formed tracker state, every stored charter's status is
missing exactly when its normalized path is absent from that backup's
reconciled mapping; the keys of the in-memory current state are exactly the
mapping's normalized paths; and the full tracker invariant (in particular the
exact agreement of currentState with the Store's present charters, no drift)
holds again for the new Store and state. -/
theorem process_backup_state_invariant (db : Store) (cs : CState) (base : String)
    (archive : BackupArchive) (fname : String)
    (dbr : Store) (csr : CState) (stats : RunStats)
    (hInv : TrackerInv db cs)
    (hok : process_backup db cs base archive fname FailAt.noFail =
      .ok (dbr, csr, stats)) :
    (∀ c ∈ dbr.charters, (c.current_status = Status.missing ↔
      c.file_path ∉ (extract_path_mapping (unionList archive.contents_xml_paths
        archive.zip_entry_paths)).map (fun x => x.1))) ∧
    (∀ p, p ∈ dictKeys csr ↔ p ∈ (extract_path_mapping (unionList
      archive.contents_xml_paths archive.zip_entry_paths)).map (fun x => x.1)) ∧
    TrackerInv dbr csr := by
  obtain ⟨m1, m2, m3, _⟩ := process_backup_master db cs base archive fname dbr csr stats
    _ _ hInv rfl rfl hok
  exact ⟨m1, m2, m3⟩

theorem process_backup_state_invariant_witness :
    TrackerInv sampleStore sampleState ∧
    process_backup sampleStore sampleState "db" sampleArchive
      "full20240101-0000.zip" FailAt.noFail =
      .ok (sampleStoreAfter, sampleStateAfter, ⟨1, 3, 1, 1, 1, 0⟩) ∧
    TrackerInv sampleStoreAfter sampleStateAfter :=
  ⟨by decide, by decide,
   (process_backup_state_invariant sampleStore sampleState "db" sampleArchive
     "full20240101-0000.zip" sampleStoreAfter sampleStateAfter ⟨1, 3, 1, 1, 1, 0⟩
     (by decide) (by decide)).2.2⟩

/-- Claim C5: within one successful backup application from a well-formed
tracker state, the events appended by the run (dbr.events minus the prior
log) contain, for each charter present before the backup and listed in the
reconciled mapping, no event at all while its row is updated to present with
the run's backup id as last seen; exactly one disappeared event (and no
other) for each charter in the previous state whose path is absent from the
mapping; exactly one appeared event (and no other) for each stored charter
reappearing from status missing; and exactly one appeared event (and no
other) for the freshly inserted row of each brand-new path. -/
theorem process_backup_event_emission (db : Store) (cs : CState) (base : String)
    (archive : BackupArchive) (fname : String)
    (dbr : Store) (csr : CState) (stats : RunStats)
    (hInv : TrackerInv db cs)
    (hok : process_backup db cs base archive fname FailAt.noFail =
      .ok (dbr, csr, stats)) :
    (∀ pr ∈ cs, pr.1 ∈ (extract_path_mapping (unionList archive.contents_xml_paths
        archive.zip_entry_paths)).map (fun x => x.1) →
      (dbr.events.drop db.events.length).countP (fun e => e.charter_id == pr.2) = 0 ∧
      ∃ c ∈ dbr.charters, c.file_path = pr.1 ∧ c.id = pr.2 ∧
        c.current_status = Status.present ∧ c.last_seen_backup_id = stats.backup_id) ∧
    (∀ pr ∈ cs, pr.1 ∉ (extract_path_mapping (unionList archive.contents_xml_paths
        archive.zip_entry_paths)).map (fun x => x.1) →
      (dbr.events.drop db.events.length).countP
        (fun e => e.charter_id == pr.2 && e.event_type == "disappeared") = 1 ∧
      (dbr.events.drop db.events.length).countP (fun e => e.charter_id == pr.2) = 1) ∧
    (∀ p ∈ (extract_path_mapping (unionList archive.contents_xml_paths
        archive.zip_entry_paths)).map (fun x => x.1), ∀ c,
      get_charter_by_path db p = some c → c.current_status = Status.missing →
      (dbr.events.drop db.events.length).countP
        (fun e => e.charter_id == c.id && e.event_type == "appeared") = 1 ∧
      (dbr.events.drop db.events.length).countP (fun e => e.charter_id == c.id) = 1) ∧
    (∀ p ∈ (extract_path_mapping (unionList archive.contents_xml_paths
        archive.zip_entry_paths)).map (fun x => x.1),
      get_charter_by_path db p = none →
      ∃ c ∈ dbr.charters, c.file_path = p ∧ c.first_seen_backup_id = stats.backup_id ∧
        c.current_status = Status.present ∧
        (dbr.events.drop db.events.length).countP
          (fun e => e.charter_id == c.id && e.event_type == "appeared") = 1 ∧
        (dbr.events.drop db.events.length).countP (fun e => e.charter_id == c.id) = 1) := by
  obtain ⟨_, _, _, m4, m5, m6, m7⟩ := process_backup_master db cs base archive fname
    dbr csr stats _ _ hInv rfl rfl hok
  exact ⟨m4, m5, m6, m7⟩

theorem process_backup_event_emission_witness :
    TrackerInv sampleStore sampleState ∧
    process_backup sampleStore sampleState "db" sampleArchive
      "full20240101-0000.zip" FailAt.noFail =
      .ok (sampleStoreAfter, sampleStateAfter, ⟨1, 3, 1, 1, 1, 0⟩) ∧
    "db/b.xml" ∈ (extract_path_mapping (unionList sampleArchive.contents_xml_paths
      sampleArchive.zip_entry_paths)).map (fun x => x.1) ∧
    get_charter_by_path sampleStore "db/b.xml" =
      some ⟨2, "db/b.xml", "db/b.xml", "", 1, 1, Status.missing⟩ ∧
    ((sampleStoreAfter.events.drop sampleStore.events.length).countP
      (fun e => e.charter_id ==
        (⟨2, "db/b.xml", "db/b.xml", "", 1, 1, Status.missing⟩ : Charter).id &&
        e.event_type == "appeared") = 1 ∧
     (sampleStoreAfter.events.drop sampleStore.events.length).countP
      (fun e => e.charter_id ==
        (⟨2, "db/b.xml", "db/b.xml", "", 1, 1, Status.missing⟩ : Charter).id) = 1) :=
  ⟨by decide, by decide, by decide, by decide,
   (process_backup_event_emission sampleStore sampleState "db" sampleArchive
     "full20240101-0000.zip" sampleStoreAfter sampleStateAfter ⟨1, 3, 1, 1, 1, 0⟩
     (by decide) (by decide)).2.2.1 "db/b.xml" (by decide)
     ⟨2, "db/b.xml", "db/b.xml", "", 1, 1, Status.missing⟩ (by decide) (by decide)⟩

/-! ## Backup-level idempotence of the sync pipeline (claim C8) -/

theorem add_discrepancies_backups (db : Store) (ds : List DiscRec) :
    (add_discrepancies_batch db ds).backups = db.backups := rfl

theorem add_charters_backups (db : Store) (rows : List (String × String × String × Nat)) :
    (add_charters_batch db rows).1.backups = db.backups := rfl

theorem update_last_seen_backups (db : Store) (ids : List Nat) (bid : Nat) :
    (update_charters_last_seen_batch db ids bid).backups = db.backups := rfl

theorem mark_missing_backups (db : Store) (ids : List Nat) :
    (mark_charters_missing_batch db ids).backups = db.backups := rfl

theorem add_events_backups (db : Store) (evs : List EventRec) :
    (add_events_batch db evs).backups = db.backups := rfl

theorem add_backup_processed_mono (db : Store) (g d f : String)
    (h : is_backup_processed db f = true) :
    is_backup_processed (add_backup db g d).1 f = true := by
  rw [is_backup_processed] at h
  rw [is_backup_processed, add_backup]
  cases hf : db.backups.find? (fun b => b.filename == g) with
  | some b => exact h
  | none =>
    dsimp only
    rw [List.any_append, h]
    rfl

theorem mark_mono_core (bs : List BackupRec) (i n : Nat) (f : String)
    (h : bs.any (fun b => b.filename == f && b.processed) = true) :
    (bs.map (fun b => if b.id = i then { b with processed := true, charter_count := n }
      else b)).any (fun b => b.filename == f && b.processed) = true := by
  rw [List.any_eq_true] at h
  obtain ⟨b, hb, hbp⟩ := h
  rw [Bool.and_eq_true] at hbp
  rw [List.any_eq_true]
  refine ⟨if b.id = i then { b with processed := true, charter_count := n } else b,
    List.mem_map_of_mem _ hb, ?_⟩
  by_cases hbi : b.id = i
  · rw [if_pos hbi]
    simp only [Bool.and_eq_true]
    exact ⟨hbp.1, trivial⟩
  · rw [if_neg hbi]
    rw [Bool.and_eq_true]
    exact hbp

theorem mark_add_processed (db X : Store) (fname d : String) (n : Nat)
    (hX : X.backups = (add_backup db fname d).1.backups) :
    is_backup_processed (mark_backup_processed X (add_backup db fname d).2 n) fname = true := by
  rw [is_backup_processed, mark_backup_processed]
  dsimp only
  rw [hX, add_backup]
  cases hf : db.backups.find? (fun b => b.filename == fname) with
  | some b =>
    dsimp only
    rw [List.any_eq_true]
    refine ⟨if b.id = b.id then { b with processed := true, charter_count := n } else b,
      List.mem_map_of_mem _ (List.mem_of_find?_eq_some hf), ?_⟩
    rw [if_pos rfl]
    simp only [Bool.and_eq_true]
    refine ⟨?_, trivial⟩
    have hbf := List.find?_some hf
    exact hbf
  | none =>
    dsimp only
    rw [List.any_eq_true]
    refine ⟨_, List.mem_map_of_mem _
      (List.mem_append_right db.backups (List.mem_singleton_self
        (⟨db.nextBackupId, fname, d, false, 0⟩ : BackupRec))), ?_⟩
    rw [if_pos rfl]
    simp

theorem process_backup_marks (db : Store) (cs : CState) (base : String)
    (archive : BackupArchive) (fname : String) (fp : FailAt)
    (dbr : Store) (csr : CState) (stats : RunStats)
    (h : process_backup db cs base archive fname fp = .ok (dbr, csr, stats)) :
    is_backup_processed dbr fname = true := by
  cases hparse : parse_backup_filename fname with
  | none => simp [process_backup, hparse] at h
  | some bd =>
    rcases fp <;> simp [process_backup, hparse] at h
    obtain ⟨h1, h2, h3⟩ := h
    rw [← h1]
    apply mark_add_processed
    rw [add_events_backups, mark_missing_backups, add_events_backups,
      update_last_seen_backups, add_charters_backups, add_discrepancies_backups]
theorem process_backup_processed_mono (db : Store) (cs : CState) (base : String)
    (archive : BackupArchive) (fname : String) (fp : FailAt) (f : String)
    (h : is_backup_processed db f = true) :
    (∀ dbr csr stats, process_backup db cs base archive fname fp = .ok (dbr, csr, stats) →
      is_backup_processed dbr f = true) ∧
    (∀ dbr csr, process_backup db cs base archive fname fp = .error (dbr, csr) →
      is_backup_processed dbr f = true) := by
  cases hparse : parse_backup_filename fname with
  | none =>
    constructor
    · intro dbr csr stats hok
      simp [process_backup, hparse] at hok
    · intro dbr csr herr
      simp [process_backup, hparse] at herr
      rw [← herr.1]
      exact h
  | some bd =>
    have hab := add_backup_processed_mono db fname (format_datetime bd) f h
    constructor
    · intro dbr csr stats hok
      rcases fp <;> simp [process_backup, hparse] at hok
      obtain ⟨h1, h2, h3⟩ := hok
      rw [← h1]
      rw [is_backup_processed, mark_backup_processed]
      dsimp only
      rw [add_events_backups, mark_missing_backups, add_events_backups,
        update_last_seen_backups, add_charters_backups, add_discrepancies_backups]
      rw [is_backup_processed] at hab
      exact mark_mono_core _ _ _ f hab
    · intro dbr csr herr
      rcases fp <;> simp [process_backup, hparse] at herr <;>
        rw [← herr.1] <;> exact hab
theorem sync_fold_failed_ext (base : String) (archives : String → BackupArchive)
    (plan : String → FailAt) :
    ∀ (l : List String) (acc : Store × CState × List String),
    ∃ ext, (l.foldl (syncStep base archives plan) acc).2.2 = acc.2.2 ++ ext := by
  intro l
  induction l with
  | nil => intro acc; exact ⟨[], by simp⟩
  | cons g rest ih =>
    intro acc
    rw [List.foldl_cons]
    obtain ⟨ext, hext⟩ := ih (syncStep base archives plan acc g)
    rw [syncStep] at hext ⊢
    cases hr : process_backup acc.1 acc.2.1 base (archives g) g (plan g) with
    | ok t =>
      rw [hr] at hext
      dsimp only at hext ⊢
      exact ⟨ext, hext⟩
    | error t =>
      rw [hr] at hext
      dsimp only at hext ⊢
      refine ⟨[g] ++ ext, ?_⟩
      rw [hext, List.append_assoc]
theorem sync_fold_processed (base : String) (archives : String → BackupArchive)
    (plan : String → FailAt) :
    ∀ (l : List String) (acc : Store × CState × List String) (f : String),
    (l.foldl (syncStep base archives plan) acc).2.2 = acc.2.2 →
    (f ∈ l ∨ is_backup_processed acc.1 f = true) →
    is_backup_processed (l.foldl (syncStep base archives plan) acc).1 f = true := by
  intro l
  induction l with
  | nil =>
    intro acc f _ hmem
    rcases hmem with h | h
    · cases h
    · exact h
  | cons g rest ih =>
    intro acc f hfail hmem
    rw [List.foldl_cons] at hfail ⊢
    obtain ⟨ext, hext⟩ := sync_fold_failed_ext base archives plan rest
      (syncStep base archives plan acc g)
    cases hr : process_backup acc.1 acc.2.1 base (archives g) g (plan g) with
    | ok t =>
      have hstep : syncStep base archives plan acc g = (t.1, t.2.1, acc.2.2) := by
        rw [syncStep, hr]
      rw [hstep] at hfail ⊢
      have hmarks : is_backup_processed t.1 g = true :=
        process_backup_marks acc.1 acc.2.1 base (archives g) g (plan g)
          t.1 t.2.1 t.2.2 (by rw [hr])
      refine ih (t.1, t.2.1, acc.2.2) f hfail ?_
      rcases hmem with h | h
      · rcases List.mem_cons.mp h with rfl | h2
        · exact Or.inr hmarks
        · exact Or.inl h2
      · refine Or.inr ?_
        exact (process_backup_processed_mono acc.1 acc.2.1 base (archives g) g
          (plan g) f h).1 t.1 t.2.1 t.2.2 (by rw [hr])
    | error t =>
      exfalso
      have hstep : syncStep base archives plan acc g = (t.1, t.2, acc.2.2 ++ [g]) := by
        rw [syncStep, hr]
      rw [hstep] at hfail hext
      rw [hext] at hfail
      have := congrArg List.length hfail
      simp at this
/-- Claim C8: a backup already flagged processed in the Store is skipped by
cmd_sync: if every backup of the work list is flagged processed the sync run
returns the Store, the state and an empty failure list unchanged; and after
any run that reports no failures, running the pipeline again over the same
backup list (with any archive contents and any failure plan) changes nothing
and in particular inserts no duplicate charter or event rows. -/
theorem cmd_sync_skip_and_idempotent (db : Store) (cs : CState) (base : String)
    (backups : List String) (archives archives2 : String → BackupArchive)
    (plan plan2 : String → FailAt) (db1 : Store) (cs1 : CState) :
    ((∀ f ∈ backups, is_backup_processed db f = true) →
      cmd_sync db cs base backups archives plan = (db, cs, [])) ∧
    (cmd_sync db cs base backups archives plan = (db1, cs1, []) →
      cmd_sync db1 cs1 base backups archives2 plan2 = (db1, cs1, [])) := by
  constructor
  · intro h
    have hnil : backups.filter (fun f => !is_backup_processed db f) = [] :=
      List.filter_eq_nil_iff.mpr (fun f hf => by rw [h f hf]; simp)
    simp only [cmd_sync]
    rw [hnil]
    rfl
  · intro h1
    simp only [cmd_sync] at h1
    have hfail : ((backups.filter (fun f => !is_backup_processed db f)).foldl
        (syncStep base archives plan) (db, cs, [])).2.2 =
        ((db, cs, ([] : List String))).2.2 := by
      rw [h1]
    have hall : ∀ f ∈ backups, is_backup_processed db1 f = true := by
      intro f hf
      by_cases hp0 : is_backup_processed db f = true
      · have h2 := sync_fold_processed base archives plan
          (backups.filter (fun f => !is_backup_processed db f)) (db, cs, []) f
          hfail (Or.inr hp0)
        rw [h1] at h2
        exact h2
      · have hx : is_backup_processed db f = false := by
          cases hxx : is_backup_processed db f
          · rfl
          · exact absurd hxx hp0
        have hfmem : f ∈ backups.filter (fun f => !is_backup_processed db f) :=
          List.mem_filter.mpr ⟨hf, by rw [hx]; rfl⟩
        have h2 := sync_fold_processed base archives plan
          (backups.filter (fun f => !is_backup_processed db f)) (db, cs, []) f
          hfail (Or.inl hfmem)
        rw [h1] at h2
        exact h2
    have hnil : backups.filter (fun f => !is_backup_processed db1 f) = [] :=
      List.filter_eq_nil_iff.mpr (fun f hf => by rw [hall f hf]; simp)
    simp only [cmd_sync]
    rw [hnil]
    rfl

theorem cmd_sync_idempotent_witness :
    cmd_sync sampleStoreAfter sampleStateAfter "db" ["full20240101-0000.zip"]
      (fun _ => sampleArchive) (fun _ => FailAt.noFail) =
      (sampleStoreAfter, sampleStateAfter, []) ∧
    cmd_sync sampleStoreAfter sampleStateAfter "db" ["full20240101-0000.zip"]
      (fun _ => (⟨[], []⟩ : BackupArchive)) (fun _ => FailAt.atExtract) =
      (sampleStoreAfter, sampleStateAfter, []) :=
  ⟨(cmd_sync_skip_and_idempotent sampleStoreAfter sampleStateAfter "db"
      ["full20240101-0000.zip"] (fun _ => sampleArchive) (fun _ => ⟨[], []⟩)
      (fun _ => FailAt.noFail) (fun _ => FailAt.atExtract) sampleStoreAfter
      sampleStateAfter).1 (by decide),
   (cmd_sync_skip_and_idempotent sampleStore sampleState "db"
      ["full20240101-0000.zip"] (fun _ => sampleArchive) (fun _ => ⟨[], []⟩)
      (fun _ => FailAt.noFail) (fun _ => FailAt.atExtract) sampleStoreAfter
      sampleStateAfter).2 (by decide)⟩

end Mom
